import Mathlib

/-
Verification of the mutation-merging core: range tombstone lists
(range_tombstone_list.cc), row markers and atomic cells
(mutation_partition.cc), the reversible partition merge
(mutation_partition.cc), and the materialized-view update builder
(db/view/view.cc).

Clustering keys are modelled as integers: the source compares keys only
through the schema comparator, and the unit-test schema uses a single int32
clustering column, so a linearly ordered key domain is a faithful model.
Timestamps are int64 values modelled as unbounded integers; the source only
compares them.
-/

/-- Value of api::missing_timestamp (INT64_MIN), the timestamp of an absent
tombstone or row marker. -/
def missing_timestamp : Int := -(2 ^ 63)

/-- Modelled from the spec: struct tombstone (tombstone.hh is not under src/,
only its users): a timestamp and a deletion time, totally ordered on the
timestamp with ties broken on the deletion time; the empty tombstone carries
missing_timestamp. -/
structure tombstone where
  timestamp : Int
  deletion_time : Int
deriving DecidableEq, Repr

/-- The empty tombstone (default constructed). -/
def tombstone.empty : tombstone := ⟨missing_timestamp, 0⟩

/-- Modelled from the spec: tombstone ordering, timestamp first and then the
deletion time. -/
def tombstone.lt (a b : tombstone) : Prop :=
  a.timestamp < b.timestamp ∨ (a.timestamp = b.timestamp ∧ a.deletion_time < b.deletion_time)

instance : Decidable (tombstone.lt a b) := by
  unfold tombstone.lt
  infer_instance

/-- Modelled from the spec: explicit operator bool of tombstone — a tombstone
is engaged when its timestamp is not missing. -/
def tombstone.bool (t : tombstone) : Bool := t.timestamp ≠ missing_timestamp

/-- Modelled from the spec: tombstone::apply — keep the larger tombstone. -/
def tombstone.apply (a b : tombstone) : tombstone := if tombstone.lt a b then b else a

/-- Embeds the range_tombstone value used by range_tombstone_list.cc and its
tests (the start/stop form constructed in range_tombstone.cc): an inclusive
interval of clustering keys carrying a tombstone. -/
structure range_tombstone where
  start : Int
  stop : Int
  tomb : tombstone
deriving DecidableEq, Repr

/-- Embeds range_tombstone_list::insert_from (range_tombstone_list.cc:69-186).
The list argument is the suffix of the tombstone list from the iterator
position on; insertions before the iterator become list fronts of the result.
The in-place overwrite `*it = {start, it->stop, it->tomb}` and the erase /
insert_before calls are translated branch by branch. -/
def insert_from : List range_tombstone → Int → Int → tombstone → List range_tombstone
  | [], start, stop, tomb => [⟨start, stop, tomb⟩]
  | cur :: tail, start, stop, tomb =>
    if start = cur.stop then
      if cur.start = cur.stop then
        if tomb.timestamp > cur.tomb.timestamp then
          insert_from tail start stop tomb
        else if start = stop then
          cur :: tail
        else
          cur :: insert_from tail start stop tomb
      else
        cur :: insert_from tail start stop tomb
    else if tomb.timestamp > cur.tomb.timestamp then
      let lead : List range_tombstone :=
        if cur.start < start then [⟨cur.start, start, cur.tomb⟩] else []
      if stop < cur.start then
        lead ++ ⟨start, stop, tomb⟩ :: cur :: tail
      else if stop = cur.start ∧ cur.start = cur.stop then
        lead ++ ⟨start, stop, tomb⟩ :: tail
      else if stop < cur.stop then
        lead ++ ⟨start, stop, tomb⟩ :: ⟨stop, cur.stop, cur.tomb⟩ :: tail
      else
        match tail with
        | [] => lead ++ [⟨start, stop, tomb⟩]
        | next :: tail2 =>
          if ¬ next.start < stop then
            lead ++ ⟨start, stop, tomb⟩ :: next :: tail2
          else if stop = cur.stop then
            lead ++ ⟨start, cur.stop, tomb⟩ :: next :: tail2
          else
            lead ++ ⟨start, cur.stop, tomb⟩ :: insert_from (next :: tail2) cur.stop stop tomb
    else
      if start < cur.start then
        if cur.start < stop then
          ⟨start, cur.start, tomb⟩ ::
            (if cur.stop < stop then cur :: insert_from tail cur.stop stop tomb else cur :: tail)
        else
          ⟨start, stop, tomb⟩ :: cur :: tail
      else
        if cur.stop < stop then
          cur :: insert_from tail cur.stop stop tomb
        else
          cur :: tail

/-- Walks to the lower bound on the interval end (the intrusive set of
range_tombstone_list.hh is keyed so that lower_bound(start) yields the first
interval whose stop is not before start, per the insert_from precondition at
range_tombstone_list.cc:57-59) and runs insert_from there. -/
def add_loop : List range_tombstone → Int → Int → tombstone → List range_tombstone
  | [], start, stop, tomb => [⟨start, stop, tomb⟩]
  | cur :: tail, start, stop, tomb =>
    if cur.stop < start then cur :: add_loop tail start stop tomb
    else insert_from (cur :: tail) start stop tomb

/-- Embeds range_tombstone_list::add (range_tombstone_list.cc:42-54): append
directly when the new range starts after the last interval ends, otherwise
locate the first interval whose end is not before the new start and run
insert_from there. -/
def range_tombstone_list.add (l : List range_tombstone) (start stop : Int) (tomb : tombstone) :
    List range_tombstone :=
  match l.getLast? with
  | none => l ++ [⟨start, stop, tomb⟩]
  | some last =>
    if ¬ last.stop < start then add_loop l start stop tomb
    else l ++ [⟨start, stop, tomb⟩]

/-- Embeds range_tombstone_list::search_tombstone_covering
(range_tombstone_list.cc:191-208): lower-bound walk on interval end, boundary
check against the found interval start, and the look-ahead to the next
interval when it also reaches the key and carries the greater tombstone. -/
def search_tombstone_covering : List range_tombstone → Int → tombstone
  | [], _ => tombstone.empty
  | it :: rest, key =>
    if it.stop < key then search_tombstone_covering rest key
    else if key < it.start then tombstone.empty
    else
      match rest with
      | [] => it.tomb
      | next :: _ =>
        if ¬ key < next.start ∧ tombstone.lt it.tomb next.tomb then next.tomb
        else it.tomb

/-- Builds a range tombstone list by a sequence of add calls starting from the
empty list, as the tests do (tests/range_tombstone_list_test.cc). -/
def build_rtlist (ops : List (Int × Int × tombstone)) : List range_tombstone :=
  ops.foldl (fun l op => range_tombstone_list.add l op.1 op.2.1 op.2.2) []

/-- A tombstone with the given timestamp and a fixed deletion time, as the
rt() helper of the tests builds them (all with gc_now). -/
def test_tomb (ts : Int) : tombstone := ⟨ts, 100⟩

/-- The add sequence of the test_overlapping_addition unit test
(tests/range_tombstone_list_test.cc:95-110). -/
def c9_ops : List (Int × Int × tombstone) :=
  [(4, 10, test_tomb 3), (1, 7, test_tomb 2), (8, 13, test_tomb 4), (0, 15, test_tomb 1)]

/-- Well-formed interval: start not after stop. -/
def wf_rt (r : range_tombstone) : Prop := r.start ≤ r.stop

/-- Adjacency invariant documented at range_tombstone_list.cc:61-67: adjacent
intervals do not overlap, and a singleton interval sharing its point with the
next interval forces that next interval to be a proper (non-singleton) one,
so [x,x][x,x] never occurs. -/
def chain_ok (a b : range_tombstone) : Prop :=
  a.stop ≤ b.start ∧ (a.start = a.stop → a.stop = b.start → b.start < b.stop)

instance : DecidableRel chain_ok := by
  unfold chain_ok
  infer_instance

/-- The full structural invariant of a range tombstone list. -/
def rtlist_inv (l : List range_tombstone) : Prop :=
  (∀ r ∈ l, wf_rt r) ∧ l.Chain' chain_ok

instance (l : List range_tombstone) : Decidable (rtlist_inv l) := by
  unfold rtlist_inv wf_rt
  infer_instance

/-- The adjacency property exactly as the claim states it: every adjacent pair
satisfies stop of the first at most start of the second, and no two adjacent
intervals are both singletons over the same point. -/
def claim_adjacent (a b : range_tombstone) : Prop :=
  a.stop ≤ b.start ∧ ¬ (a.start = a.stop ∧ b.start = b.stop ∧ a.stop = b.start)

/-- Modelled from the spec: the row_marker value type (declared in the
mutation_partition header, which is not under src/): absent, live without TTL,
live and expiring with a TTL and an expiry, or dead with a deletion time. -/
inductive row_marker
  | missing
  | live (ts : Int)
  | expiring (ts ttl expiry : Int)
  | dead (ts deletion_time : Int)
deriving DecidableEq, Repr

def row_marker.timestamp : row_marker → Int
  | .missing => missing_timestamp
  | .live ts => ts
  | .expiring ts _ _ => ts
  | .dead ts _ => ts

def row_marker.is_live : row_marker → Bool
  | .live _ => true
  | .expiring _ _ _ => true
  | _ => false

def row_marker.is_expiring : row_marker → Bool
  | .expiring _ _ _ => true
  | _ => false

def row_marker.ttl : row_marker → Int
  | .expiring _ ttl _ => ttl
  | _ => 0

def row_marker.expiry : row_marker → Int
  | .expiring _ _ e => e
  | _ => 0

def row_marker.deletion_time : row_marker → Int
  | .dead _ dt => dt
  | _ => 0

/-- Truncation of an int64 wall-clock value to a wrapping unsigned 32-bit
value, as the (uint32_t) casts at mutation_partition.cc:854-855 do. -/
def wrap_u32 (x : Int) : Int := x % 2 ^ 32

/-- Embeds compare_row_marker_for_merge (mutation_partition.cc:833-859):
larger timestamp first; on a tie the live marker compares smaller (so the
dead one wins the merge); two live expiring markers compare by expiry; two
dead markers compare by deletion time cast to uint32. -/
def compare_row_marker_for_merge (left right : row_marker) : Int :=
  if left.timestamp ≠ right.timestamp then
    if left.timestamp > right.timestamp then 1 else -1
  else if left.is_live ≠ right.is_live then
    if left.is_live then -1 else 1
  else if left.is_live then
    if left.is_expiring ∧ right.is_expiring ∧ left.expiry ≠ right.expiry then
      if left.expiry < right.expiry then -1 else 1
    else 0
  else
    if left.deletion_time ≠ right.deletion_time then
      if wrap_u32 left.deletion_time < wrap_u32 right.deletion_time then -1 else 1
    else 0

/-- Embeds row_marker::apply_reversibly (mutation_partition.cc:1657-1663) as
the pair (new target, new source slot): the swap branch leaves the old target
in the source slot, the other branch copies the target into it. -/
def row_marker.apply_reversibly (dst src : row_marker) : row_marker × row_marker :=
  if compare_row_marker_for_merge dst src < 0 then (src, dst) else (dst, dst)

/-- Embeds row_marker::revert (mutation_partition.cc:1665-1667): swap back. -/
def row_marker.revert (dst src : row_marker) : row_marker × row_marker := (src, dst)

/-- Modelled from the spec: an atomic cell (the atomic cell header is not
under src/): a timestamp with either a live value, a live value plus TTL and
expiry, or a dead marker with a deletion time. Collection cells are outside
the model; the view code paths embedded here treat all columns as atomic. -/
inductive atomic_cell
  | live (ts value : Int)
  | live_ttl (ts value ttl expiry : Int)
  | dead (ts deletion_time : Int)
deriving DecidableEq, Repr

def atomic_cell.timestamp : atomic_cell → Int
  | .live ts _ => ts
  | .live_ttl ts _ _ _ => ts
  | .dead ts _ => ts

def atomic_cell.is_live : atomic_cell → Bool
  | .dead _ _ => false
  | _ => true

def atomic_cell.is_live_and_has_ttl : atomic_cell → Bool
  | .live_ttl _ _ _ _ => true
  | _ => false

def atomic_cell.value : atomic_cell → Int
  | .live _ v => v
  | .live_ttl _ v _ _ => v
  | .dead _ _ => 0

def atomic_cell.ttl : atomic_cell → Int
  | .live_ttl _ _ ttl _ => ttl
  | _ => 0

def atomic_cell.expiry : atomic_cell → Int
  | .live_ttl _ _ _ e => e
  | _ => 0

def atomic_cell.deletion_time : atomic_cell → Int
  | .dead _ dt => dt
  | .live_ttl _ _ ttl e => e - ttl
  | .live _ _ => 0

/-- Modelled from the spec: compare_atomic_cell_for_merge (declared outside
src/): the cell with the larger timestamp wins; if timestamps tie, a live
cell wins over a dead one; if both are live with TTL, the one with the later
expiry wins; if both are dead, the one with the larger wrapping 32-bit
deletion time wins. -/
def compare_atomic_cell_for_merge (left right : atomic_cell) : Int :=
  if left.timestamp ≠ right.timestamp then
    if left.timestamp > right.timestamp then 1 else -1
  else if left.is_live ≠ right.is_live then
    if left.is_live then 1 else -1
  else if left.is_live then
    if left.is_live_and_has_ttl ∧ right.is_live_and_has_ttl ∧ left.expiry ≠ right.expiry then
      if left.expiry < right.expiry then -1 else 1
    else 0
  else
    if left.deletion_time ≠ right.deletion_time then
      if wrap_u32 left.deletion_time < wrap_u32 right.deletion_time then -1 else 1
    else 0

/-- A clustering row as the view update path consumes it: clustering key, row
tombstone, row marker, and the regular cells keyed by column id. -/
structure clustering_row where
  key : Int
  tomb : tombstone
  marker : row_marker
  cells : List (Nat × atomic_cell)
deriving DecidableEq, Repr

/-- Embeds row::find_cell (mutation_partition.cc:1095-1108) as association
lookup by column id. -/
def find_cell : List (Nat × atomic_cell) → Nat → Option atomic_cell
  | [], _ => none
  | (id, c) :: rest, want => if id = want then some c else find_cell rest want

/-- Modelled from the spec: clustering_row::empty — no row tombstone, no row
marker and no cells. -/
def clustering_row.empty (r : clustering_row) : Bool :=
  !r.tomb.bool && r.marker == row_marker.missing && r.cells.isEmpty

/-- The expiry-maximising step of view_updates::compute_row_marker
(maybe_update_expiry_and_ttl, db/view/view.cc:222-229): a live cell with TTL
whose expiry exceeds the accumulator replaces the accumulated (ttl, expiry)
pair. -/
def crm_step (p : Int × Int) (c : Nat × atomic_cell) : Int × Int :=
  if c.2.is_live_and_has_ttl ∧ c.2.expiry > p.2 then (c.2.ttl, c.2.expiry) else p

/-- The expiries of the live-with-TTL cells of a row, in row order. -/
def live_ttl_expiries (cells : List (Nat × atomic_cell)) : List Int :=
  cells.filterMap (fun c => if c.2.is_live_and_has_ttl then some c.2.expiry else none)

/-- Embeds view_updates::compute_row_marker (db/view/view.cc:181-241). col is
the base-non-primary-key column of the view primary key when one exists (a
disengaged pointer is none). The result is none when the source would throw
(cell_at on an absent column). -/
def compute_row_marker (col : Option Nat) (base_row : clustering_row) : Option row_marker :=
  let marker := base_row.marker
  match col with
  | some id =>
    match find_cell base_row.cells id with
    | none => none
    | some cell =>
      let ts := max marker.timestamp cell.timestamp
      some (if cell.is_live_and_has_ttl then row_marker.expiring ts cell.ttl cell.expiry
            else row_marker.live ts)
  | none =>
    if ¬ marker.is_expiring then some marker
    else
      let p := base_row.cells.foldl crm_step (marker.ttl, marker.expiry)
      some (row_marker.expiring marker.timestamp p.1 p.2)

inductive view_action
  | no_op
  | create
  | update_entry
  | delete_old
  | replace
deriving DecidableEq, Repr

/-- Embeds the decision structure of view_updates::generate_update
(db/view/view.cc:359-413), reduced to which entry operation runs. key_full
mirrors update.key().is_full(base); col is the base-non-primary-key column in
the view primary key. The replace action stands for replace_entry
(view_update_builder.hh:73-76), which creates the new view entry and then
deletes the old one. -/
def generate_update_action (key_full : Bool) (col : Option Nat)
    (update : clustering_row) (existing : Option clustering_row) : view_action :=
  if ¬ key_full then .no_op
  else
    match col with
    | none =>
      match existing with
      | some ex =>
        if ¬ ex.empty then
          if update.empty then .delete_old else .update_entry
        else if ¬ update.empty then .create
        else .no_op
      | none => if ¬ update.empty then .create else .no_op
    | some id =>
      let after := find_cell update.cells id
      match existing with
      | some ex =>
        match find_cell ex.cells id with
        | some before =>
          match after with
          | some a =>
            if compare_atomic_cell_for_merge before a = 0 then .replace else .update_entry
          | none => .delete_old
        | none => if after.isSome then .create else .no_op
      | none => if after.isSome then .create else .no_op

/-- Modelled from the spec: row_marker::compact_and_expire as invoked at
db/view/view.cc:439 and 444 with an empty covering tombstone and the
always-gc predicate: drop a marker covered by the tombstone, convert an
expired marker into a dead one, and drop dead markers older than gc_before. -/
def row_marker.compact_and_expire (m : row_marker) (tomb : tombstone) (now gc_before : Int) :
    row_marker :=
  match m with
  | .missing => .missing
  | .live ts => if ts ≤ tomb.timestamp then .missing else .live ts
  | .expiring ts ttl expiry =>
    if ts ≤ tomb.timestamp then .missing
    else if expiry < now then
      if expiry - ttl < gc_before then .missing else .dead ts (expiry - ttl)
    else .expiring ts ttl expiry
  | .dead ts dt =>
    if ts ≤ tomb.timestamp then .missing
    else if dt < gc_before then .missing else .dead ts dt

/-- Embeds the atomic-cell branch of row::compact_and_expire
(mutation_partition.cc:1518-1535) with the always-gc predicate: cells covered
by the tombstone are dropped, expired cells become dead cells, and dead cells
whose deletion time precedes gc_before are dropped. -/
def cells_compact_and_expire (cells : List (Nat × atomic_cell)) (tomb : tombstone)
    (now gc_before : Int) : List (Nat × atomic_cell) :=
  cells.filterMap (fun c =>
    if c.2.timestamp ≤ tomb.timestamp then none
    else if c.2.is_live_and_has_ttl ∧ c.2.expiry < now then
      some (c.1, atomic_cell.dead c.2.timestamp c.2.deletion_time)
    else if ¬ c.2.is_live then
      if c.2.deletion_time < gc_before then none else some c
    else some c)

/-- Modelled from the spec: merging one row of cells into another under the
last-write-wins rule of the cell merge order. -/
def merge_cells (dst src : List (Nat × atomic_cell)) : List (Nat × atomic_cell) :=
  src.foldl
    (fun acc c =>
      match find_cell acc c.1 with
      | none => acc ++ [c]
      | some d =>
        acc.map (fun e =>
          if e.1 = c.1 then
            (e.1, if compare_atomic_cell_for_merge d c.2 < 0 then c.2 else d)
          else e))
    dst

/-- Modelled from the spec: clustering_row::apply — merge the other row into
this one: row tombstones by maximum, markers by the merge order, cells by
last-write-wins. -/
def clustering_row.apply (dst src : clustering_row) : clustering_row :=
  { key := dst.key
    tomb := dst.tomb.apply src.tomb
    marker := (dst.marker.apply_reversibly src.marker).1
    cells := merge_cells dst.cells src.cells }

inductive view_builder_error
  | empty_materialized_view_updated
deriving DecidableEq, Repr

/-- Embeds view_update_builder::impl::generate_update
(db/view/view.cc:429-450): throws std::logic_error when the update row is
empty; otherwise compacts the pre-image, merges it into the update, compacts
the update, and hands the pair to every view. The ok value is the pair handed
to view_updates::generate_update. -/
def impl_generate_update (now gc_before : Int) (update : clustering_row)
    (existing : Option clustering_row) :
    Except view_builder_error (clustering_row × Option clustering_row) :=
  if update.empty then .error .empty_materialized_view_updated
  else
    let existing2 := existing.map (fun ex =>
      { ex with
        marker := ex.marker.compact_and_expire tombstone.empty now gc_before
        cells := cells_compact_and_expire ex.cells tombstone.empty now gc_before })
    let update2 :=
      match existing2 with
      | some ex => update.apply ex
      | none => update
    let update3 :=
      { update2 with
        marker := update2.marker.compact_and_expire tombstone.empty now gc_before
        cells := cells_compact_and_expire update2.cells tombstone.empty now gc_before }
    .ok (update3, existing2)

/-- A stream fragment of the view update builder: a clustering row or a range
tombstone fragment at some clustering position. -/
inductive mutation_fragment
  | clustering (r : clustering_row)
  | rt_marker (pos : Int) (t : tombstone)
deriving DecidableEq, Repr

def mutation_fragment.position : mutation_fragment → Int
  | .clustering r => r.key
  | .rt_marker p _ => p

def mutation_fragment.is_range_tombstone : mutation_fragment → Bool
  | .rt_marker _ _ => true
  | _ => false

/-- Three-way comparison over modelled clustering positions, as
position_in_partition::tri_compare produces it. -/
def tri_compare (a b : Int) : Int := if a < b then -1 else if a = b then 0 else 1

inductive builder_step
  | advance_updates
  | advance_existings
  | advance_all
  | stop_build
  | assert_failed
deriving DecidableEq, Repr

/-- Embeds the control flow of view_update_builder::impl::on_results
(db/view/view.cc:452-521), reduced to which stream(s) the builder advances;
assert_failed marks the asserts at view.cc:491 and 495 firing. The second
comparison test at view.cc:470 reads cmp < 0 and is translated exactly as
written. -/
def on_results (update_tracker_tomb : tombstone)
    (update existing : Option mutation_fragment) : builder_step :=
  match update, existing with
  | some u, some e =>
    let cmp := tri_compare u.position e.position
    if cmp < 0 then .advance_updates
    else if cmp < 0 then .advance_existings
    else
      match u with
      | .rt_marker _ _ =>
        match e with
        | .rt_marker _ _ => .advance_all
        | .clustering _ => .assert_failed
      | .clustering _ =>
        match e with
        | .rt_marker _ _ => .assert_failed
        | .clustering _ => .advance_all
  | _, _ =>
    if update_tracker_tomb.bool ∧ existing.isSome then .advance_existings
    else
      match update with
      | some u => if ¬ u.is_range_tombstone then .advance_updates else .stop_build
      | none => .stop_build

/-- Concrete rows for the builder merge-join counterexample: the existing row
sits strictly before the update row in clustering order. -/
def c6_existing_row : clustering_row :=
  ⟨1, tombstone.empty, row_marker.live 5, [(0, atomic_cell.live 5 7)]⟩

def c6_update_row : clustering_row :=
  ⟨2, tombstone.empty, row_marker.live 6, [(0, atomic_cell.live 6 8)]⟩

/-- Concrete rows witnessing the replace decision: the identity column 0
holds merge-order-equal cells on both sides while column 1 differs. -/
def c8_existing_row : clustering_row :=
  ⟨0, tombstone.empty, row_marker.live 1, [(0, atomic_cell.live 1 7), (1, atomic_cell.live 1 3)]⟩

def c8_update_row : clustering_row :=
  ⟨0, tombstone.empty, row_marker.live 2, [(0, atomic_cell.live 1 7), (1, atomic_cell.live 2 4)]⟩

/-- A cell slot as stored in a row during the reversible merge: the cell may
be disengaged (moved out), and the revert flag of mutation_partition.cc:925-929
travels beside it. -/
structure cell_slot where
  cell : Option atomic_cell
  revert : Bool
deriving DecidableEq, Repr

/-- A row of the merge model: cell slots keyed by column id in increasing id
order (the set storage of row; the vector storage is the same mapping in a
dense representation, compared equal by content). -/
abbrev mrow := List (Nat × cell_slot)

/-- Embeds apply_reversibly on atomic cells (mutation_partition.cc:920-936):
when the source cell wins the merge order the two cells swap and the revert
flag is set on the source slot; otherwise the flag is cleared there. -/
def cell_apply_reversibly (dst src : atomic_cell) : atomic_cell × cell_slot :=
  if compare_atomic_cell_for_merge dst src < 0 then (src, ⟨some dst, true⟩)
  else (dst, ⟨some src, false⟩)

/-- Embeds revert on atomic cells (mutation_partition.cc:938-952): swap back
exactly when the revert flag is set. -/
def cell_revert (dst : atomic_cell) (src : cell_slot) : atomic_cell × cell_slot :=
  if src.revert then
    match src.cell with
    | some sc => (sc, ⟨some dst, false⟩)
    | none => (dst, src)
  else (dst, src)

/-- Embeds row::apply_reversibly for one column (mutation_partition.cc:
1038-1051, set storage): find the lower bound by id; an absent id allocates a
new cell entry (one unit of fuel; failure point) and moves the source cell
into it, leaving the source slot disengaged; a present id merges in place. -/
def mrow_apply_cell : mrow → Nat → cell_slot → Nat → Except Unit (mrow × cell_slot × Nat)
  | [], id, v, fuel =>
    if fuel = 0 then .error ()
    else .ok ([(id, ⟨v.cell, v.revert⟩)], ⟨none, false⟩, fuel - 1)
  | (cid, c) :: rest, id, v, fuel =>
    if id < cid then
      if fuel = 0 then .error ()
      else .ok ((id, ⟨v.cell, v.revert⟩) :: (cid, c) :: rest, ⟨none, false⟩, fuel - 1)
    else if id = cid then
      match c.cell, v.cell with
      | some dc, some vc =>
        let r := cell_apply_reversibly dc vc
        .ok ((cid, ⟨some r.1, c.revert⟩) :: rest, r.2, fuel)
      | _, _ => .ok ((cid, c) :: rest, v, fuel)
    else
      match mrow_apply_cell rest id v fuel with
      | .error e => .error e
      | .ok (rest2, v2, fuel2) => .ok ((cid, c) :: rest2, v2, fuel2)

/-- Embeds row::revert for one column (mutation_partition.cc:1054-1077, set
storage): a disengaged source slot marks a cell the merge inserted — the cell
moves back to the source and the entry is erased; otherwise the cell-level
revert runs in place. -/
def mrow_revert_cell : mrow → Nat → cell_slot → mrow × cell_slot
  | [], _, src => ([], src)
  | (cid, c) :: rest, id, src =>
    if id = cid then
      match src.cell with
      | none => (rest, ⟨c.cell, false⟩)
      | some _ =>
        match c.cell with
        | some dc =>
          let r := cell_revert dc src
          ((cid, ⟨some r.1, c.revert⟩) :: rest, r.2)
        | none => ((cid, c) :: rest, src)
    else
      let r := mrow_revert_cell rest id src
      ((cid, c) :: r.1, r.2)

/-- Embeds row::apply_reversibly over a whole row (mutation_partition.cc:
1468-1482) through for_each_cell with rollback (965-1002): source cells are
applied in order; on failure the already-applied prefix is rolled back in
reverse and the error value is the restored target row. -/
def mrow_apply_reversibly : mrow → mrow → Nat → Except mrow (mrow × mrow × Nat)
  | dst, [], fuel => .ok (dst, [], fuel)
  | dst, (id, v) :: rest, fuel =>
    match mrow_apply_cell dst id v fuel with
    | .error _ => .error dst
    | .ok (dst1, v1, fuel1) =>
      match mrow_apply_reversibly dst1 rest fuel1 with
      | .ok (dst2, rest2, fuel2) => .ok (dst2, (id, v1) :: rest2, fuel2)
      | .error d2 => .error (mrow_revert_cell d2 id v1).1

/-- Embeds row::revert over a whole row (mutation_partition.cc:1512-1516). -/
def mrow_revert : mrow → mrow → mrow × mrow
  | dst, [] => (dst, [])
  | dst, (id, v) :: rest =>
    let r := mrow_revert_cell dst id v
    let r2 := mrow_revert r.1 rest
    (r2.1, (id, r.2) :: r2.2)

/-- Modelled from the spec: tombstone::apply_reversibly (tombstone.hh is not
under src/) — apply, keeping the prior target value in the source slot so the
application can be undone. -/
def tombstone.apply_reversibly (dst src : tombstone) : tombstone × tombstone :=
  (dst.apply src, dst)

/-- Modelled from the spec: tombstone::revert — swap back. -/
def tombstone.revert (dst src : tombstone) : tombstone × tombstone := (src, dst)

/-- The clustering-row payload of a rows entry: row tombstone, row marker and
cells (the deletable_row of the data model). -/
structure deletable_row where
  deleted_at : tombstone
  marker : row_marker
  cells : mrow
deriving DecidableEq, Repr

/-- Modelled from the spec: deletable_row::empty — no row tombstone, no row
marker and no cells. -/
def deletable_row.empty (r : deletable_row) : Bool :=
  !r.deleted_at.bool && r.marker == row_marker.missing && r.cells.isEmpty

/-- Embeds deletable_row::apply_reversibly (mutation_partition.cc:869-873):
cells first (the only step that can fail, rolling itself back), then the row
tombstone and marker, both noexcept. The error value is the target row as the
internal rollback leaves it. -/
def deletable_row.apply_reversibly (dst src : deletable_row) (fuel : Nat) :
    Except deletable_row (deletable_row × deletable_row × Nat) :=
  match mrow_apply_reversibly dst.cells src.cells fuel with
  | .error d => .error { dst with cells := d }
  | .ok (cells2, scells2, fuel2) =>
    let td := tombstone.apply_reversibly dst.deleted_at src.deleted_at
    let md := row_marker.apply_reversibly dst.marker src.marker
    .ok ({ deleted_at := td.1, marker := md.1, cells := cells2 },
         { deleted_at := td.2, marker := md.2, cells := scells2 }, fuel2)

/-- Embeds deletable_row::revert (mutation_partition.cc:875-879). -/
def deletable_row.revert (dst src : deletable_row) : deletable_row × deletable_row :=
  let c := mrow_revert dst.cells src.cells
  let t := tombstone.revert dst.deleted_at src.deleted_at
  let m := row_marker.revert dst.marker src.marker
  (⟨t.1, m.1, c.1⟩, ⟨t.2, m.2, c.2⟩)

/-- The neutral rows entry payload constructed for revert at
mutation_partition.cc:221: a default deletable_row. -/
def neutral_row : deletable_row := ⟨tombstone.empty, row_marker.missing, []⟩

/-- The clustering-row set: entries keyed by clustering key in increasing
order. -/
abbrev rows_type := List (Int × deletable_row)

def rows_find : rows_type → Int → Option deletable_row
  | [], _ => none
  | (k, r) :: rest, want => if k = want then some r else rows_find rest want

/-- Sorted insertion of a fresh entry, as insert_before at the lower bound
(mutation_partition.cc:218-226) does. -/
def rows_insert : rows_type → Int → deletable_row → rows_type
  | [], k, r => [(k, r)]
  | (k2, r2) :: rest, k, r =>
    if k < k2 then (k, r) :: (k2, r2) :: rest
    else (k2, r2) :: rows_insert rest k r

def rows_update : rows_type → Int → deletable_row → rows_type
  | [], _, _ => []
  | (k2, r2) :: rest, k, r =>
    if k2 = k then (k2, r) :: rest else (k2, r2) :: rows_update rest k r

def rows_remove : rows_type → Int → rows_type
  | [], _ => []
  | (k2, r2) :: rest, k => if k2 = k then rest else (k2, r2) :: rows_remove rest k

/-- Embeds the per-entry action of revert_intrusive_set_range
(mutation_partition.cc:169-187): an empty source entry is taken to mark a row
the merge inserted, so the corresponding target row is erased; otherwise the
target row is reverted against the source entry. Entries act on distinct keys,
so the processing order among entries does not change the resulting target. -/
def rows_revert_entry (dst : rows_type) (k : Int) (e : deletable_row) : rows_type :=
  if e.empty then rows_remove dst k
  else
    match rows_find dst k with
    | some dr => rows_update dst k (deletable_row.revert dr e).1
    | none => dst

/-- Embeds apply_reversibly_intrusive_set (mutation_partition.cc:200-237):
empty source rows are dropped up front; a source row whose key is absent from
the target allocates a neutral entry (one unit of fuel; failure point) and
moves into the target; a present key merges rows in place. On failure the
processed prefix is reverted and the error value is the reverted target. -/
def rows_apply_reversibly : rows_type → rows_type → Nat →
    Except rows_type (rows_type × rows_type × Nat)
  | dst, [], fuel => .ok (dst, [], fuel)
  | dst, (k, r) :: rest, fuel =>
    if r.empty then rows_apply_reversibly dst rest fuel
    else
      match rows_find dst k with
      | none =>
        if fuel = 0 then .error dst
        else
          match rows_apply_reversibly (rows_insert dst k r) rest (fuel - 1) with
          | .ok (dst2, rest2, fuel2) => .ok (dst2, (k, neutral_row) :: rest2, fuel2)
          | .error d2 => .error (rows_revert_entry d2 k neutral_row)
      | some dr =>
        match deletable_row.apply_reversibly dr r fuel with
        | .error dr2 => .error (rows_update dst k dr2)
        | .ok (dr1, r1, fuel1) =>
          match rows_apply_reversibly (rows_update dst k dr1) rest fuel1 with
          | .ok (dst2, rest2, fuel2) => .ok (dst2, (k, r1) :: rest2, fuel2)
          | .error d2 => .error (rows_revert_entry d2 k r1)

/-- The mutation partition: partition tombstone, static row, range tombstone
list and the clustering-row set. -/
structure mutation_partition where
  tomb : tombstone
  static_row : mrow
  row_tombstones : List range_tombstone
  rows : rows_type
deriving DecidableEq, Repr

/-- Modelled from the spec: range_tombstone_list::apply_reversibly (not under
src/) — merge the other list by a sequence of add calls, each insertion
consuming one unit of fuel, while tracking enough to restore the pre-merge
list; a failure leaves the target list as it was before the call. -/
def rtlist_apply_reversibly : List range_tombstone → List range_tombstone → Nat →
    Except Unit (List range_tombstone × Nat)
  | dst, [], fuel => .ok (dst, fuel)
  | dst, rt :: rest, fuel =>
    if fuel = 0 then .error ()
    else rtlist_apply_reversibly (range_tombstone_list.add dst rt.start rt.stop rt.tomb)
      rest (fuel - 1)

/-- Embeds mutation_partition::apply (mutation_partition.cc:348-366) with an
allocation budget: every allocation consumes one unit of fuel and fails when
the budget is exhausted, modelling an allocation failure at that point. The
error value is the target partition as the revert machinery leaves it: a
failing step has rolled itself back, and the deferred reverters of the
completed steps run in reverse registration order (the partition tombstone is
only applied once nothing can fail any more). -/
def mutation_partition.apply (dst src : mutation_partition) (fuel : Nat) :
    Except mutation_partition mutation_partition :=
  match rtlist_apply_reversibly dst.row_tombstones src.row_tombstones fuel with
  | .error _ => .error dst
  | .ok (rtl1, fuel1) =>
    match mrow_apply_reversibly dst.static_row src.static_row fuel1 with
    | .error dstatic =>
      .error { tomb := dst.tomb, static_row := dstatic,
               row_tombstones := dst.row_tombstones, rows := dst.rows }
    | .ok (static1, sstatic1, fuel2) =>
      match rows_apply_reversibly dst.rows src.rows fuel2 with
      | .error drows =>
        .error { tomb := dst.tomb,
                 static_row := (mrow_revert static1 sstatic1).1,
                 row_tombstones := dst.row_tombstones, rows := drows }
      | .ok (rows1, _, _) =>
        .ok { tomb := dst.tomb.apply src.tomb, static_row := static1,
              row_tombstones := rtl1, rows := rows1 }

/-- Rows compared by cell content, as atomic cell equality compares the
serialized cells. -/
def mrow_equal (a b : mrow) : Bool :=
  (a.map (fun e => (e.1, e.2.cell))) == (b.map (fun e => (e.1, e.2.cell)))

/-- Embeds mutation_partition::equal (mutation_partition.cc:892-917): the
partition tombstones, the clustering rows elementwise by key and row content,
the range tombstone lists elementwise, and the static rows must agree. -/
def mutation_partition.equal (a b : mutation_partition) : Bool :=
  a.tomb == b.tomb &&
  (a.rows.length == b.rows.length &&
    (List.zip a.rows b.rows).all (fun p =>
      p.1.1 == p.2.1 && p.1.2.deleted_at == p.2.2.deleted_at &&
      p.1.2.marker == p.2.2.marker && mrow_equal p.1.2.cells p.2.2.cells)) &&
  a.row_tombstones == b.row_tombstones &&
  mrow_equal a.static_row b.static_row

/-- A target partition holding one cells-only clustering row (no row marker,
no row tombstone): the pre-call state for the exception-safety failing
input. -/
def c1_target : mutation_partition :=
  { tomb := tombstone.empty
    static_row := []
    row_tombstones := []
    rows := [(1, ⟨tombstone.empty, row_marker.missing,
      [(0, ⟨some (atomic_cell.live 3 7), false⟩)]⟩)] }

/-- A delta partition holding a marker-only row at the same key 1 and a
second row at key 2 whose insertion is where the allocation fails. -/
def c1_delta : mutation_partition :=
  { tomb := tombstone.empty
    static_row := []
    row_tombstones := []
    rows := [(1, ⟨tombstone.empty, row_marker.live 5, []⟩),
             (2, ⟨tombstone.empty, row_marker.live 4, []⟩)] }

/-- The state apply leaves the target in after the failure: the row at key 1
has been erased outright. -/
def c1_corrupted : mutation_partition :=
  { tomb := tombstone.empty
    static_row := []
    row_tombstones := []
    rows := [] }

/-- Association lookup in a key-ordered list. -/
def alist_find {κ ν : Type} [DecidableEq κ] : List (κ × ν) → κ → Option ν
  | [], _ => none
  | (k, v) :: rest, want => if k = want then some v else alist_find rest want

/-- Sorted insert-or-combine: a fresh key is inserted at its lower bound, an
existing key has its value combined with g (old value first). -/
def alist_put {κ ν : Type} [LinearOrder κ] (g : ν → ν → ν) :
    List (κ × ν) → κ → ν → List (κ × ν)
  | [], k, v => [(k, v)]
  | (k2, v2) :: rest, k, v =>
    if k < k2 then (k, v) :: (k2, v2) :: rest
    else if k = k2 then (k2, g v2 v) :: rest
    else (k2, v2) :: alist_put g rest k v

/-- Folding the source entries into the target with alist_put, skipping source
entries the keep predicate rejects. -/
def alist_merge {κ ν : Type} [LinearOrder κ] (g : ν → ν → ν) (keep : ν → Bool)
    (dst src : List (κ × ν)) : List (κ × ν) :=
  src.foldl (fun acc e => if keep e.2 then alist_put g acc e.1 e.2 else acc) dst

/-- Strictly increasing keys. -/
def alist_sorted {κ ν : Type} [LinearOrder κ] (l : List (κ × ν)) : Prop :=
  l.Pairwise (fun a b => a.1 < b.1)

/-- The cell-slot merge the successful path of row::apply_reversibly leaves in
the target slot. -/
def slot_merge (c v : cell_slot) : cell_slot :=
  match c.cell, v.cell with
  | some dc, some vc => ⟨some (cell_apply_reversibly dc vc).1, c.revert⟩
  | _, _ => c

/-- The row merge the successful path of deletable_row::apply_reversibly
leaves in the target row. -/
def drow_merge (d s : deletable_row) : deletable_row :=
  { deleted_at := d.deleted_at.apply s.deleted_at
    marker := (d.marker.apply_reversibly s.marker).1
    cells := alist_merge slot_merge (fun _ => true) d.cells s.cells }

/-- The merged partition the successful path of mutation_partition::apply
leaves in the target (merge(P, Q) is the state of a copy of P after
P.apply(s, Q) returns; the theorem mutation_partition_apply_ok_agrees below
ties this to the fuelled embedding). -/
def mutation_partition.merge (a b : mutation_partition) : mutation_partition :=
  { tomb := a.tomb.apply b.tomb
    static_row := alist_merge slot_merge (fun _ => true) a.static_row b.static_row
    row_tombstones := b.row_tombstones.foldl
      (fun l rt => range_tombstone_list.add l rt.start rt.stop rt.tomb) a.row_tombstones
    rows := alist_merge drow_merge (fun r => !r.empty) a.rows b.rows }

/-- Two cells merge deterministically in either order when they are identical
or carry different timestamps. -/
def cell_tie_free (c1 c2 : atomic_cell) : Prop := c1 = c2 ∨ c1.timestamp ≠ c2.timestamp

/-- Two row markers merge deterministically in either order when they are
identical or carry different timestamps. -/
def marker_tie_free (m1 m2 : row_marker) : Prop := m1 = m2 ∨ m1.timestamp ≠ m2.timestamp

/-- Every atomic cell stored in the partition (static row and clustering
rows). -/
def mp_all_cells (p : mutation_partition) : List atomic_cell :=
  p.static_row.filterMap (fun e => e.2.cell) ++
    p.rows.foldr (fun e acc => e.2.cells.filterMap (fun c => c.2.cell) ++ acc) []

/-- Every row marker stored in the partition. -/
def mp_all_markers (p : mutation_partition) : List row_marker :=
  p.rows.map (fun e => e.2.marker)

/-- Structural well-formedness of a partition value: static row and per-row
cells strictly ordered by column id with engaged slots and clear revert flags,
rows strictly ordered by clustering key, row tombstone timestamps no smaller
than missing, and markers either missing or with a timestamp above missing. -/
def mp_wf (p : mutation_partition) : Prop :=
  alist_sorted p.static_row ∧
  (∀ e ∈ p.static_row, e.2.cell.isSome = true ∧ e.2.revert = false) ∧
  alist_sorted p.rows ∧
  (∀ e ∈ p.rows, alist_sorted e.2.cells ∧
    (∀ c ∈ e.2.cells, c.2.cell.isSome = true ∧ c.2.revert = false) ∧
    e.2.deleted_at.timestamp ≥ missing_timestamp ∧
    (e.2.marker = row_marker.missing ∨ e.2.marker.timestamp > missing_timestamp))

/-- The same partition value represented with a differently segmented range
tombstone list: two intervals at the same timestamp. -/
def c3_p1 : mutation_partition :=
  { tomb := tombstone.empty
    static_row := []
    row_tombstones := [⟨0, 5, test_tomb 1⟩, ⟨5, 10, test_tomb 1⟩]
    rows := [] }

def c3_p2 : mutation_partition :=
  { tomb := tombstone.empty
    static_row := []
    row_tombstones := [⟨0, 10, test_tomb 1⟩]
    rows := [] }

def c3_empty : mutation_partition :=
  { tomb := tombstone.empty, static_row := [], row_tombstones := [], rows := [] }

/-- A partition with one row whose marker is live and expiring. -/
def c3_q1 : mutation_partition :=
  { tomb := tombstone.empty
    static_row := []
    row_tombstones := []
    rows := [(0, ⟨tombstone.empty, row_marker.expiring 5 1 10, []⟩)] }

/-- A partition with one row at the same key whose marker is live without a
TTL and carries the same timestamp. -/
def c3_q2 : mutation_partition :=
  { tomb := tombstone.empty
    static_row := []
    row_tombstones := []
    rows := [(0, ⟨tombstone.empty, row_marker.live 5, []⟩)] }

/-- A partition holding a completely empty row entry at key 0. -/
def c3_r1 : mutation_partition :=
  { tomb := tombstone.empty
    static_row := []
    row_tombstones := []
    rows := [(0, ⟨tombstone.empty, row_marker.missing, []⟩)] }

/-- Inclusive interval membership: the range tombstone covers the key. -/
def rt_covers (r : range_tombstone) (k : Int) : Prop := r.start <= k ∧ k <= r.stop

instance {r : range_tombstone} {k : Int} : Decidable (rt_covers r k) := by
  unfold rt_covers
  infer_instance

/-- An insertion operation (start, stop, tombstone) covers the key. -/
def op_covers (op : Int × Int × tombstone) (k : Int) : Prop := op.1 <= k ∧ k <= op.2.1

instance {op : Int × Int × tombstone} {k : Int} : Decidable (op_covers op k) := by
  unfold op_covers
  infer_instance

/-- The timestamp invariant behind the next-interval look-ahead of
search_tombstone_covering: when a singleton interval shares its point with the
start of the following interval, the follower's timestamp does not exceed the
singleton's (insert_from erases or absorbs the singleton otherwise). -/
def snext (a b : range_tombstone) : Prop :=
  a.start = a.stop → a.stop = b.start → b.tomb.timestamp <= a.tomb.timestamp

instance : DecidableRel snext := by
  unfold snext
  infer_instance

/-- The semantic invariant tying a built range tombstone list to the insertion
operations that produced it: structural invariant, the singleton look-ahead
invariant, provenance (every interval is a piece of some insertion and carries
its tombstone), and coverage (every point of every insertion is covered by an
interval whose timestamp is at least the insertion's). -/
def build_inv (ops : List (Int × Int × tombstone)) (l : List range_tombstone) : Prop :=
  rtlist_inv l ∧ l.Chain' snext ∧
  (∀ r ∈ l, ∃ op ∈ ops, op.1 <= r.start ∧ r.stop <= op.2.1 ∧ r.tomb = op.2.2) ∧
  (∀ op ∈ ops, ∀ k, op_covers op k →
    ∃ r ∈ l, rt_covers r k ∧ op.2.2.timestamp <= r.tomb.timestamp)

/-- The add sequence of the test_overlapping_previous_end_equals_start unit
test (tests/range_tombstone_list_test.cc:134-145). -/
def c4_ops : List (Int × Int × tombstone) :=
  [(11, 12, test_tomb 2), (1, 4, test_tomb 2), (4, 10, test_tomb 5)]

-- THEOREMS AND EXAMPLES ------------------------------------------------------

example : build_rtlist c9_ops =
    [⟨0, 1, test_tomb 1⟩, ⟨1, 4, test_tomb 2⟩, ⟨4, 8, test_tomb 3⟩,
     ⟨8, 13, test_tomb 4⟩, ⟨13, 15, test_tomb 1⟩] := by decide

example : build_rtlist [(1, 5, test_tomb 3), (7, 10, test_tomb 2), (10, 13, test_tomb 1)] =
    [⟨1, 5, test_tomb 3⟩, ⟨7, 10, test_tomb 2⟩, ⟨10, 13, test_tomb 1⟩] := by decide

example : build_rtlist [(7, 10, test_tomb 2), (1, 5, test_tomb 3), (10, 13, test_tomb 1)] =
    [⟨1, 5, test_tomb 3⟩, ⟨7, 10, test_tomb 2⟩, ⟨10, 13, test_tomb 1⟩] := by decide

example : build_rtlist [(0, 10, test_tomb 3), (3, 7, test_tomb 5)] =
    [⟨0, 3, test_tomb 3⟩, ⟨3, 7, test_tomb 5⟩, ⟨7, 10, test_tomb 3⟩] := by decide

example : build_rtlist [(0, 10, test_tomb 3), (3, 7, test_tomb 2)] =
    [⟨0, 10, test_tomb 3⟩] := by decide

example : build_rtlist [(4, 4, test_tomb 5), (4, 4, test_tomb 6), (4, 4, test_tomb 4)] =
    [⟨4, 4, test_tomb 6⟩] := by decide

example : build_rtlist
      [(1, 2, test_tomb 10), (7, 13, test_tomb 8), (13, 13, test_tomb 20), (13, 18, test_tomb 12)] =
    [⟨1, 2, test_tomb 10⟩, ⟨7, 13, test_tomb 8⟩, ⟨13, 13, test_tomb 20⟩, ⟨13, 18, test_tomb 12⟩] := by
  decide

example : build_rtlist [(7, 13, test_tomb 8), (13, 13, test_tomb 20), (13, 18, test_tomb 32)] =
    [⟨7, 13, test_tomb 8⟩, ⟨13, 18, test_tomb 32⟩] := by decide

example :
    let l := build_rtlist [(11, 12, test_tomb 2), (1, 4, test_tomb 2), (4, 10, test_tomb 5)]
    (search_tombstone_covering l 3).timestamp = 2 ∧
    (search_tombstone_covering l 4).timestamp = 5 ∧
    (search_tombstone_covering l 8).timestamp = 5 ∧
    l.length = 3 := by decide

example :
    let l := build_rtlist [(0, 4, test_tomb 5), (4, 6, test_tomb 2), (9, 12, test_tomb 1),
      (14, 15, test_tomb 3), (15, 17, test_tomb 6)]
    search_tombstone_covering l (-1) = tombstone.empty ∧
    (search_tombstone_covering l 0).timestamp = 5 ∧
    (search_tombstone_covering l 3).timestamp = 5 ∧
    (search_tombstone_covering l 4).timestamp = 5 ∧
    search_tombstone_covering l 18 = tombstone.empty ∧
    (search_tombstone_covering l 14).timestamp = 3 ∧
    (search_tombstone_covering l 15).timestamp = 6 := by decide

theorem rtlist_inv_nil : rtlist_inv [] := ⟨by simp, List.chain'_nil⟩

theorem rtlist_inv_cons {a : range_tombstone} {l : List range_tombstone} :
    rtlist_inv (a :: l) ↔
      wf_rt a ∧ (∀ b, l.head? = some b → chain_ok a b) ∧ rtlist_inv l := by
  unfold rtlist_inv
  rw [List.chain'_cons']
  simp only [List.mem_cons, Option.mem_def]
  constructor
  · rintro ⟨hwf, hhead, hchain⟩
    exact ⟨hwf a (Or.inl rfl), hhead, fun r hr => hwf r (Or.inr hr), hchain⟩
  · rintro ⟨hwfa, hhead, hwf, hchain⟩
    exact ⟨fun r hr => hr.elim (fun e => e ▸ hwfa) (hwf r), hhead, hchain⟩

theorem head_some_of_cons {α : Type} {x b : α} {l : List α} (h : (x :: l).head? = some b) :
    x = b := by
  simpa using h

theorem wf_rt_mk {s e : Int} {t : tombstone} : wf_rt ⟨s, e, t⟩ ↔ s ≤ e := Iff.rfl

theorem chain_ok_mk_left {s e : Int} {t : tombstone} {b : range_tombstone} :
    chain_ok ⟨s, e, t⟩ b ↔ e ≤ b.start ∧ (s = e → e = b.start → b.start < b.stop) := Iff.rfl

theorem chain_ok_mk_right {a : range_tombstone} {s e : Int} {t : tombstone} :
    chain_ok a ⟨s, e, t⟩ ↔ a.stop ≤ s ∧ (a.start = a.stop → a.stop = s → s < e) := Iff.rfl

theorem chain_ok_mk_mk {s e s2 e2 : Int} {t t2 : tombstone} :
    chain_ok ⟨s, e, t⟩ ⟨s2, e2, t2⟩ ↔ e ≤ s2 ∧ (s = e → e = s2 → s2 < e2) := Iff.rfl

/-- One-step unfolding of insert_from when the suffix has exactly one
interval (the let binding for the leading remainder is inlined). -/
theorem insert_from_one (cur : range_tombstone) (start stop : Int) (tomb : tombstone) :
    insert_from [cur] start stop tomb =
    (if start = cur.stop then
      if cur.start = cur.stop then
        if tomb.timestamp > cur.tomb.timestamp then
          insert_from [] start stop tomb
        else if start = stop then
          [cur]
        else
          cur :: insert_from [] start stop tomb
      else
        cur :: insert_from [] start stop tomb
    else if tomb.timestamp > cur.tomb.timestamp then
      if stop < cur.start then
        (if cur.start < start then [⟨cur.start, start, cur.tomb⟩] else []) ++
          [⟨start, stop, tomb⟩, cur]
      else if stop = cur.start ∧ cur.start = cur.stop then
        (if cur.start < start then [⟨cur.start, start, cur.tomb⟩] else []) ++
          [⟨start, stop, tomb⟩]
      else if stop < cur.stop then
        (if cur.start < start then [⟨cur.start, start, cur.tomb⟩] else []) ++
          [⟨start, stop, tomb⟩, ⟨stop, cur.stop, cur.tomb⟩]
      else
        (if cur.start < start then [⟨cur.start, start, cur.tomb⟩] else []) ++
          [⟨start, stop, tomb⟩]
    else
      if start < cur.start then
        if cur.start < stop then
          ⟨start, cur.start, tomb⟩ ::
            (if cur.stop < stop then cur :: insert_from [] cur.stop stop tomb else [cur])
        else
          [⟨start, stop, tomb⟩, cur]
      else
        if cur.stop < stop then
          cur :: insert_from [] cur.stop stop tomb
        else
          [cur]) := rfl

/-- One-step unfolding of insert_from when the suffix has at least two
intervals. -/
theorem insert_from_two (cur next : range_tombstone) (tail2 : List range_tombstone)
    (start stop : Int) (tomb : tombstone) :
    insert_from (cur :: next :: tail2) start stop tomb =
    (if start = cur.stop then
      if cur.start = cur.stop then
        if tomb.timestamp > cur.tomb.timestamp then
          insert_from (next :: tail2) start stop tomb
        else if start = stop then
          cur :: next :: tail2
        else
          cur :: insert_from (next :: tail2) start stop tomb
      else
        cur :: insert_from (next :: tail2) start stop tomb
    else if tomb.timestamp > cur.tomb.timestamp then
      if stop < cur.start then
        (if cur.start < start then [⟨cur.start, start, cur.tomb⟩] else []) ++
          ⟨start, stop, tomb⟩ :: cur :: next :: tail2
      else if stop = cur.start ∧ cur.start = cur.stop then
        (if cur.start < start then [⟨cur.start, start, cur.tomb⟩] else []) ++
          ⟨start, stop, tomb⟩ :: next :: tail2
      else if stop < cur.stop then
        (if cur.start < start then [⟨cur.start, start, cur.tomb⟩] else []) ++
          ⟨start, stop, tomb⟩ :: ⟨stop, cur.stop, cur.tomb⟩ :: next :: tail2
      else
        if ¬ next.start < stop then
          (if cur.start < start then [⟨cur.start, start, cur.tomb⟩] else []) ++
            ⟨start, stop, tomb⟩ :: next :: tail2
        else if stop = cur.stop then
          (if cur.start < start then [⟨cur.start, start, cur.tomb⟩] else []) ++
            ⟨start, cur.stop, tomb⟩ :: next :: tail2
        else
          (if cur.start < start then [⟨cur.start, start, cur.tomb⟩] else []) ++
            ⟨start, cur.stop, tomb⟩ :: insert_from (next :: tail2) cur.stop stop tomb
    else
      if start < cur.start then
        if cur.start < stop then
          ⟨start, cur.start, tomb⟩ ::
            (if cur.stop < stop then cur :: insert_from (next :: tail2) cur.stop stop tomb
             else cur :: next :: tail2)
        else
          ⟨start, stop, tomb⟩ :: cur :: next :: tail2
      else
        if cur.stop < stop then
          cur :: insert_from (next :: tail2) cur.stop stop tomb
        else
          cur :: next :: tail2) := rfl

theorem insert_from_eq1 {cur : range_tombstone} {tail : List range_tombstone}
    {start stop : Int} {tomb : tombstone}
    (h1 : start = cur.stop) (h2 : cur.start = cur.stop)
    (h5 : tomb.timestamp > cur.tomb.timestamp) :
    insert_from (cur :: tail) start stop tomb = insert_from tail start stop tomb := by
  cases tail with
  | nil => rw [insert_from_one, if_pos h1, if_pos h2, if_pos h5]
  | cons next tail2 => rw [insert_from_two, if_pos h1, if_pos h2, if_pos h5]

theorem insert_from_eq2 {cur : range_tombstone} {tail : List range_tombstone}
    {start stop : Int} {tomb : tombstone}
    (h1 : start = cur.stop) (h2 : cur.start = cur.stop)
    (h5 : ¬ tomb.timestamp > cur.tomb.timestamp) (h4 : start = stop) :
    insert_from (cur :: tail) start stop tomb = cur :: tail := by
  cases tail with
  | nil => rw [insert_from_one, if_pos h1, if_pos h2, if_neg h5, if_pos h4]
  | cons next tail2 => rw [insert_from_two, if_pos h1, if_pos h2, if_neg h5, if_pos h4]

theorem insert_from_eq3 {cur : range_tombstone} {tail : List range_tombstone}
    {start stop : Int} {tomb : tombstone}
    (h1 : start = cur.stop) (h2 : cur.start = cur.stop)
    (h5 : ¬ tomb.timestamp > cur.tomb.timestamp) (h4 : ¬ start = stop) :
    insert_from (cur :: tail) start stop tomb = cur :: insert_from tail start stop tomb := by
  cases tail with
  | nil => rw [insert_from_one, if_pos h1, if_pos h2, if_neg h5, if_neg h4]
  | cons next tail2 => rw [insert_from_two, if_pos h1, if_pos h2, if_neg h5, if_neg h4]

theorem insert_from_eq4 {cur : range_tombstone} {tail : List range_tombstone}
    {start stop : Int} {tomb : tombstone}
    (h1 : start = cur.stop) (h2 : ¬ cur.start = cur.stop) :
    insert_from (cur :: tail) start stop tomb = cur :: insert_from tail start stop tomb := by
  cases tail with
  | nil => rw [insert_from_one, if_pos h1, if_neg h2]
  | cons next tail2 => rw [insert_from_two, if_pos h1, if_neg h2]

theorem insert_from_eq5 {cur : range_tombstone} {tail : List range_tombstone}
    {start stop : Int} {tomb : tombstone}
    (h1 : ¬ start = cur.stop) (h5 : tomb.timestamp > cur.tomb.timestamp)
    (h6 : stop < cur.start) (hl : ¬ cur.start < start) :
    insert_from (cur :: tail) start stop tomb = ⟨start, stop, tomb⟩ :: cur :: tail := by
  cases tail with
  | nil => rw [insert_from_one, if_neg h1, if_pos h5, if_pos h6, if_neg hl, List.nil_append]
  | cons next tail2 => rw [insert_from_two, if_neg h1, if_pos h5, if_pos h6, if_neg hl, List.nil_append]

theorem insert_from_eq6 {cur : range_tombstone} {tail : List range_tombstone}
    {start stop : Int} {tomb : tombstone}
    (h1 : ¬ start = cur.stop) (h5 : tomb.timestamp > cur.tomb.timestamp)
    (h6 : ¬ stop < cur.start) (h7 : stop = cur.start ∧ cur.start = cur.stop)
    (hl : ¬ cur.start < start) :
    insert_from (cur :: tail) start stop tomb = ⟨start, stop, tomb⟩ :: tail := by
  cases tail with
  | nil => rw [insert_from_one, if_neg h1, if_pos h5, if_neg h6, if_pos h7, if_neg hl, List.nil_append]
  | cons next tail2 =>
    rw [insert_from_two, if_neg h1, if_pos h5, if_neg h6, if_pos h7, if_neg hl, List.nil_append]

theorem insert_from_eq7 {cur : range_tombstone} {tail : List range_tombstone}
    {start stop : Int} {tomb : tombstone}
    (h1 : ¬ start = cur.stop) (h5 : tomb.timestamp > cur.tomb.timestamp)
    (h6 : ¬ stop < cur.start) (h7 : ¬ (stop = cur.start ∧ cur.start = cur.stop))
    (h8 : stop < cur.stop) :
    insert_from (cur :: tail) start stop tomb =
      (if cur.start < start then [⟨cur.start, start, cur.tomb⟩] else []) ++
        ⟨start, stop, tomb⟩ :: ⟨stop, cur.stop, cur.tomb⟩ :: tail := by
  cases tail with
  | nil => rw [insert_from_one, if_neg h1, if_pos h5, if_neg h6, if_neg h7, if_pos h8]
  | cons next tail2 => rw [insert_from_two, if_neg h1, if_pos h5, if_neg h6, if_neg h7, if_pos h8]

theorem insert_from_eq8nil {cur : range_tombstone} {start stop : Int} {tomb : tombstone}
    (h1 : ¬ start = cur.stop) (h5 : tomb.timestamp > cur.tomb.timestamp)
    (h6 : ¬ stop < cur.start) (h7 : ¬ (stop = cur.start ∧ cur.start = cur.stop))
    (h8 : ¬ stop < cur.stop) :
    insert_from [cur] start stop tomb =
      (if cur.start < start then [⟨cur.start, start, cur.tomb⟩] else []) ++
        [⟨start, stop, tomb⟩] := by
  rw [insert_from_one, if_neg h1, if_pos h5, if_neg h6, if_neg h7, if_neg h8]

theorem insert_from_eq8 {cur next : range_tombstone} {tail2 : List range_tombstone}
    {start stop : Int} {tomb : tombstone}
    (h1 : ¬ start = cur.stop) (h5 : tomb.timestamp > cur.tomb.timestamp)
    (h6 : ¬ stop < cur.start) (h7 : ¬ (stop = cur.start ∧ cur.start = cur.stop))
    (h8 : ¬ stop < cur.stop) (h9 : ¬ next.start < stop) :
    insert_from (cur :: next :: tail2) start stop tomb =
      (if cur.start < start then [⟨cur.start, start, cur.tomb⟩] else []) ++
        ⟨start, stop, tomb⟩ :: next :: tail2 := by
  rw [insert_from_two, if_neg h1, if_pos h5, if_neg h6, if_neg h7, if_neg h8, if_pos h9]

theorem insert_from_eq9 {cur next : range_tombstone} {tail2 : List range_tombstone}
    {start stop : Int} {tomb : tombstone}
    (h1 : ¬ start = cur.stop) (h5 : tomb.timestamp > cur.tomb.timestamp)
    (h6 : ¬ stop < cur.start) (h7 : ¬ (stop = cur.start ∧ cur.start = cur.stop))
    (h8 : ¬ stop < cur.stop) (h9 : next.start < stop) (h10 : stop = cur.stop) :
    insert_from (cur :: next :: tail2) start stop tomb =
      (if cur.start < start then [⟨cur.start, start, cur.tomb⟩] else []) ++
        ⟨start, cur.stop, tomb⟩ :: next :: tail2 := by
  rw [insert_from_two, if_neg h1, if_pos h5, if_neg h6, if_neg h7, if_neg h8,
    if_neg (not_not_intro h9), if_pos h10]

theorem insert_from_eq10 {cur next : range_tombstone} {tail2 : List range_tombstone}
    {start stop : Int} {tomb : tombstone}
    (h1 : ¬ start = cur.stop) (h5 : tomb.timestamp > cur.tomb.timestamp)
    (h6 : ¬ stop < cur.start) (h7 : ¬ (stop = cur.start ∧ cur.start = cur.stop))
    (h8 : ¬ stop < cur.stop) (h9 : next.start < stop) (h10 : ¬ stop = cur.stop) :
    insert_from (cur :: next :: tail2) start stop tomb =
      (if cur.start < start then [⟨cur.start, start, cur.tomb⟩] else []) ++
        ⟨start, cur.stop, tomb⟩ :: insert_from (next :: tail2) cur.stop stop tomb := by
  rw [insert_from_two, if_neg h1, if_pos h5, if_neg h6, if_neg h7, if_neg h8,
    if_neg (not_not_intro h9), if_neg h10]

theorem insert_from_eq11 {cur : range_tombstone} {tail : List range_tombstone}
    {start stop : Int} {tomb : tombstone}
    (h1 : ¬ start = cur.stop) (h5 : ¬ tomb.timestamp > cur.tomb.timestamp)
    (h11 : start < cur.start) (h12 : cur.start < stop) (h13 : cur.stop < stop) :
    insert_from (cur :: tail) start stop tomb =
      ⟨start, cur.start, tomb⟩ :: cur :: insert_from tail cur.stop stop tomb := by
  cases tail with
  | nil => rw [insert_from_one, if_neg h1, if_neg h5, if_pos h11, if_pos h12, if_pos h13]
  | cons next tail2 => rw [insert_from_two, if_neg h1, if_neg h5, if_pos h11, if_pos h12, if_pos h13]

theorem insert_from_eq12 {cur : range_tombstone} {tail : List range_tombstone}
    {start stop : Int} {tomb : tombstone}
    (h1 : ¬ start = cur.stop) (h5 : ¬ tomb.timestamp > cur.tomb.timestamp)
    (h11 : start < cur.start) (h12 : cur.start < stop) (h13 : ¬ cur.stop < stop) :
    insert_from (cur :: tail) start stop tomb = ⟨start, cur.start, tomb⟩ :: cur :: tail := by
  cases tail with
  | nil => rw [insert_from_one, if_neg h1, if_neg h5, if_pos h11, if_pos h12, if_neg h13]
  | cons next tail2 => rw [insert_from_two, if_neg h1, if_neg h5, if_pos h11, if_pos h12, if_neg h13]

theorem insert_from_eq13 {cur : range_tombstone} {tail : List range_tombstone}
    {start stop : Int} {tomb : tombstone}
    (h1 : ¬ start = cur.stop) (h5 : ¬ tomb.timestamp > cur.tomb.timestamp)
    (h11 : start < cur.start) (h12 : ¬ cur.start < stop) :
    insert_from (cur :: tail) start stop tomb = ⟨start, stop, tomb⟩ :: cur :: tail := by
  cases tail with
  | nil => rw [insert_from_one, if_neg h1, if_neg h5, if_pos h11, if_neg h12]
  | cons next tail2 => rw [insert_from_two, if_neg h1, if_neg h5, if_pos h11, if_neg h12]

theorem insert_from_eq14 {cur : range_tombstone} {tail : List range_tombstone}
    {start stop : Int} {tomb : tombstone}
    (h1 : ¬ start = cur.stop) (h5 : ¬ tomb.timestamp > cur.tomb.timestamp)
    (h11 : ¬ start < cur.start) (h13 : cur.stop < stop) :
    insert_from (cur :: tail) start stop tomb = cur :: insert_from tail cur.stop stop tomb := by
  cases tail with
  | nil => rw [insert_from_one, if_neg h1, if_neg h5, if_neg h11, if_pos h13]
  | cons next tail2 => rw [insert_from_two, if_neg h1, if_neg h5, if_neg h11, if_pos h13]

theorem insert_from_eq15 {cur : range_tombstone} {tail : List range_tombstone}
    {start stop : Int} {tomb : tombstone}
    (h1 : ¬ start = cur.stop) (h5 : ¬ tomb.timestamp > cur.tomb.timestamp)
    (h11 : ¬ start < cur.start) (h13 : ¬ cur.stop < stop) :
    insert_from (cur :: tail) start stop tomb = cur :: tail := by
  cases tail with
  | nil => rw [insert_from_one, if_neg h1, if_neg h5, if_neg h11, if_neg h13]
  | cons next tail2 => rw [insert_from_two, if_neg h1, if_neg h5, if_neg h11, if_neg h13]

theorem wf_rt_iff {r : range_tombstone} : wf_rt r ↔ r.start ≤ r.stop := Iff.rfl

theorem chain_ok_iff {a b : range_tombstone} :
    chain_ok a b ↔
      a.stop ≤ b.start ∧ (a.start = a.stop → a.stop = b.start → b.start < b.stop) := Iff.rfl

theorem insert_from_spec (rest : List range_tombstone) :
    ∀ (start stop : Int) (tomb : tombstone),
      rtlist_inv rest → start ≤ stop →
      (∀ c, rest.head? = some c → start ≤ c.stop) →
      rtlist_inv (insert_from rest start stop tomb) ∧
      (∀ prev : range_tombstone, prev.stop ≤ start →
        (prev.start = prev.stop → prev.stop = start → start < stop) →
        (∀ c, rest.head? = some c → chain_ok prev c) →
        ∀ h, (insert_from rest start stop tomb).head? = some h → chain_ok prev h) := by
  induction rest with
  | nil =>
    intro start stop tomb _ h2 _
    have hres : insert_from [] start stop tomb = [⟨start, stop, tomb⟩] := rfl
    rw [hres]
    constructor
    · exact rtlist_inv_cons.mpr ⟨wf_rt_mk.mpr h2, by simp, rtlist_inv_nil⟩
    · intro prev hp1 hp2 _ h hh
      cases head_some_of_cons hh
      exact chain_ok_mk_right.mpr ⟨hp1, hp2⟩
  | cons cur tail ih =>
    intro start stop tomb hinv h2 h3
    obtain ⟨hwf_cur, hcurhead, hinv_tail⟩ := rtlist_inv_cons.mp hinv
    have h3c : start ≤ cur.stop := h3 cur rfl
    have hwfc : cur.start ≤ cur.stop := wf_rt_iff.mp hwf_cur
    have htailwf : ∀ c, tail.head? = some c → c.start ≤ c.stop := by
      intro c hc
      have hmem : c ∈ tail := by
        cases tail with
        | nil => simp at hc
        | cons x xs =>
          rw [← head_some_of_cons hc]
          exact List.mem_cons_self _ _
      exact wf_rt_iff.mp (hinv_tail.1 c hmem)
    have htail3 : ∀ c, tail.head? = some c → start ≤ c.stop := by
      intro c hc
      have hcc := (chain_ok_iff.mp (hcurhead c hc)).1
      have hwc := htailwf c hc
      omega
    by_cases h1 : start = cur.stop
    · by_cases h2eq : cur.start = cur.stop
      · by_cases h5 : tomb.timestamp > cur.tomb.timestamp
        · -- overwritten singleton is erased and the scan continues
          rw [insert_from_eq1 h1 h2eq h5]
          obtain ⟨ihinv, ihglue⟩ := ih start stop tomb hinv_tail h2 htail3
          refine ⟨ihinv, ?_⟩
          intro prev hp1 hp2 hp3 h hh
          refine ihglue prev hp1 hp2 ?_ h hh
          intro c hc
          obtain ⟨hcc1, hcc2⟩ := chain_ok_iff.mp (hcurhead c hc)
          obtain ⟨hpc1, hpc2⟩ := chain_ok_iff.mp (hp3 cur rfl)
          have hwc := htailwf c hc
          refine chain_ok_iff.mpr ⟨by omega, fun e1 e2 => ?_⟩
          have e3 : prev.stop = cur.start := by omega
          have := hpc2 e1 e3
          omega
        · by_cases h4 : start = stop
          · -- new singleton fully covered by the current singleton
            rw [insert_from_eq2 h1 h2eq h5 h4]
            refine ⟨hinv, ?_⟩
            intro prev _ _ hp3 h hh
            cases head_some_of_cons hh
            exact hp3 cur rfl
          · -- keep the singleton and continue past it
            rw [insert_from_eq3 h1 h2eq h5 h4]
            obtain ⟨ihinv, ihglue⟩ := ih start stop tomb hinv_tail h2 htail3
            have hglue := ihglue cur (le_of_eq h1.symm) (fun _ _ => by omega) hcurhead
            refine ⟨rtlist_inv_cons.mpr ⟨hwf_cur, hglue, ihinv⟩, ?_⟩
            intro prev _ _ hp3 h hh
            cases head_some_of_cons hh
            exact hp3 cur rfl
      · -- the new range starts where the current proper interval stops
        rw [insert_from_eq4 h1 h2eq]
        obtain ⟨ihinv, ihglue⟩ := ih start stop tomb hinv_tail h2 htail3
        have hglue := ihglue cur (le_of_eq h1.symm) (fun e1 _ => absurd e1 h2eq) hcurhead
        refine ⟨rtlist_inv_cons.mpr ⟨hwf_cur, hglue, ihinv⟩, ?_⟩
        intro prev _ _ hp3 h hh
        cases head_some_of_cons hh
        exact hp3 cur rfl
    · by_cases h5 : tomb.timestamp > cur.tomb.timestamp
      · by_cases h6 : stop < cur.start
        · -- the new range lies entirely before the current interval
          have hl : ¬ cur.start < start := by omega
          rw [insert_from_eq5 h1 h5 h6 hl]
          constructor
          · refine rtlist_inv_cons.mpr ⟨wf_rt_mk.mpr h2, ?_, hinv⟩
            intro b hb
            cases head_some_of_cons hb
            exact chain_ok_mk_left.mpr ⟨by omega, fun e1 e2 => by omega⟩
          · intro prev hp1 hp2 _ h hh
            cases head_some_of_cons hh
            exact chain_ok_mk_right.mpr ⟨hp1, hp2⟩
        · by_cases h7 : stop = cur.start ∧ cur.start = cur.stop
          · -- the new range entirely overwrites the current singleton
            have hl : ¬ cur.start < start := by omega
            rw [insert_from_eq6 h1 h5 h6 h7 hl]
            constructor
            · refine rtlist_inv_cons.mpr ⟨wf_rt_mk.mpr h2, ?_, hinv_tail⟩
              intro b hb
              obtain ⟨hcb1, hcb2⟩ := chain_ok_iff.mp (hcurhead b hb)
              refine chain_ok_mk_left.mpr ⟨by omega, fun e1 e2 => ?_⟩
              exact hcb2 (by omega) (by omega)
            · intro prev hp1 hp2 _ h hh
              cases head_some_of_cons hh
              exact chain_ok_mk_right.mpr ⟨hp1, hp2⟩
          · by_cases h8 : stop < cur.stop
            · -- overwrite a middle piece of the current interval
              rw [insert_from_eq7 h1 h5 h6 h7 h8]
              by_cases hl : cur.start < start
              · rw [if_pos hl, List.singleton_append]
                constructor
                · refine rtlist_inv_cons.mpr ⟨wf_rt_mk.mpr (by omega), ?_, ?_⟩
                  · intro b hb
                    cases head_some_of_cons hb
                    exact chain_ok_mk_mk.mpr ⟨by omega, fun e1 e2 => by omega⟩
                  · refine rtlist_inv_cons.mpr ⟨wf_rt_mk.mpr h2, ?_, ?_⟩
                    · intro b hb
                      cases head_some_of_cons hb
                      exact chain_ok_mk_mk.mpr ⟨by omega, fun e1 e2 => by omega⟩
                    · refine rtlist_inv_cons.mpr ⟨wf_rt_mk.mpr (by omega), ?_, hinv_tail⟩
                      intro b hb
                      obtain ⟨hcb1, hcb2⟩ := chain_ok_iff.mp (hcurhead b hb)
                      exact chain_ok_mk_left.mpr ⟨by omega, fun e1 e2 => by omega⟩
                · intro prev hp1 hp2 hp3 h hh
                  cases head_some_of_cons hh
                  obtain ⟨hpc1, hpc2⟩ := chain_ok_iff.mp (hp3 cur rfl)
                  exact chain_ok_mk_right.mpr ⟨by omega, fun e1 e2 => by omega⟩
              · rw [if_neg hl, List.nil_append]
                constructor
                · refine rtlist_inv_cons.mpr ⟨wf_rt_mk.mpr h2, ?_, ?_⟩
                  · intro b hb
                    cases head_some_of_cons hb
                    exact chain_ok_mk_mk.mpr ⟨by omega, fun e1 e2 => by omega⟩
                  · refine rtlist_inv_cons.mpr ⟨wf_rt_mk.mpr (by omega), ?_, hinv_tail⟩
                    intro b hb
                    obtain ⟨hcb1, hcb2⟩ := chain_ok_iff.mp (hcurhead b hb)
                    exact chain_ok_mk_left.mpr ⟨by omega, fun e1 e2 => by omega⟩
                · intro prev hp1 hp2 _ h hh
                  cases head_some_of_cons hh
                  exact chain_ok_mk_right.mpr ⟨hp1, hp2⟩
            · -- the new range reaches at least to the current stop
              cases tail with
              | nil =>
                rw [insert_from_eq8nil h1 h5 h6 h7 h8]
                by_cases hl : cur.start < start
                · rw [if_pos hl, List.singleton_append]
                  constructor
                  · refine rtlist_inv_cons.mpr ⟨wf_rt_mk.mpr (by omega), ?_,
                      rtlist_inv_cons.mpr ⟨wf_rt_mk.mpr h2, by simp, rtlist_inv_nil⟩⟩
                    intro b hb
                    cases head_some_of_cons hb
                    exact chain_ok_mk_mk.mpr ⟨by omega, fun e1 e2 => by omega⟩
                  · intro prev hp1 hp2 hp3 h hh
                    cases head_some_of_cons hh
                    obtain ⟨hpc1, hpc2⟩ := chain_ok_iff.mp (hp3 cur rfl)
                    exact chain_ok_mk_right.mpr ⟨by omega, fun e1 e2 => by omega⟩
                · rw [if_neg hl, List.nil_append]
                  constructor
                  · exact rtlist_inv_cons.mpr ⟨wf_rt_mk.mpr h2, by simp, rtlist_inv_nil⟩
                  · intro prev hp1 hp2 _ h hh
                    cases head_some_of_cons hh
                    exact chain_ok_mk_right.mpr ⟨hp1, hp2⟩
              | cons next tail2 =>
                obtain ⟨hcn1, hcn2⟩ := chain_ok_iff.mp (hcurhead next rfl)
                have hwfnext : next.start ≤ next.stop := htailwf next rfl
                by_cases h9 : next.start < stop
                · by_cases h10 : stop = cur.stop
                  · rw [insert_from_eq9 h1 h5 h6 h7 h8 h9 h10]
                    by_cases hl : cur.start < start
                    · rw [if_pos hl, List.singleton_append]
                      constructor
                      · refine rtlist_inv_cons.mpr ⟨wf_rt_mk.mpr (by omega), ?_, ?_⟩
                        · intro b hb
                          cases head_some_of_cons hb
                          exact chain_ok_mk_mk.mpr ⟨by omega, fun e1 e2 => by omega⟩
                        · refine rtlist_inv_cons.mpr ⟨wf_rt_mk.mpr (by omega), ?_, hinv_tail⟩
                          intro b hb
                          cases head_some_of_cons hb
                          exact chain_ok_mk_left.mpr ⟨by omega, fun e1 e2 => by omega⟩
                      · intro prev hp1 hp2 hp3 h hh
                        cases head_some_of_cons hh
                        obtain ⟨hpc1, hpc2⟩ := chain_ok_iff.mp (hp3 cur rfl)
                        exact chain_ok_mk_right.mpr ⟨by omega, fun e1 e2 => by omega⟩
                    · rw [if_neg hl, List.nil_append]
                      constructor
                      · refine rtlist_inv_cons.mpr ⟨wf_rt_mk.mpr (by omega), ?_, hinv_tail⟩
                        intro b hb
                        cases head_some_of_cons hb
                        exact chain_ok_mk_left.mpr ⟨by omega, fun e1 e2 => by omega⟩
                      · intro prev hp1 hp2 _ h hh
                        cases head_some_of_cons hh
                        exact chain_ok_mk_right.mpr ⟨by omega, fun e1 e2 => by omega⟩
                  · rw [insert_from_eq10 h1 h5 h6 h7 h8 h9 h10]
                    obtain ⟨ihinv, ihglue⟩ := ih cur.stop stop tomb hinv_tail (by omega)
                      (by intro c hc; cases head_some_of_cons hc; omega)
                    have hglue := ihglue ⟨start, cur.stop, tomb⟩ (le_refl _)
                      (fun e1 _ => absurd e1 h1)
                      (by
                        intro c hc
                        cases head_some_of_cons hc
                        exact chain_ok_mk_left.mpr ⟨hcn1, fun e1 _ => absurd e1 h1⟩)
                    by_cases hl : cur.start < start
                    · rw [if_pos hl, List.singleton_append]
                      constructor
                      · refine rtlist_inv_cons.mpr ⟨wf_rt_mk.mpr (by omega), ?_, ?_⟩
                        · intro b hb
                          cases head_some_of_cons hb
                          exact chain_ok_mk_mk.mpr ⟨by omega, fun e1 e2 => by omega⟩
                        · exact rtlist_inv_cons.mpr ⟨wf_rt_mk.mpr (by omega), hglue, ihinv⟩
                      · intro prev hp1 hp2 hp3 h hh
                        cases head_some_of_cons hh
                        obtain ⟨hpc1, hpc2⟩ := chain_ok_iff.mp (hp3 cur rfl)
                        exact chain_ok_mk_right.mpr ⟨by omega, fun e1 e2 => by omega⟩
                    · rw [if_neg hl, List.nil_append]
                      constructor
                      · exact rtlist_inv_cons.mpr ⟨wf_rt_mk.mpr (by omega), hglue, ihinv⟩
                      · intro prev hp1 hp2 _ h hh
                        cases head_some_of_cons hh
                        exact chain_ok_mk_right.mpr ⟨by omega, fun e1 e2 => by omega⟩
                · rw [insert_from_eq8 h1 h5 h6 h7 h8 h9]
                  by_cases hl : cur.start < start
                  · rw [if_pos hl, List.singleton_append]
                    constructor
                    · refine rtlist_inv_cons.mpr ⟨wf_rt_mk.mpr (by omega), ?_, ?_⟩
                      · intro b hb
                        cases head_some_of_cons hb
                        exact chain_ok_mk_mk.mpr ⟨by omega, fun e1 e2 => by omega⟩
                      · refine rtlist_inv_cons.mpr ⟨wf_rt_mk.mpr h2, ?_, hinv_tail⟩
                        intro b hb
                        cases head_some_of_cons hb
                        exact chain_ok_mk_left.mpr ⟨by omega, fun e1 e2 => by omega⟩
                    · intro prev hp1 hp2 hp3 h hh
                      cases head_some_of_cons hh
                      obtain ⟨hpc1, hpc2⟩ := chain_ok_iff.mp (hp3 cur rfl)
                      exact chain_ok_mk_right.mpr ⟨by omega, fun e1 e2 => by omega⟩
                  · rw [if_neg hl, List.nil_append]
                    constructor
                    · refine rtlist_inv_cons.mpr ⟨wf_rt_mk.mpr h2, ?_, hinv_tail⟩
                      intro b hb
                      cases head_some_of_cons hb
                      exact chain_ok_mk_left.mpr ⟨by omega, fun e1 e2 => by omega⟩
                    · intro prev hp1 hp2 _ h hh
                      cases head_some_of_cons hh
                      exact chain_ok_mk_right.mpr ⟨hp1, hp2⟩
      · by_cases h11 : start < cur.start
        · by_cases h12 : cur.start < stop
          · by_cases h13 : cur.stop < stop
            · -- keep a leading piece of the new range, continue past the current interval
              rw [insert_from_eq11 h1 h5 h11 h12 h13]
              obtain ⟨ihinv, ihglue⟩ := ih cur.stop stop tomb hinv_tail (by omega)
                (by
                  intro c hc
                  have hcc := (chain_ok_iff.mp (hcurhead c hc)).1
                  have hwc := htailwf c hc
                  omega)
              have hglue := ihglue cur (le_refl _) (fun _ _ => h13) hcurhead
              constructor
              · refine rtlist_inv_cons.mpr ⟨wf_rt_mk.mpr (by omega), ?_,
                  rtlist_inv_cons.mpr ⟨hwf_cur, hglue, ihinv⟩⟩
                intro b hb
                cases head_some_of_cons hb
                exact chain_ok_mk_left.mpr ⟨by omega, fun e1 e2 => by omega⟩
              · intro prev hp1 hp2 _ h hh
                cases head_some_of_cons hh
                exact chain_ok_mk_right.mpr ⟨hp1, fun e1 e2 => by omega⟩
            · rw [insert_from_eq12 h1 h5 h11 h12 h13]
              constructor
              · refine rtlist_inv_cons.mpr ⟨wf_rt_mk.mpr (by omega), ?_, hinv⟩
                intro b hb
                cases head_some_of_cons hb
                exact chain_ok_mk_left.mpr ⟨by omega, fun e1 e2 => by omega⟩
              · intro prev hp1 hp2 _ h hh
                cases head_some_of_cons hh
                exact chain_ok_mk_right.mpr ⟨hp1, fun e1 e2 => by omega⟩
          · rw [insert_from_eq13 h1 h5 h11 h12]
            constructor
            · refine rtlist_inv_cons.mpr ⟨wf_rt_mk.mpr h2, ?_, hinv⟩
              intro b hb
              cases head_some_of_cons hb
              exact chain_ok_mk_left.mpr ⟨by omega, fun e1 e2 => by omega⟩
            · intro prev hp1 hp2 _ h hh
              cases head_some_of_cons hh
              exact chain_ok_mk_right.mpr ⟨hp1, hp2⟩
        · by_cases h13 : cur.stop < stop
          · rw [insert_from_eq14 h1 h5 h11 h13]
            obtain ⟨ihinv, ihglue⟩ := ih cur.stop stop tomb hinv_tail (by omega)
              (by
                intro c hc
                have hcc := (chain_ok_iff.mp (hcurhead c hc)).1
                have hwc := htailwf c hc
                omega)
            have hglue := ihglue cur (le_refl _) (fun _ _ => h13) hcurhead
            refine ⟨rtlist_inv_cons.mpr ⟨hwf_cur, hglue, ihinv⟩, ?_⟩
            intro prev _ _ hp3 h hh
            cases head_some_of_cons hh
            exact hp3 cur rfl
          · rw [insert_from_eq15 h1 h5 h11 h13]
            refine ⟨hinv, ?_⟩
            intro prev _ _ hp3 h hh
            cases head_some_of_cons hh
            exact hp3 cur rfl

theorem add_loop_cons (cur : range_tombstone) (tail : List range_tombstone)
    (start stop : Int) (tomb : tombstone) :
    add_loop (cur :: tail) start stop tomb =
      (if cur.stop < start then cur :: add_loop tail start stop tomb
       else insert_from (cur :: tail) start stop tomb) := rfl

theorem add_loop_spec (l : List range_tombstone) :
    ∀ (start stop : Int) (tomb : tombstone),
      rtlist_inv l → start ≤ stop →
      rtlist_inv (add_loop l start stop tomb) ∧
      (∀ prev : range_tombstone, prev.stop < start →
        (∀ c, l.head? = some c → chain_ok prev c) →
        ∀ h, (add_loop l start stop tomb).head? = some h → chain_ok prev h) := by
  induction l with
  | nil =>
    intro start stop tomb _ h2
    have hres : add_loop [] start stop tomb = [⟨start, stop, tomb⟩] := rfl
    rw [hres]
    constructor
    · exact rtlist_inv_cons.mpr ⟨wf_rt_mk.mpr h2, by simp, rtlist_inv_nil⟩
    · intro prev hp1 _ h hh
      cases head_some_of_cons hh
      exact chain_ok_mk_right.mpr ⟨by omega, fun e1 e2 => by omega⟩
  | cons cur tail ih =>
    intro start stop tomb hinv h2
    obtain ⟨hwf_cur, hcurhead, hinv_tail⟩ := rtlist_inv_cons.mp hinv
    rw [add_loop_cons]
    by_cases hc : cur.stop < start
    · rw [if_pos hc]
      obtain ⟨ihinv, ihglue⟩ := ih start stop tomb hinv_tail h2
      have hglue := ihglue cur hc hcurhead
      constructor
      · exact rtlist_inv_cons.mpr ⟨hwf_cur, hglue, ihinv⟩
      · intro prev _ hp3 h hh
        cases head_some_of_cons hh
        exact hp3 cur rfl
    · rw [if_neg hc]
      have h3 : ∀ c, (cur :: tail).head? = some c → start ≤ c.stop := by
        intro c hcc
        cases head_some_of_cons hcc
        omega
      obtain ⟨sinv, sglue⟩ := insert_from_spec (cur :: tail) start stop tomb hinv h2 h3
      refine ⟨sinv, ?_⟩
      intro prev hp1 hp3 h hh
      exact sglue prev (by omega) (fun _ e2 => by omega) hp3 h hh

/-- Preservation of the structural invariant by a single add call. -/
theorem add_preserves_inv (l : List range_tombstone) (start stop : Int) (tomb : tombstone)
    (hinv : rtlist_inv l) (h2 : start ≤ stop) :
    rtlist_inv (range_tombstone_list.add l start stop tomb) := by
  unfold range_tombstone_list.add
  cases hg : l.getLast? with
  | none =>
    show rtlist_inv (l ++ [⟨start, stop, tomb⟩])
    have hl : l = [] := by
      cases l with
      | nil => rfl
      | cons x xs => simp at hg
    subst hl
    exact rtlist_inv_cons.mpr ⟨wf_rt_mk.mpr h2, by simp, rtlist_inv_nil⟩
  | some last =>
    show rtlist_inv
      (if ¬ last.stop < start then add_loop l start stop tomb
       else l ++ [⟨start, stop, tomb⟩])
    by_cases hf : ¬ last.stop < start
    · rw [if_pos hf]
      exact (add_loop_spec l start stop tomb hinv h2).1
    · rw [if_neg hf]
      constructor
      · intro r hr
        rcases List.mem_append.mp hr with h | h
        · exact hinv.1 r h
        · cases List.mem_singleton.mp h
          exact wf_rt_mk.mpr h2
      · rw [List.chain'_append]
        refine ⟨hinv.2, List.chain'_singleton _, ?_⟩
        intro x hx y hy
        have hx2 : x = last := by
          rw [Option.mem_def] at hx
          rw [hx] at hg
          exact Option.some_inj.mp hg
        have hy2 : y = (⟨start, stop, tomb⟩ : range_tombstone) := by
          have := hy
          simp only [Option.mem_def, List.head?_cons] at this
          exact (Option.some_inj.mp this).symm
        subst hx2
        subst hy2
        exact chain_ok_mk_right.mpr ⟨by omega, fun e1 e2 => by omega⟩

/-- Every list built from well-formed add calls satisfies the invariant. -/
theorem build_rtlist_inv (ops : List (Int × Int × tombstone))
    (hops : ∀ op ∈ ops, op.1 ≤ op.2.1) : rtlist_inv (build_rtlist ops) := by
  suffices hgen : ∀ l, rtlist_inv l →
      rtlist_inv (ops.foldl (fun l op => range_tombstone_list.add l op.1 op.2.1 op.2.2) l) by
    exact hgen [] rtlist_inv_nil
  induction ops with
  | nil => intro l hl; exact hl
  | cons op rest ih =>
    intro l hl
    have hop := hops op (List.mem_cons_self _ _)
    exact ih (fun o ho => hops o (List.mem_cons_of_mem _ ho)) _
      (add_preserves_inv l op.1 op.2.1 op.2.2 hl hop)

theorem inv_start_sorted (l : List range_tombstone) (h : rtlist_inv l) :
    List.Chain' (fun a b => a.start ≤ b.start) l := by
  induction l with
  | nil => exact List.chain'_nil
  | cons a t iht =>
    obtain ⟨hw, hh, ht⟩ := rtlist_inv_cons.mp h
    rw [List.chain'_cons']
    refine ⟨?_, iht ht⟩
    intro y hy
    have hc := (chain_ok_iff.mp (hh y (Option.mem_def.mp hy))).1
    have hwa := wf_rt_iff.mp hw
    omega

/-- C2: after any finite sequence of well-formed add calls starting from the
empty list, the resulting range tombstone list is ordered by start bound and
non-overlapping — every adjacent pair of intervals [s_i,e_i], [s_{i+1},e_{i+1}]
satisfies e_i ≤ s_{i+1} — and no two adjacent intervals are both singletons
over the same point. -/
theorem C2_range_tombstone_list_invariant (ops : List (Int × Int × tombstone))
    (hops : ∀ op ∈ ops, op.1 ≤ op.2.1) :
    List.Chain' claim_adjacent (build_rtlist ops) ∧
    List.Chain' (fun a b => a.start ≤ b.start) (build_rtlist ops) := by
  have hinv := build_rtlist_inv ops hops
  constructor
  · refine List.Chain'.imp ?_ hinv.2
    intro a b hab
    obtain ⟨hab1, hab2⟩ := chain_ok_iff.mp hab
    exact ⟨hab1, fun hbad => by have := hab2 hbad.1 hbad.2.2; omega⟩
  · exact inv_start_sorted _ hinv

theorem C2_witness :
    (∀ op ∈ c9_ops, op.1 ≤ op.2.1) ∧
    (List.Chain' claim_adjacent (build_rtlist c9_ops) ∧
     List.Chain' (fun a b => a.start ≤ b.start) (build_rtlist c9_ops)) :=
  ⟨by decide, C2_range_tombstone_list_invariant c9_ops (by decide)⟩

/-- C9: starting from an empty range tombstone list, adding the inclusive
ranges [4,10] at timestamp 3, [1,7] at timestamp 2, [8,13] at timestamp 4 and
[0,15] at timestamp 1 yields exactly the five intervals [0,1]@1, [1,4]@2,
[4,8]@3, [8,13]@4, [13,15]@1, in that order. -/
theorem C9_overlapping_addition :
    build_rtlist c9_ops =
      [⟨0, 1, test_tomb 1⟩, ⟨1, 4, test_tomb 2⟩, ⟨4, 8, test_tomb 3⟩,
       ⟨8, 13, test_tomb 4⟩, ⟨13, 15, test_tomb 1⟩] := by decide

theorem row_marker_apply_reversibly_fst (l r : row_marker) :
    (row_marker.apply_reversibly l r).1 =
      if compare_row_marker_for_merge l r < 0 then r else l := by
  unfold row_marker.apply_reversibly
  split <;> rfl

/-- C5 counterexample: merging a live marker with a dead marker of the same
timestamp keeps the dead one — compare_row_marker_for_merge makes the live
marker compare smaller (mutation_partition.cc:837-839), so on a timestamp tie
the dead marker wins, not the live one as the claim states. -/
theorem C5_counterexample :
    (row_marker.apply_reversibly (row_marker.live 5) (row_marker.dead 5 3)).1 =
        row_marker.dead 5 3 ∧
    ((row_marker.apply_reversibly (row_marker.live 5) (row_marker.dead 5 3)).1).is_live
        = false := by
  constructor <;> rfl

/-- C5 amended: when two row markers are merged, the marker with the larger
timestamp wins outright; on a timestamp tie a dead marker wins over a live
one; if both are live and expiring with different expiries, the one with the
later expiry wins; and if both are dead with different deletion times, the one
whose deletion time is larger as a wrapping unsigned 32-bit value wins. -/
theorem C5_row_marker_merge :
    (∀ l r : row_marker, l.timestamp > r.timestamp →
      (row_marker.apply_reversibly l r).1 = l) ∧
    (∀ l r : row_marker, r.timestamp > l.timestamp →
      (row_marker.apply_reversibly l r).1 = r) ∧
    (∀ l r : row_marker, l.timestamp = r.timestamp → l.is_live = true → r.is_live = false →
      (row_marker.apply_reversibly l r).1 = r) ∧
    (∀ l r : row_marker, l.timestamp = r.timestamp → l.is_live = false → r.is_live = true →
      (row_marker.apply_reversibly l r).1 = l) ∧
    (∀ ts ttl1 e1 ttl2 e2 : Int, e1 < e2 →
      (row_marker.apply_reversibly (row_marker.expiring ts ttl1 e1)
        (row_marker.expiring ts ttl2 e2)).1 = row_marker.expiring ts ttl2 e2) ∧
    (∀ ts ttl1 e1 ttl2 e2 : Int, e2 < e1 →
      (row_marker.apply_reversibly (row_marker.expiring ts ttl1 e1)
        (row_marker.expiring ts ttl2 e2)).1 = row_marker.expiring ts ttl1 e1) ∧
    (∀ ts d1 d2 : Int, wrap_u32 d1 < wrap_u32 d2 →
      (row_marker.apply_reversibly (row_marker.dead ts d1) (row_marker.dead ts d2)).1 =
        row_marker.dead ts d2) ∧
    (∀ ts d1 d2 : Int, wrap_u32 d2 < wrap_u32 d1 →
      (row_marker.apply_reversibly (row_marker.dead ts d1) (row_marker.dead ts d2)).1 =
        row_marker.dead ts d1) := by
  refine ⟨?_, ?_, ?_, ?_, ?_, ?_, ?_, ?_⟩
  · intro l r h
    rw [row_marker_apply_reversibly_fst]
    have hc : compare_row_marker_for_merge l r = 1 := by
      unfold compare_row_marker_for_merge
      rw [if_pos (by omega), if_pos h]
    rw [hc]
    norm_num
  · intro l r h
    rw [row_marker_apply_reversibly_fst]
    have hc : compare_row_marker_for_merge l r = -1 := by
      unfold compare_row_marker_for_merge
      rw [if_pos (by omega), if_neg (by omega)]
    rw [hc]
    norm_num
  · intro l r h hl hr
    rw [row_marker_apply_reversibly_fst]
    have hc : compare_row_marker_for_merge l r = -1 := by
      unfold compare_row_marker_for_merge
      rw [if_neg (by omega)]
      simp [hl, hr]
    rw [hc]
    norm_num
  · intro l r h hl hr
    rw [row_marker_apply_reversibly_fst]
    have hc : compare_row_marker_for_merge l r = 1 := by
      unfold compare_row_marker_for_merge
      rw [if_neg (by omega)]
      simp [hl, hr]
    rw [hc]
    norm_num
  · intro ts ttl1 e1 ttl2 e2 h
    rw [row_marker_apply_reversibly_fst]
    have hc : compare_row_marker_for_merge (row_marker.expiring ts ttl1 e1)
        (row_marker.expiring ts ttl2 e2) = -1 := by
      unfold compare_row_marker_for_merge
      simp only [row_marker.timestamp, row_marker.is_live, row_marker.is_expiring,
        row_marker.expiry]
      rw [if_neg (by omega), if_neg (by simp), if_pos (by simp)]
      rw [if_pos (by refine ⟨by trivial, by trivial, by omega⟩), if_pos h]
    rw [hc]
    norm_num
  · intro ts ttl1 e1 ttl2 e2 h
    rw [row_marker_apply_reversibly_fst]
    have hc : compare_row_marker_for_merge (row_marker.expiring ts ttl1 e1)
        (row_marker.expiring ts ttl2 e2) = 1 := by
      unfold compare_row_marker_for_merge
      simp only [row_marker.timestamp, row_marker.is_live, row_marker.is_expiring,
        row_marker.expiry]
      rw [if_neg (by omega), if_neg (by simp), if_pos (by simp)]
      rw [if_pos (by refine ⟨by trivial, by trivial, by omega⟩), if_neg (by omega)]
    rw [hc]
    norm_num
  · intro ts d1 d2 h
    rw [row_marker_apply_reversibly_fst]
    have hc : compare_row_marker_for_merge (row_marker.dead ts d1) (row_marker.dead ts d2)
        = -1 := by
      unfold compare_row_marker_for_merge
      simp only [row_marker.timestamp, row_marker.is_live, row_marker.deletion_time]
      rw [if_neg (by omega), if_neg (by simp), if_neg (by simp)]
      rw [if_pos (by unfold wrap_u32 at h; omega), if_pos h]
    rw [hc]
    norm_num
  · intro ts d1 d2 h
    rw [row_marker_apply_reversibly_fst]
    have hc : compare_row_marker_for_merge (row_marker.dead ts d1) (row_marker.dead ts d2)
        = 1 := by
      unfold compare_row_marker_for_merge
      simp only [row_marker.timestamp, row_marker.is_live, row_marker.deletion_time]
      rw [if_neg (by omega), if_neg (by simp), if_neg (by simp)]
      rw [if_pos (by unfold wrap_u32 at h; omega), if_neg (by omega)]
    rw [hc]
    norm_num

theorem C5_witness :
    (row_marker.live 6).timestamp > (row_marker.live 5).timestamp ∧
    (row_marker.apply_reversibly (row_marker.live 6) (row_marker.live 5)).1 =
      row_marker.live 6 :=
  ⟨by decide, C5_row_marker_merge.1 (row_marker.live 6) (row_marker.live 5) (by decide)⟩

/-- C6: evaluating on_results where the existing fragment strictly precedes
the update fragment. With two clustering rows the builder treats the pair as
an equal-positions merge and advances both streams instead of consuming only
the existing fragment; with an existing range-tombstone fragment ahead of an
update row, the assert at view.cc:495 fires. Both come from the dead
`cmp < 0` test at view.cc:470. -/
theorem C6_on_results_dead_branch :
    on_results tombstone.empty (some (mutation_fragment.clustering c6_update_row))
        (some (mutation_fragment.clustering c6_existing_row)) = builder_step.advance_all ∧
    on_results tombstone.empty (some (mutation_fragment.clustering c6_update_row))
        (some (mutation_fragment.rt_marker 1 (test_tomb 7))) = builder_step.assert_failed ∧
    builder_step.advance_all ≠ builder_step.advance_existings := by
  refine ⟨by decide, by decide, by decide⟩

theorem crm_fold_spec (cells : List (Nat × atomic_cell)) :
    ∀ t e : Int,
      (cells.foldl crm_step (t, e)).2 = (live_ttl_expiries cells).foldl max e ∧
      (cells.foldl crm_step (t, e) = (t, e) ∨
        ∃ c ∈ cells, c.2.is_live_and_has_ttl = true ∧
          cells.foldl crm_step (t, e) = (c.2.ttl, c.2.expiry)) := by
  induction cells with
  | nil => intro t e; exact ⟨rfl, Or.inl rfl⟩
  | cons c rest ih =>
    intro t e
    by_cases hlt : c.2.is_live_and_has_ttl = true
    · by_cases he : c.2.expiry > e
      · have hstep : crm_step (t, e) c = (c.2.ttl, c.2.expiry) := by
          unfold crm_step
          exact if_pos ⟨hlt, he⟩
        have hmax : max e c.2.expiry = c.2.expiry := by omega
        obtain ⟨ih1, ih2⟩ := ih c.2.ttl c.2.expiry
        constructor
        · rw [List.foldl_cons, hstep, ih1]
          unfold live_ttl_expiries
          rw [List.filterMap_cons]
          simp only [if_pos hlt]
          rw [List.foldl_cons, hmax]
        · rw [List.foldl_cons, hstep]
          rcases ih2 with h | ⟨c2, hmem, hc2, heq⟩
          · exact Or.inr ⟨c, List.mem_cons_self _ _, hlt, h⟩
          · exact Or.inr ⟨c2, List.mem_cons_of_mem _ hmem, hc2, heq⟩
      · have hstep : crm_step (t, e) c = (t, e) := by
          unfold crm_step
          exact if_neg (by
            rintro ⟨_, h2⟩
            exact he h2)
        have hmax : max e c.2.expiry = e := by omega
        obtain ⟨ih1, ih2⟩ := ih t e
        constructor
        · rw [List.foldl_cons, hstep, ih1]
          unfold live_ttl_expiries
          rw [List.filterMap_cons]
          simp only [if_pos hlt]
          rw [List.foldl_cons, hmax]
        · rw [List.foldl_cons, hstep]
          rcases ih2 with h | ⟨c2, hmem, hc2, heq⟩
          · exact Or.inl h
          · exact Or.inr ⟨c2, List.mem_cons_of_mem _ hmem, hc2, heq⟩
    · have hstep : crm_step (t, e) c = (t, e) := by
        unfold crm_step
        exact if_neg (by
          rintro ⟨h1, _⟩
          exact hlt h1)
      obtain ⟨ih1, ih2⟩ := ih t e
      constructor
      · rw [List.foldl_cons, hstep, ih1]
        unfold live_ttl_expiries
        rw [List.filterMap_cons]
        simp only [if_neg hlt]
      · rw [List.foldl_cons, hstep]
        rcases ih2 with h | ⟨c2, hmem, hc2, heq⟩
        · exact Or.inl h
        · exact Or.inr ⟨c2, List.mem_cons_of_mem _ hmem, hc2, heq⟩

/-- C7: in compute_row_marker, (1) with an identity column present, the
computed timestamp is the maximum of the base marker timestamp and that
column's cell timestamp; (2) when that cell is live with a TTL, the computed
marker carries exactly the cell's TTL and expiry, whatever the base marker
holds; (3) with no identity column and an expiring base marker, the computed
expiry is the maximum expiry among the base marker and all live-with-TTL
cells, carrying the TTL of its source. -/
theorem C7_compute_row_marker :
    (∀ (id : Nat) (cell : atomic_cell) (base_row : clustering_row),
      find_cell base_row.cells id = some cell →
      ∃ m, compute_row_marker (some id) base_row = some m ∧
        m.timestamp = max base_row.marker.timestamp cell.timestamp) ∧
    (∀ (id : Nat) (cell : atomic_cell) (base_row : clustering_row),
      find_cell base_row.cells id = some cell →
      cell.is_live_and_has_ttl = true →
      compute_row_marker (some id) base_row =
        some (row_marker.expiring (max base_row.marker.timestamp cell.timestamp)
          cell.ttl cell.expiry)) ∧
    (∀ base_row : clustering_row,
      base_row.marker.is_expiring = true →
      ∃ ttl expiry, compute_row_marker none base_row =
        some (row_marker.expiring base_row.marker.timestamp ttl expiry) ∧
        expiry = (live_ttl_expiries base_row.cells).foldl max base_row.marker.expiry ∧
        ((ttl, expiry) = (base_row.marker.ttl, base_row.marker.expiry) ∨
          ∃ c ∈ base_row.cells, c.2.is_live_and_has_ttl = true ∧
            (ttl, expiry) = (c.2.ttl, c.2.expiry))) := by
  refine ⟨?_, ?_, ?_⟩
  · intro id cell base_row hfind
    simp only [compute_row_marker, hfind]
    by_cases hl : cell.is_live_and_has_ttl = true
    · rw [if_pos hl]
      exact ⟨_, rfl, rfl⟩
    · rw [if_neg hl]
      exact ⟨_, rfl, rfl⟩
  · intro id cell base_row hfind hl
    simp only [compute_row_marker, hfind]
    rw [if_pos hl]
  · intro base_row hexp
    simp only [compute_row_marker]
    rw [if_neg (by simp [hexp])]
    obtain ⟨h1, h2⟩ := crm_fold_spec base_row.cells base_row.marker.ttl base_row.marker.expiry
    refine ⟨(base_row.cells.foldl crm_step (base_row.marker.ttl, base_row.marker.expiry)).1,
      (base_row.cells.foldl crm_step (base_row.marker.ttl, base_row.marker.expiry)).2,
      rfl, h1, ?_⟩
    rcases h2 with h | ⟨c, hmem, hc, heq⟩
    · exact Or.inl (by rw [h])
    · exact Or.inr ⟨c, hmem, hc, by rw [heq]⟩

theorem C7_witness :
    (find_cell (⟨0, tombstone.empty, row_marker.live 4,
        [(0, atomic_cell.live_ttl 9 1 3 20)]⟩ : clustering_row).cells 0 =
      some (atomic_cell.live_ttl 9 1 3 20)) ∧
    (atomic_cell.live_ttl 9 1 3 20).is_live_and_has_ttl = true ∧
    compute_row_marker (some 0)
        (⟨0, tombstone.empty, row_marker.live 4, [(0, atomic_cell.live_ttl 9 1 3 20)]⟩ :
          clustering_row) =
      some (row_marker.expiring (max (row_marker.live 4).timestamp
        (atomic_cell.live_ttl 9 1 3 20).timestamp)
        (atomic_cell.live_ttl 9 1 3 20).ttl (atomic_cell.live_ttl 9 1 3 20).expiry) :=
  ⟨by decide, by decide,
    C7_compute_row_marker.2.1 0 (atomic_cell.live_ttl 9 1 3 20)
      ⟨0, tombstone.empty, row_marker.live 4, [(0, atomic_cell.live_ttl 9 1 3 20)]⟩
      (by decide) (by decide)⟩

/-- C8: in generate_update, when the view has a base-non-primary-key identity
column whose cell is present in both the pre-image and post-image rows and the
two cells are equal under the cell merge order, the builder performs a replace
(replace_entry: create the new view entry, then delete the old one), not an
in-place update. -/
theorem C8_generate_update_replace (id : Nat) (update ex : clustering_row)
    (before after : atomic_cell)
    (hb : find_cell ex.cells id = some before)
    (ha : find_cell update.cells id = some after)
    (hcmp : compare_atomic_cell_for_merge before after = 0) :
    generate_update_action true (some id) update (some ex) = view_action.replace := by
  unfold generate_update_action
  rw [if_neg (by simp)]
  simp only [hb, ha]
  rw [if_pos hcmp]

theorem C8_witness :
    find_cell c8_existing_row.cells 0 = some (atomic_cell.live 1 7) ∧
    find_cell c8_update_row.cells 0 = some (atomic_cell.live 1 7) ∧
    compare_atomic_cell_for_merge (atomic_cell.live 1 7) (atomic_cell.live 1 7) = 0 ∧
    generate_update_action true (some 0) c8_update_row (some c8_existing_row) =
      view_action.replace :=
  ⟨by decide, by decide, by decide,
    C8_generate_update_replace 0 c8_update_row c8_existing_row
      (atomic_cell.live 1 7) (atomic_cell.live 1 7) (by decide) (by decide) (by decide)⟩

/-- C10: the builder-level generate_update throws std::logic_error exactly on
an empty update clustering row; for every non-empty update row it never fails
for that reason. -/
theorem C10_generate_update_empty_guard (now gc_before : Int)
    (update : clustering_row) (existing : Option clustering_row) :
    impl_generate_update now gc_before update existing =
        Except.error view_builder_error.empty_materialized_view_updated ↔
      update.empty = true := by
  unfold impl_generate_update
  by_cases h : update.empty = true
  · simp [h]
  · simp [h]

/-- C1: mutation_partition::apply is not exception safe. Merging a delta with
a marker-only row at key 1 and a fresh row at key 2 into a target whose row 1
carries only cells, with the allocation for key 2 failing, throws — and the
revert pass then erases the target's row 1 entirely: after the merge of row 1
the source slot holds only the target's old empty tombstone and missing
marker, so revert_intrusive_set_range (mutation_partition.cc:178) mistakes the
merged entry for a neutral placeholder and removes the target row instead of
reverting it. The target is not equal to its pre-call state. -/
theorem C1_apply_reversibly_corrupts_target :
    mutation_partition.apply c1_target c1_delta 0 = Except.error c1_corrupted ∧
    mutation_partition.equal c1_corrupted c1_target = false ∧
    mutation_partition.equal c1_target c1_target = true := by
  refine ⟨by rfl, by decide, by decide⟩

/-- C3 counterexample: the claimed chain of equalities fails on the code in
three independent ways. (1) mutation_partition::equal compares range tombstone
lists literally, and merging leaves differently segmented but pointwise equal
lists depending on association. (2) compare_row_marker_for_merge returns 0 for
an expiring and a non-expiring live marker with equal timestamps, so the
merge keeps whichever side is the target. (3) empty row entries survive on
the target side of a merge but are dropped from the source side. -/
theorem C3_counterexample :
    mutation_partition.equal
      (mutation_partition.merge (mutation_partition.merge c3_p1 c3_p2) c3_empty)
      (mutation_partition.merge c3_p2 (mutation_partition.merge c3_p1 c3_empty)) = false ∧
    mutation_partition.equal
      (mutation_partition.merge (mutation_partition.merge c3_q1 c3_q2) c3_empty)
      (mutation_partition.merge c3_q2 (mutation_partition.merge c3_q1 c3_empty)) = false ∧
    mutation_partition.equal
      (mutation_partition.merge (mutation_partition.merge c3_r1 c3_empty) c3_empty)
      (mutation_partition.merge c3_empty (mutation_partition.merge c3_r1 c3_empty)) = false := by
  refine ⟨by decide, by decide, by decide⟩

theorem alist_merge_cons {κ ν : Type} [LinearOrder κ] (g : ν → ν → ν) (keep : ν → Bool)
    (dst : List (κ × ν)) (e : κ × ν) (rest : List (κ × ν)) :
    alist_merge g keep dst (e :: rest) =
      alist_merge g keep (if keep e.2 then alist_put g dst e.1 e.2 else dst) rest := by
  simp [alist_merge]

theorem rtlist_apply_ok (src : List range_tombstone) :
    ∀ (dst : List range_tombstone) (fuel : Nat) (l : List range_tombstone) (f : Nat),
      rtlist_apply_reversibly dst src fuel = .ok (l, f) →
      l = src.foldl (fun l rt => range_tombstone_list.add l rt.start rt.stop rt.tomb) dst := by
  induction src with
  | nil =>
    intro dst fuel l f h
    simp only [rtlist_apply_reversibly] at h
    cases h
    rfl
  | cons rt rest ih =>
    intro dst fuel l f h
    simp only [rtlist_apply_reversibly] at h
    by_cases hf : fuel = 0
    · rw [if_pos hf] at h
      cases h
    · rw [if_neg hf] at h
      rw [List.foldl_cons]
      exact ih _ _ _ _ h

theorem mrow_apply_cell_ok (dst : mrow) :
    ∀ (id : Nat) (v : cell_slot) (fuel : Nat) (dst1 : mrow) (v1 : cell_slot) (fuel1 : Nat),
      mrow_apply_cell dst id v fuel = .ok (dst1, v1, fuel1) →
      dst1 = alist_put slot_merge dst id v := by
  induction dst with
  | nil =>
    intro id v fuel dst1 v1 fuel1 h
    simp only [mrow_apply_cell] at h
    by_cases hf : fuel = 0
    · rw [if_pos hf] at h
      cases h
    · rw [if_neg hf] at h
      cases h
      rfl
  | cons e rest ih =>
    obtain ⟨cid, c⟩ := e
    intro id v fuel dst1 v1 fuel1 h
    simp only [mrow_apply_cell] at h
    by_cases h1 : id < cid
    · rw [if_pos h1] at h
      by_cases hf : fuel = 0
      · rw [if_pos hf] at h
        cases h
      · rw [if_neg hf] at h
        cases h
        simp only [alist_put]
        rw [if_pos h1]
    · rw [if_neg h1] at h
      by_cases h2 : id = cid
      · rw [if_pos h2] at h
        simp only [alist_put]
        rw [if_neg h1, if_pos h2]
        subst h2
        cases hc : c.cell with
        | none =>
          rw [hc] at h
          cases hv : v.cell with
          | none =>
            rw [hv] at h
            cases h
            simp only [slot_merge, hc, hv]
          | some vc =>
            rw [hv] at h
            cases h
            simp only [slot_merge, hc, hv]
        | some dc =>
          rw [hc] at h
          cases hv : v.cell with
          | none =>
            rw [hv] at h
            cases h
            simp only [slot_merge, hc, hv]
          | some vc =>
            rw [hv] at h
            cases h
            simp only [slot_merge, hc, hv]
      · rw [if_neg h2] at h
        simp only [alist_put]
        rw [if_neg h1, if_neg h2]
        cases hr : mrow_apply_cell rest id v fuel with
        | error e2 =>
          rw [hr] at h
          cases h
        | ok t =>
          obtain ⟨rest2, v2, fuel2⟩ := t
          rw [hr] at h
          cases h
          rw [ih _ _ _ _ _ _ hr]

theorem mrow_apply_ok (src : mrow) :
    ∀ (dst : mrow) (fuel : Nat) (dst2 rest2 : mrow) (fuel2 : Nat),
      mrow_apply_reversibly dst src fuel = .ok (dst2, rest2, fuel2) →
      dst2 = alist_merge slot_merge (fun _ => true) dst src := by
  induction src with
  | nil =>
    intro dst fuel dst2 rest2 fuel2 h
    simp only [mrow_apply_reversibly] at h
    cases h
    rfl
  | cons e rest ih =>
    obtain ⟨id, v⟩ := e
    intro dst fuel dst2 rest2 fuel2 h
    simp only [mrow_apply_reversibly] at h
    cases hc : mrow_apply_cell dst id v fuel with
    | error e2 =>
      simp only [hc] at h
      cases h
    | ok t =>
      obtain ⟨dst1, v1, fuel1⟩ := t
      simp only [hc] at h
      cases hr : mrow_apply_reversibly dst1 rest fuel1 with
      | error d2 =>
        simp only [hr] at h
        cases h
      | ok t2 =>
        obtain ⟨dst2a, rest2a, fuel2a⟩ := t2
        simp only [hr] at h
        cases h
        rw [alist_merge_cons]
        simp only [if_pos rfl]
        rw [← mrow_apply_cell_ok dst id v fuel dst1 v1 fuel1 hc]
        exact ih _ _ _ _ _ hr

theorem drow_apply_ok (d s : deletable_row) (fuel : Nat) (dr1 r1 : deletable_row)
    (fuel1 : Nat) (h : deletable_row.apply_reversibly d s fuel = .ok (dr1, r1, fuel1)) :
    dr1 = drow_merge d s := by
  simp only [deletable_row.apply_reversibly] at h
  cases hc : mrow_apply_reversibly d.cells s.cells fuel with
  | error d2 =>
    simp only [hc] at h
    cases h
  | ok t =>
    obtain ⟨cells2, scells2, fuel2⟩ := t
    simp only [hc] at h
    cases h
    unfold drow_merge
    rw [← mrow_apply_ok s.cells d.cells fuel cells2 scells2 _ hc]
    simp [tombstone.apply_reversibly]

theorem alist_find_some_mem {κ ν : Type} [DecidableEq κ] (l : List (κ × ν)) :
    ∀ k v, alist_find l k = some v → (k, v) ∈ l := by
  induction l with
  | nil => intro k v h; cases h
  | cons e rest ih =>
    obtain ⟨k2, v2⟩ := e
    intro k v h
    simp only [alist_find] at h
    by_cases he : k2 = k
    · rw [if_pos he] at h
      cases h
      subst he
      exact List.mem_cons_self _ _
    · rw [if_neg he] at h
      exact List.mem_cons_of_mem _ (ih k v h)

theorem rows_find_eq_alist (l : rows_type) (k : Int) : rows_find l k = alist_find l k := by
  induction l with
  | nil => rfl
  | cons e rest ih =>
    obtain ⟨k2, v2⟩ := e
    simp only [rows_find, alist_find]
    by_cases he : k2 = k
    · rw [if_pos he, if_pos he]
    · rw [if_neg he, if_neg he, ih]

theorem rows_find_none_forall (l : rows_type) :
    ∀ k, rows_find l k = none → ∀ e ∈ l, e.1 ≠ k := by
  induction l with
  | nil => intro k _ e he; cases he
  | cons e0 rest ih =>
    obtain ⟨k2, v2⟩ := e0
    intro k h e he
    simp only [rows_find] at h
    by_cases he2 : k2 = k
    · rw [if_pos he2] at h
      cases h
    · rw [if_neg he2] at h
      rcases List.mem_cons.mp he with rfl | hmem
      · exact he2
      · exact ih k h e hmem

theorem rows_insert_eq_put (dst : rows_type) :
    ∀ k r, rows_find dst k = none → rows_insert dst k r = alist_put drow_merge dst k r := by
  induction dst with
  | nil => intro k r _; rfl
  | cons e rest ih =>
    obtain ⟨k2, v2⟩ := e
    intro k r h
    simp only [rows_find] at h
    by_cases he : k2 = k
    · rw [if_pos he] at h
      cases h
    · rw [if_neg he] at h
      simp only [rows_insert, alist_put]
      by_cases hlt : k < k2
      · rw [if_pos hlt, if_pos hlt]
      · rw [if_neg hlt, if_neg hlt, if_neg (fun hk => he hk.symm), ih k r h]

theorem rows_update_eq_put (dst : rows_type) :
    ∀ k r dr, alist_sorted dst → rows_find dst k = some dr →
      rows_update dst k (drow_merge dr r) = alist_put drow_merge dst k r := by
  induction dst with
  | nil => intro k r dr _ h; cases h
  | cons e rest ih =>
    obtain ⟨k2, v2⟩ := e
    intro k r dr hs h
    simp only [rows_find] at h
    simp only [rows_update, alist_put]
    by_cases he : k2 = k
    · rw [if_pos he] at h
      cases h
      rw [if_pos he, if_neg (by omega), if_pos he.symm]
    · rw [if_neg he] at h
      have hmem := alist_find_some_mem rest k dr (by rw [← rows_find_eq_alist]; exact h)
      have hlt : k2 < k := by
        have := (List.pairwise_cons.mp hs).1 (k, dr) hmem
        exact this
      rw [if_neg he, if_neg (by omega), if_neg (by omega)]
      rw [ih k r dr (List.pairwise_cons.mp hs).2 h]

theorem mem_rows_insert (l : rows_type) :
    ∀ k r e, e ∈ rows_insert l k r → e ∈ l ∨ e = (k, r) := by
  induction l with
  | nil =>
    intro k r e he
    simp only [rows_insert] at he
    exact Or.inr (List.mem_singleton.mp he)
  | cons e0 rest ih =>
    obtain ⟨k2, v2⟩ := e0
    intro k r e he
    simp only [rows_insert] at he
    by_cases hlt : k < k2
    · rw [if_pos hlt] at he
      rcases List.mem_cons.mp he with rfl | hm
      · exact Or.inr rfl
      · exact Or.inl hm
    · rw [if_neg hlt] at he
      rcases List.mem_cons.mp he with rfl | hm
      · exact Or.inl (List.mem_cons_self _ _)
      · rcases ih k r e hm with h | h
        · exact Or.inl (List.mem_cons_of_mem _ h)
        · exact Or.inr h

theorem rows_insert_sorted (l : rows_type) :
    ∀ k r, alist_sorted l → rows_find l k = none → alist_sorted (rows_insert l k r) := by
  induction l with
  | nil =>
    intro k r _ _
    exact List.pairwise_singleton _ _
  | cons e0 rest ih =>
    obtain ⟨k2, v2⟩ := e0
    intro k r hs hf
    simp only [rows_find] at hf
    by_cases he : k2 = k
    · rw [if_pos he] at hf
      cases hf
    · rw [if_neg he] at hf
      obtain ⟨hhead, htail⟩ := List.pairwise_cons.mp hs
      simp only [rows_insert]
      by_cases hlt : k < k2
      · rw [if_pos hlt]
        refine List.pairwise_cons.mpr ⟨?_, hs⟩
        intro b hb
        rcases List.mem_cons.mp hb with rfl | hm
        · exact hlt
        · have := hhead b hm
          omega
      · rw [if_neg hlt]
        refine List.pairwise_cons.mpr ⟨?_, ih k r htail hf⟩
        intro b hb
        rcases mem_rows_insert rest k r b hb with h | rfl
        · exact hhead b h
        · omega

theorem mem_rows_update (l : rows_type) :
    ∀ k r e, e ∈ rows_update l k r → e ∈ l ∨ (e.1 = k ∧ ∃ v, (k, v) ∈ l) := by
  induction l with
  | nil => intro k r e he; cases he
  | cons e0 rest ih =>
    obtain ⟨k2, v2⟩ := e0
    intro k r e he
    simp only [rows_update] at he
    by_cases he2 : k2 = k
    · rw [if_pos he2] at he
      rcases List.mem_cons.mp he with rfl | hm
      · exact Or.inr ⟨he2, v2, by rw [← he2]; exact List.mem_cons_self _ _⟩
      · exact Or.inl (List.mem_cons_of_mem _ hm)
    · rw [if_neg he2] at he
      rcases List.mem_cons.mp he with rfl | hm
      · exact Or.inl (List.mem_cons_self _ _)
      · rcases ih k r e hm with h | ⟨h1, v, h2⟩
        · exact Or.inl (List.mem_cons_of_mem _ h)
        · exact Or.inr ⟨h1, v, List.mem_cons_of_mem _ h2⟩

theorem rows_update_sorted (l : rows_type) :
    ∀ k r, alist_sorted l → alist_sorted (rows_update l k r) := by
  induction l with
  | nil => intro k r _; exact List.Pairwise.nil
  | cons e0 rest ih =>
    obtain ⟨k2, v2⟩ := e0
    intro k r hs
    obtain ⟨hhead, htail⟩ := List.pairwise_cons.mp hs
    simp only [rows_update]
    by_cases he : k2 = k
    · rw [if_pos he]
      exact List.pairwise_cons.mpr ⟨fun b hb => hhead b hb, htail⟩
    · rw [if_neg he]
      refine List.pairwise_cons.mpr ⟨?_, ih k r htail⟩
      intro b hb
      rcases mem_rows_update rest k r b hb with h | ⟨h1, v, h2⟩
      · exact hhead b h
      · have := hhead (k, v) h2
        simp only at this
        omega

theorem rows_apply_ok (src : rows_type) :
    ∀ (dst : rows_type) (fuel : Nat) (dst2 rest2 : rows_type) (fuel2 : Nat),
      alist_sorted dst →
      rows_apply_reversibly dst src fuel = .ok (dst2, rest2, fuel2) →
      dst2 = alist_merge drow_merge (fun r => !r.empty) dst src := by
  induction src with
  | nil =>
    intro dst fuel dst2 rest2 fuel2 _ h
    simp only [rows_apply_reversibly] at h
    cases h
    rfl
  | cons e rest ih =>
    obtain ⟨k, r⟩ := e
    intro dst fuel dst2 rest2 fuel2 hs h
    simp only [rows_apply_reversibly] at h
    rw [alist_merge_cons]
    by_cases hre : r.empty
    · rw [if_pos hre] at h
      have : (!r.empty) = false := by simp [hre]
      rw [this]
      simp only [if_neg (by simp : ¬ (false = true))]
      exact ih dst fuel dst2 rest2 fuel2 hs h
    · rw [if_neg hre] at h
      have hkeep : (!r.empty) = true := by simp [Bool.not_eq_true]; exact Bool.eq_false_iff.mpr hre
      rw [hkeep]
      simp only [if_pos rfl]
      cases hf : rows_find dst k with
      | none =>
        simp only [hf] at h
        by_cases hfu : fuel = 0
        · rw [if_pos hfu] at h
          cases h
        · rw [if_neg hfu] at h
          cases hrec : rows_apply_reversibly (rows_insert dst k r) rest (fuel - 1) with
          | error d2 =>
            simp only [hrec] at h
            cases h
          | ok t =>
            obtain ⟨dst2a, rest2a, fuel2a⟩ := t
            simp only [hrec] at h
            cases h
            rw [← rows_insert_eq_put dst k r hf]
            exact ih _ _ _ _ _ (rows_insert_sorted dst k r hs hf) hrec
      | some dr =>
        simp only [hf] at h
        cases hda : deletable_row.apply_reversibly dr r fuel with
        | error dr2 =>
          simp only [hda] at h
          cases h
        | ok t =>
          obtain ⟨dr1, r1, fuel1⟩ := t
          simp only [hda] at h
          cases hrec : rows_apply_reversibly (rows_update dst k dr1) rest fuel1 with
          | error d2 =>
            simp only [hrec] at h
            cases h
          | ok t2 =>
            obtain ⟨dst2a, rest2a, fuel2a⟩ := t2
            simp only [hrec] at h
            cases h
            have hdr1 : dr1 = drow_merge dr r := drow_apply_ok dr r fuel dr1 r1 fuel1 hda
            rw [← rows_update_eq_put dst k r dr hs hf, ← hdr1]
            exact ih _ _ _ _ _ (rows_update_sorted dst k dr1 hs) hrec

/-- The success value of the fuelled mutation_partition::apply is exactly the
pure merge. -/
theorem mutation_partition_apply_ok_agrees (dst src r : mutation_partition) (fuel : Nat)
    (hs : alist_sorted dst.rows)
    (h : mutation_partition.apply dst src fuel = .ok r) :
    r = mutation_partition.merge dst src := by
  simp only [mutation_partition.apply] at h
  cases h1 : rtlist_apply_reversibly dst.row_tombstones src.row_tombstones fuel with
  | error e =>
    simp only [h1] at h
    cases h
  | ok t1 =>
    obtain ⟨rtl1, fuel1⟩ := t1
    simp only [h1] at h
    cases h2 : mrow_apply_reversibly dst.static_row src.static_row fuel1 with
    | error d =>
      simp only [h2] at h
      cases h
    | ok t2 =>
      obtain ⟨static1, sstatic1, fuel2⟩ := t2
      simp only [h2] at h
      cases h3 : rows_apply_reversibly dst.rows src.rows fuel2 with
      | error d =>
        simp only [h3] at h
        cases h
      | ok t3 =>
        obtain ⟨rows1, srows1, fuel3⟩ := t3
        simp only [h3] at h
        cases h
        unfold mutation_partition.merge
        rw [← rtlist_apply_ok src.row_tombstones dst.row_tombstones fuel rtl1 fuel1 h1]
        rw [← mrow_apply_ok src.static_row dst.static_row fuel1 static1 sstatic1 fuel2 h2]
        rw [← rows_apply_ok src.rows dst.rows fuel2 rows1 srows1 fuel3 hs h3]

theorem alist_find_none_gt {κ ν : Type} [LinearOrder κ] (l : List (κ × ν)) :
    ∀ k, (∀ e ∈ l, k < e.1) → alist_find l k = none := by
  induction l with
  | nil => intro k _; rfl
  | cons e rest ih =>
    obtain ⟨k0, v0⟩ := e
    intro k h
    simp only [alist_find]
    rw [if_neg ?_]
    · exact ih k (fun e he => h e (List.mem_cons_of_mem _ he))
    · have := h (k0, v0) (List.mem_cons_self _ _)
      simp only at this
      exact fun he => absurd (he ▸ this) (lt_irrefl k0)

theorem mem_alist_put {κ ν : Type} [LinearOrder κ] (g : ν → ν → ν) (l : List (κ × ν)) :
    ∀ k v e, e ∈ alist_put g l k v → e ∈ l ∨ e.1 = k := by
  induction l with
  | nil =>
    intro k v e he
    simp only [alist_put] at he
    cases List.mem_singleton.mp he
    exact Or.inr rfl
  | cons e0 rest ih =>
    obtain ⟨k0, v0⟩ := e0
    intro k v e he
    simp only [alist_put] at he
    by_cases hlt : k < k0
    · rw [if_pos hlt] at he
      rcases List.mem_cons.mp he with rfl | hm
      · exact Or.inr rfl
      · exact Or.inl hm
    · rw [if_neg hlt] at he
      by_cases heq : k = k0
      · rw [if_pos heq] at he
        rcases List.mem_cons.mp he with rfl | hm
        · exact Or.inr heq.symm
        · exact Or.inl (List.mem_cons_of_mem _ hm)
      · rw [if_neg heq] at he
        rcases List.mem_cons.mp he with rfl | hm
        · exact Or.inl (List.mem_cons_self _ _)
        · rcases ih k v e hm with h | h
          · exact Or.inl (List.mem_cons_of_mem _ h)
          · exact Or.inr h

theorem alist_put_sorted {κ ν : Type} [LinearOrder κ] (g : ν → ν → ν) (l : List (κ × ν)) :
    ∀ k v, alist_sorted l → alist_sorted (alist_put g l k v) := by
  induction l with
  | nil => intro k v _; exact List.pairwise_singleton _ _
  | cons e0 rest ih =>
    obtain ⟨k0, v0⟩ := e0
    intro k v hs
    obtain ⟨hhead, htail⟩ := List.pairwise_cons.mp hs
    simp only [alist_put]
    by_cases hlt : k < k0
    · rw [if_pos hlt]
      refine List.pairwise_cons.mpr ⟨?_, hs⟩
      intro b hb
      rcases List.mem_cons.mp hb with rfl | hm
      · exact hlt
      · exact lt_trans hlt (hhead b hm)
    · rw [if_neg hlt]
      by_cases heq : k = k0
      · rw [if_pos heq]
        exact List.pairwise_cons.mpr ⟨fun b hb => hhead b hb, htail⟩
      · rw [if_neg heq]
        refine List.pairwise_cons.mpr ⟨?_, ih k v htail⟩
        intro b hb
        rcases mem_alist_put g rest k v b hb with h | h
        · exact hhead b h
        · have : k0 < k := lt_of_le_of_ne (not_lt.mp hlt) (fun he => heq he.symm)
          rw [h]
          exact this

theorem alist_find_put {κ ν : Type} [LinearOrder κ] (g : ν → ν → ν) (l : List (κ × ν)) :
    ∀ k v k2, alist_sorted l →
      alist_find (alist_put g l k v) k2 =
        if k2 = k then
          (match alist_find l k with
           | some d => some (g d v)
           | none => some v)
        else alist_find l k2 := by
  induction l with
  | nil =>
    intro k v k2 _
    simp only [alist_put, alist_find]
    by_cases he : k = k2
    · rw [if_pos he, if_pos he.symm]
    · rw [if_neg he, if_neg (fun h => he h.symm)]
  | cons e0 rest ih =>
    obtain ⟨k0, v0⟩ := e0
    intro k v k2 hs
    obtain ⟨hhead, htail⟩ := List.pairwise_cons.mp hs
    simp only [alist_put]
    by_cases hlt : k < k0
    · rw [if_pos hlt]
      have hfl : alist_find ((k0, v0) :: rest) k = none := by
        simp only [alist_find]
        rw [if_neg (ne_of_gt hlt)]
        exact alist_find_none_gt rest k (fun e he => lt_trans hlt (hhead e he))
      by_cases hkk : k2 = k
      · subst hkk
        rw [if_pos rfl, hfl]
        simp [alist_find]
      · rw [if_neg hkk]
        simp only [alist_find]
        rw [if_neg (fun h => hkk h.symm)]
    · rw [if_neg hlt]
      by_cases heq : k = k0
      · rw [if_pos heq]
        subst heq
        by_cases hkk : k2 = k
        · subst hkk
          rw [if_pos rfl]
          simp [alist_find]
        · rw [if_neg hkk]
          simp only [alist_find]
          rw [if_neg (fun h => hkk h.symm), if_neg (fun h => hkk h.symm)]
      · rw [if_neg heq]
        have hk0k : k0 ≠ k := fun h => heq h.symm
        have hk0lt : k0 < k := lt_of_le_of_ne (not_lt.mp hlt) hk0k
        by_cases hkk : k2 = k
        · subst hkk
          rw [if_pos rfl]
          simp only [alist_find]
          rw [if_neg hk0k, if_neg hk0k]
          rw [ih k2 v k2 htail, if_pos rfl]
        · rw [if_neg hkk]
          simp only [alist_find]
          by_cases hk02 : k0 = k2
          · rw [if_pos hk02, if_pos hk02]
          · rw [if_neg hk02, if_neg hk02]
            rw [ih k v k2 htail, if_neg hkk]

theorem alist_mem_find {κ ν : Type} [LinearOrder κ] (l : List (κ × ν)) :
    ∀ k v, alist_sorted l → (k, v) ∈ l → alist_find l k = some v := by
  induction l with
  | nil => intro k v _ h; cases h
  | cons e0 rest ih =>
    obtain ⟨k0, v0⟩ := e0
    intro k v hs hm
    obtain ⟨hhead, htail⟩ := List.pairwise_cons.mp hs
    rcases List.mem_cons.mp hm with h | h
    · cases h
      simp [alist_find]
    · have hk : k0 ≠ k := ne_of_lt (hhead (k, v) h)
      simp only [alist_find]
      rw [if_neg hk]
      exact ih k v htail h

theorem alist_merge_cons_pair {κ ν : Type} [LinearOrder κ] (g : ν → ν → ν) (keep : ν → Bool)
    (dst : List (κ × ν)) (k0 : κ) (v0 : ν) (rest : List (κ × ν)) :
    alist_merge g keep dst ((k0, v0) :: rest) =
      alist_merge g keep (if keep v0 then alist_put g dst k0 v0 else dst) rest :=
  alist_merge_cons g keep dst (k0, v0) rest

theorem alist_merge_sorted {κ ν : Type} [LinearOrder κ] (g : ν → ν → ν) (keep : ν → Bool)
    (src : List (κ × ν)) :
    ∀ dst, alist_sorted dst → alist_sorted (alist_merge g keep dst src) := by
  induction src with
  | nil => intro dst h; exact h
  | cons e rest ih =>
    obtain ⟨k0, v0⟩ := e
    intro dst h
    rw [alist_merge_cons_pair]
    by_cases hk : keep v0
    · rw [if_pos hk]
      exact ih _ (alist_put_sorted g dst k0 v0 h)
    · rw [if_neg hk]
      exact ih _ h

theorem alist_put_ne_nil {κ ν : Type} [LinearOrder κ] (g : ν → ν → ν) (l : List (κ × ν))
    (k : κ) (v : ν) : alist_put g l k v ≠ [] := by
  cases l with
  | nil => simp [alist_put]
  | cons e rest =>
    obtain ⟨k0, v0⟩ := e
    simp only [alist_put]
    split_ifs <;> simp

theorem alist_merge_ne_nil {κ ν : Type} [LinearOrder κ] (g : ν → ν → ν) (keep : ν → Bool)
    (src : List (κ × ν)) :
    ∀ dst, dst ≠ [] → alist_merge g keep dst src ≠ [] := by
  induction src with
  | nil => intro dst h; exact h
  | cons e rest ih =>
    obtain ⟨k0, v0⟩ := e
    intro dst h
    rw [alist_merge_cons_pair]
    by_cases hk : keep v0
    · rw [if_pos hk]
      exact ih _ (alist_put_ne_nil g dst k0 v0)
    · rw [if_neg hk]
      exact ih _ h

theorem alist_find_merge {κ ν : Type} [LinearOrder κ] (g : ν → ν → ν) (keep : ν → Bool)
    (src : List (κ × ν)) :
    ∀ dst k, alist_sorted dst → alist_sorted src →
      alist_find (alist_merge g keep dst src) k =
        match alist_find src k with
        | some v =>
          if keep v then
            match alist_find dst k with
            | some d => some (g d v)
            | none => some v
          else alist_find dst k
        | none => alist_find dst k := by
  induction src with
  | nil => intro dst k _ _; rfl
  | cons e0 rest ih =>
    obtain ⟨k0, v0⟩ := e0
    intro dst k hd hs
    obtain ⟨hhead, htail⟩ := List.pairwise_cons.mp hs
    rw [alist_merge_cons_pair]
    have hd2 : alist_sorted (if keep v0 then alist_put g dst k0 v0 else dst) := by
      by_cases hk : keep v0
      · rw [if_pos hk]; exact alist_put_sorted g dst k0 v0 hd
      · rw [if_neg hk]; exact hd
    rw [ih _ k hd2 htail]
    by_cases hkk : k = k0
    · subst hkk
      have hrest : alist_find rest k = none :=
        alist_find_none_gt rest k (fun e he => hhead e he)
      have hsc : alist_find ((k, v0) :: rest) k = some v0 := by simp [alist_find]
      simp only [hrest, hsc]
      by_cases hk : keep v0
      · rw [if_pos hk, if_pos hk, alist_find_put g dst k v0 k hd, if_pos rfl]
      · rw [if_neg hk, if_neg hk]
    · have hsc : alist_find ((k0, v0) :: rest) k = alist_find rest k := by
        simp only [alist_find]
        rw [if_neg (fun h => hkk h.symm)]
      rw [hsc]
      have hfd : alist_find (if keep v0 then alist_put g dst k0 v0 else dst) k =
          alist_find dst k := by
        by_cases hk : keep v0
        · rw [if_pos hk, alist_find_put g dst k0 v0 k hd, if_neg hkk]
        · rw [if_neg hk]
      rw [hfd]

theorem alist_ext {κ ν : Type} [LinearOrder κ] (a : List (κ × ν)) :
    ∀ b, alist_sorted a → alist_sorted b →
      (∀ k, alist_find a k = alist_find b k) → a = b := by
  induction a with
  | nil =>
    intro b _ _ hf
    cases b with
    | nil => rfl
    | cons e rest =>
      obtain ⟨k0, v0⟩ := e
      exfalso
      have h := hf k0
      have hs : alist_find ((k0, v0) :: rest) k0 = some v0 := by simp [alist_find]
      rw [hs] at h
      exact Option.noConfusion h
  | cons ea resta ih =>
    obtain ⟨ka, va⟩ := ea
    intro b hsa hsb hf
    cases b with
    | nil =>
      exfalso
      have h := hf ka
      have hs : alist_find ((ka, va) :: resta) ka = some va := by simp [alist_find]
      rw [hs] at h
      exact Option.noConfusion h
    | cons eb restb =>
      obtain ⟨kb, vb⟩ := eb
      obtain ⟨hha, hta⟩ := List.pairwise_cons.mp hsa
      obtain ⟨hhb, htb⟩ := List.pairwise_cons.mp hsb
      have hkab : ka = kb := by
        by_contra hne
        rcases lt_or_gt_of_ne hne with hlt | hgt
        · have h1 := hf ka
          have hs1 : alist_find ((ka, va) :: resta) ka = some va := by simp [alist_find]
          have hs2 : alist_find ((kb, vb) :: restb) ka = none := by
            apply alist_find_none_gt
            intro e he
            rcases List.mem_cons.mp he with rfl | hm
            · exact hlt
            · exact lt_trans hlt (hhb e hm)
          rw [hs1, hs2] at h1
          exact Option.noConfusion h1
        · have h1 := hf kb
          have hs1 : alist_find ((kb, vb) :: restb) kb = some vb := by simp [alist_find]
          have hs2 : alist_find ((ka, va) :: resta) kb = none := by
            apply alist_find_none_gt
            intro e he
            rcases List.mem_cons.mp he with rfl | hm
            · exact hgt
            · exact lt_trans hgt (hha e hm)
          rw [hs1, hs2] at h1
          exact Option.noConfusion h1
      subst hkab
      have hvab : va = vb := by
        have h1 := hf ka
        simp [alist_find] at h1
        exact h1
      subst hvab
      congr 1
      apply ih restb hta htb
      intro k
      by_cases hk : k = ka
      · subst hk
        rw [alist_find_none_gt resta k (fun e he => hha e he),
            alist_find_none_gt restb k (fun e he => hhb e he)]
      · have h := hf k
        simp only [alist_find] at h
        rw [if_neg (fun he => hk he.symm), if_neg (fun he => hk he.symm)] at h
        exact h

theorem alist_merge_comm {κ ν : Type} [LinearOrder κ] (g : ν → ν → ν) (keep : ν → Bool)
    (a b : List (κ × ν)) (ha : alist_sorted a) (hb : alist_sorted b)
    (hka : ∀ e ∈ a, keep e.2 = true) (hkb : ∀ e ∈ b, keep e.2 = true)
    (hg : ∀ k va vb, alist_find a k = some va → alist_find b k = some vb →
      g va vb = g vb va) :
    alist_merge g keep a b = alist_merge g keep b a := by
  apply alist_ext _ _ (alist_merge_sorted g keep b a ha) (alist_merge_sorted g keep a b hb)
  intro k
  rw [alist_find_merge g keep b a k ha hb, alist_find_merge g keep a b k hb ha]
  rcases hfa : alist_find a k with _ | va
  · rcases hfb : alist_find b k with _ | vb
    · simp only [hfa, hfb]
    · simp only [hfa, hfb]
      rw [if_pos (hkb (k, vb) (alist_find_some_mem b k vb hfb))]
  · rcases hfb : alist_find b k with _ | vb
    · simp only [hfa, hfb]
      rw [if_pos (hka (k, va) (alist_find_some_mem a k va hfa))]
    · simp only [hfa, hfb]
      rw [if_pos (hkb (k, vb) (alist_find_some_mem b k vb hfb)),
          if_pos (hka (k, va) (alist_find_some_mem a k va hfa)),
          hg k va vb hfa hfb]

theorem alist_merge_assoc {κ ν : Type} [LinearOrder κ] (g : ν → ν → ν) (keep : ν → Bool)
    (a b c : List (κ × ν)) (ha : alist_sorted a) (hb : alist_sorted b) (hc : alist_sorted c)
    (hkb : ∀ e ∈ b, keep e.2 = true) (hkc : ∀ e ∈ c, keep e.2 = true)
    (hkg : ∀ k vb vc, alist_find b k = some vb → alist_find c k = some vc →
      keep (g vb vc) = true)
    (hg : ∀ k va vb vc, alist_find a k = some va → alist_find b k = some vb →
      alist_find c k = some vc → g (g va vb) vc = g va (g vb vc)) :
    alist_merge g keep (alist_merge g keep a b) c =
      alist_merge g keep a (alist_merge g keep b c) := by
  apply alist_ext _ _
    (alist_merge_sorted g keep c _ (alist_merge_sorted g keep b a ha))
    (alist_merge_sorted g keep (alist_merge g keep b c) a ha)
  intro k
  rw [alist_find_merge g keep c _ k (alist_merge_sorted g keep b a ha) hc,
      alist_find_merge g keep (alist_merge g keep b c) a k ha
        (alist_merge_sorted g keep c b hb),
      alist_find_merge g keep b a k ha hb,
      alist_find_merge g keep c b k hb hc]
  rcases hfa : alist_find a k with _ | va <;>
    rcases hfb : alist_find b k with _ | vb <;>
      rcases hfc : alist_find c k with _ | vc
  · simp only [hfa, hfb, hfc]
  · have h3 : keep vc = true := hkc (k, vc) (alist_find_some_mem c k vc hfc)
    simp [hfa, hfb, hfc, h3]
  · have h2 : keep vb = true := hkb (k, vb) (alist_find_some_mem b k vb hfb)
    simp [hfa, hfb, hfc, h2]
  · have h2 : keep vb = true := hkb (k, vb) (alist_find_some_mem b k vb hfb)
    have h3 : keep vc = true := hkc (k, vc) (alist_find_some_mem c k vc hfc)
    have h23 : keep (g vb vc) = true := hkg k vb vc hfb hfc
    simp [hfa, hfb, hfc, h2, h3, h23]
  · simp only [hfa, hfb, hfc]
  · have h3 : keep vc = true := hkc (k, vc) (alist_find_some_mem c k vc hfc)
    simp [hfa, hfb, hfc, h3]
  · have h2 : keep vb = true := hkb (k, vb) (alist_find_some_mem b k vb hfb)
    simp [hfa, hfb, hfc, h2]
  · have h2 : keep vb = true := hkb (k, vb) (alist_find_some_mem b k vb hfb)
    have h3 : keep vc = true := hkc (k, vc) (alist_find_some_mem c k vc hfc)
    have h23 : keep (g vb vc) = true := hkg k vb vc hfb hfc
    simp [hfa, hfb, hfc, h2, h3, h23, hg k va vb vc hfa hfb hfc]

theorem tombstone_apply_comm (a b : tombstone) : tombstone.apply a b = tombstone.apply b a := by
  rcases a with ⟨at1, ad1⟩
  rcases b with ⟨bt1, bd1⟩
  simp only [tombstone.apply, tombstone.lt]
  split_ifs with h1 h2 h2 <;> simp_all [tombstone.mk.injEq] <;> omega

theorem tombstone_apply_assoc (a b c : tombstone) :
    tombstone.apply (tombstone.apply a b) c = tombstone.apply a (tombstone.apply b c) := by
  rcases a with ⟨at1, ad1⟩
  rcases b with ⟨bt1, bd1⟩
  rcases c with ⟨ct1, cd1⟩
  simp only [tombstone.apply, tombstone.lt]
  split_ifs <;> simp_all [tombstone.mk.injEq] <;> omega

theorem cell_tie_free_symm {x y : atomic_cell} (h : cell_tie_free x y) : cell_tie_free y x :=
  h.elim (fun e => Or.inl e.symm) (fun n => Or.inr (fun e => n e.symm))

theorem marker_tie_free_symm {x y : row_marker} (h : marker_tie_free x y) :
    marker_tie_free y x :=
  h.elim (fun e => Or.inl e.symm) (fun n => Or.inr (fun e => n e.symm))

theorem cell_apply_fst_eq (d s : atomic_cell) (h : cell_tie_free d s) :
    (cell_apply_reversibly d s).1 = if d.timestamp < s.timestamp then s else d := by
  rcases h with h | h
  · subst h
    simp [cell_apply_reversibly, compare_atomic_cell_for_merge]
  · have hc : compare_atomic_cell_for_merge d s =
        if d.timestamp > s.timestamp then 1 else -1 := by
      simp [compare_atomic_cell_for_merge, h]
    simp only [cell_apply_reversibly, hc]
    by_cases hlt : d.timestamp < s.timestamp
    · rw [if_pos hlt, if_neg (by omega : ¬ d.timestamp > s.timestamp)]
      norm_num
    · rw [if_neg hlt, if_pos (by omega : d.timestamp > s.timestamp)]
      norm_num

theorem marker_apply_fst_eq (d s : row_marker) (h : marker_tie_free d s) :
    (row_marker.apply_reversibly d s).1 = if d.timestamp < s.timestamp then s else d := by
  rcases h with h | h
  · subst h
    simp [row_marker.apply_reversibly, compare_row_marker_for_merge]
  · have hc : compare_row_marker_for_merge d s =
        if d.timestamp > s.timestamp then 1 else -1 := by
      simp [compare_row_marker_for_merge, h]
    simp only [row_marker.apply_reversibly, hc]
    by_cases hlt : d.timestamp < s.timestamp
    · rw [if_pos hlt, if_neg (by omega : ¬ d.timestamp > s.timestamp)]
      norm_num
    · rw [if_neg hlt, if_pos (by omega : d.timestamp > s.timestamp)]
      norm_num

theorem cell_apply_fst_comm (d s : atomic_cell) (h : cell_tie_free d s) :
    (cell_apply_reversibly d s).1 = (cell_apply_reversibly s d).1 := by
  rw [cell_apply_fst_eq d s h, cell_apply_fst_eq s d (cell_tie_free_symm h)]
  rcases h with h | h
  · subst h; rfl
  · by_cases hlt : d.timestamp < s.timestamp
    · rw [if_pos hlt, if_neg (by omega : ¬ s.timestamp < d.timestamp)]
    · rw [if_neg hlt, if_pos (by omega : s.timestamp < d.timestamp)]

theorem marker_apply_fst_comm (d s : row_marker) (h : marker_tie_free d s) :
    (row_marker.apply_reversibly d s).1 = (row_marker.apply_reversibly s d).1 := by
  rw [marker_apply_fst_eq d s h, marker_apply_fst_eq s d (marker_tie_free_symm h)]
  rcases h with h | h
  · subst h; rfl
  · by_cases hlt : d.timestamp < s.timestamp
    · rw [if_pos hlt, if_neg (by omega : ¬ s.timestamp < d.timestamp)]
    · rw [if_neg hlt, if_pos (by omega : s.timestamp < d.timestamp)]

theorem cell_apply_fst_assoc (x y z : atomic_cell)
    (hxy : cell_tie_free x y) (hxz : cell_tie_free x z) (hyz : cell_tie_free y z) :
    (cell_apply_reversibly (cell_apply_reversibly x y).1 z).1 =
      (cell_apply_reversibly x (cell_apply_reversibly y z).1).1 := by
  rw [cell_apply_fst_eq x y hxy, cell_apply_fst_eq y z hyz]
  by_cases h1 : x.timestamp < y.timestamp
  · rw [if_pos h1]
    by_cases h2 : y.timestamp < z.timestamp
    · rw [if_pos h2, cell_apply_fst_eq y z hyz, cell_apply_fst_eq x z hxz,
        if_pos h2, if_pos (lt_trans h1 h2)]
    · rw [if_neg h2, cell_apply_fst_eq y z hyz, cell_apply_fst_eq x y hxy,
        if_neg h2, if_pos h1]
  · rw [if_neg h1]
    by_cases h2 : y.timestamp < z.timestamp
    · rw [if_pos h2]
    · rw [if_neg h2, cell_apply_fst_eq x z hxz, cell_apply_fst_eq x y hxy,
        if_neg (by omega : ¬ x.timestamp < z.timestamp), if_neg h1]

theorem marker_apply_fst_assoc (x y z : row_marker)
    (hxy : marker_tie_free x y) (hxz : marker_tie_free x z) (hyz : marker_tie_free y z) :
    (row_marker.apply_reversibly (row_marker.apply_reversibly x y).1 z).1 =
      (row_marker.apply_reversibly x (row_marker.apply_reversibly y z).1).1 := by
  rw [marker_apply_fst_eq x y hxy, marker_apply_fst_eq y z hyz]
  by_cases h1 : x.timestamp < y.timestamp
  · rw [if_pos h1]
    by_cases h2 : y.timestamp < z.timestamp
    · rw [if_pos h2, marker_apply_fst_eq y z hyz, marker_apply_fst_eq x z hxz,
        if_pos h2, if_pos (lt_trans h1 h2)]
    · rw [if_neg h2, marker_apply_fst_eq y z hyz, marker_apply_fst_eq x y hxy,
        if_neg h2, if_pos h1]
  · rw [if_neg h1]
    by_cases h2 : y.timestamp < z.timestamp
    · rw [if_pos h2]
    · rw [if_neg h2, marker_apply_fst_eq x z hxz, marker_apply_fst_eq x y hxy,
        if_neg (by omega : ¬ x.timestamp < z.timestamp), if_neg h1]

theorem slot_merge_comm (x y : atomic_cell) (h : cell_tie_free x y) :
    slot_merge ⟨some x, false⟩ ⟨some y, false⟩ = slot_merge ⟨some y, false⟩ ⟨some x, false⟩ := by
  simp only [slot_merge]
  rw [cell_apply_fst_comm x y h]

theorem slot_merge_assoc (x y z : atomic_cell)
    (hxy : cell_tie_free x y) (hxz : cell_tie_free x z) (hyz : cell_tie_free y z) :
    slot_merge (slot_merge ⟨some x, false⟩ ⟨some y, false⟩) ⟨some z, false⟩ =
      slot_merge ⟨some x, false⟩ (slot_merge ⟨some y, false⟩ ⟨some z, false⟩) := by
  simp only [slot_merge]
  rw [cell_apply_fst_assoc x y z hxy hxz hyz]

theorem drow_merge_comm (d s : deletable_row)
    (hd : alist_sorted d.cells) (hs : alist_sorted s.cells)
    (hde : ∀ c ∈ d.cells, c.2.cell.isSome = true ∧ c.2.revert = false)
    (hse : ∀ c ∈ s.cells, c.2.cell.isSome = true ∧ c.2.revert = false)
    (hm : marker_tie_free d.marker s.marker)
    (hc : ∀ x ∈ d.cells.filterMap (fun c => c.2.cell),
          ∀ y ∈ s.cells.filterMap (fun c => c.2.cell), cell_tie_free x y) :
    drow_merge d s = drow_merge s d := by
  simp only [drow_merge, deletable_row.mk.injEq]
  refine ⟨tombstone_apply_comm _ _, marker_apply_fst_comm _ _ hm, ?_⟩
  apply alist_merge_comm slot_merge (fun _ => true) d.cells s.cells hd hs
    (fun _ _ => rfl) (fun _ _ => rfl)
  intro k va vb hfa hfb
  have ha := hde (k, va) (alist_find_some_mem d.cells k va hfa)
  have hb := hse (k, vb) (alist_find_some_mem s.cells k vb hfb)
  rcases va with ⟨vac, var⟩
  rcases vb with ⟨vbc, vbr⟩
  rcases vac with _ | x
  · exact Bool.noConfusion ha.1
  rcases vbc with _ | y
  · exact Bool.noConfusion hb.1
  have hvar : var = false := ha.2
  have hvbr : vbr = false := hb.2
  subst hvar
  subst hvbr
  exact slot_merge_comm x y
    (hc x (List.mem_filterMap.mpr ⟨_, alist_find_some_mem d.cells k _ hfa, rfl⟩)
       y (List.mem_filterMap.mpr ⟨_, alist_find_some_mem s.cells k _ hfb, rfl⟩))

theorem drow_merge_assoc (x y z : deletable_row)
    (hx : alist_sorted x.cells) (hy : alist_sorted y.cells) (hz : alist_sorted z.cells)
    (hxe : ∀ c ∈ x.cells, c.2.cell.isSome = true ∧ c.2.revert = false)
    (hye : ∀ c ∈ y.cells, c.2.cell.isSome = true ∧ c.2.revert = false)
    (hze : ∀ c ∈ z.cells, c.2.cell.isSome = true ∧ c.2.revert = false)
    (hmxy : marker_tie_free x.marker y.marker)
    (hmxz : marker_tie_free x.marker z.marker)
    (hmyz : marker_tie_free y.marker z.marker)
    (hcxy : ∀ a ∈ x.cells.filterMap (fun c => c.2.cell),
            ∀ b ∈ y.cells.filterMap (fun c => c.2.cell), cell_tie_free a b)
    (hcxz : ∀ a ∈ x.cells.filterMap (fun c => c.2.cell),
            ∀ b ∈ z.cells.filterMap (fun c => c.2.cell), cell_tie_free a b)
    (hcyz : ∀ a ∈ y.cells.filterMap (fun c => c.2.cell),
            ∀ b ∈ z.cells.filterMap (fun c => c.2.cell), cell_tie_free a b) :
    drow_merge (drow_merge x y) z = drow_merge x (drow_merge y z) := by
  simp only [drow_merge, deletable_row.mk.injEq]
  refine ⟨tombstone_apply_assoc _ _ _, marker_apply_fst_assoc _ _ _ hmxy hmxz hmyz, ?_⟩
  apply alist_merge_assoc slot_merge (fun _ => true) x.cells y.cells z.cells hx hy hz
    (fun _ _ => rfl) (fun _ _ => rfl) (fun _ _ _ _ _ => rfl)
  intro k va vb vc hfa hfb hfc
  have ha := hxe (k, va) (alist_find_some_mem x.cells k va hfa)
  have hb := hye (k, vb) (alist_find_some_mem y.cells k vb hfb)
  have hc := hze (k, vc) (alist_find_some_mem z.cells k vc hfc)
  rcases va with ⟨vac, var⟩
  rcases vb with ⟨vbc, vbr⟩
  rcases vc with ⟨vcc, vcr⟩
  rcases vac with _ | a0
  · exact Bool.noConfusion ha.1
  rcases vbc with _ | b0
  · exact Bool.noConfusion hb.1
  rcases vcc with _ | c0
  · exact Bool.noConfusion hc.1
  have hvar : var = false := ha.2
  have hvbr : vbr = false := hb.2
  have hvcr : vcr = false := hc.2
  subst hvar
  subst hvbr
  subst hvcr
  exact slot_merge_assoc a0 b0 c0
    (hcxy a0 (List.mem_filterMap.mpr ⟨_, alist_find_some_mem x.cells k _ hfa, rfl⟩)
       b0 (List.mem_filterMap.mpr ⟨_, alist_find_some_mem y.cells k _ hfb, rfl⟩))
    (hcxz a0 (List.mem_filterMap.mpr ⟨_, alist_find_some_mem x.cells k _ hfa, rfl⟩)
       c0 (List.mem_filterMap.mpr ⟨_, alist_find_some_mem z.cells k _ hfc, rfl⟩))
    (hcyz b0 (List.mem_filterMap.mpr ⟨_, alist_find_some_mem y.cells k _ hfb, rfl⟩)
       c0 (List.mem_filterMap.mpr ⟨_, alist_find_some_mem z.cells k _ hfc, rfl⟩))

theorem tombstone_apply_bool (a b : tombstone) (ha : a.bool = true)
    (ha2 : a.timestamp ≥ missing_timestamp) (hb : b.timestamp ≥ missing_timestamp) :
    (tombstone.apply a b).bool = true := by
  have ha' : a.timestamp ≠ missing_timestamp := by
    simpa [tombstone.bool] using ha
  simp only [tombstone.apply]
  by_cases h : tombstone.lt a b
  · rw [if_pos h]
    have hge : b.timestamp ≥ a.timestamp := by
      rcases h with h | ⟨h, _⟩
      · omega
      · omega
    simp only [tombstone.bool]
    simp only [ne_eq, decide_not, Bool.not_eq_true', decide_eq_false_iff_not]
    omega
  · rw [if_neg h]
    exact ha

theorem marker_ts_ne_missing (m : row_marker) (h : m.timestamp > missing_timestamp) :
    m ≠ row_marker.missing := by
  intro he
  subst he
  exact lt_irrefl _ h

theorem drow_merge_nonempty (d s : deletable_row)
    (hd : d.empty = false)
    (hwd : d.deleted_at.timestamp ≥ missing_timestamp ∧
      (d.marker = row_marker.missing ∨ d.marker.timestamp > missing_timestamp))
    (hws : s.deleted_at.timestamp ≥ missing_timestamp ∧
      (s.marker = row_marker.missing ∨ s.marker.timestamp > missing_timestamp))
    (hm : marker_tie_free d.marker s.marker) :
    (drow_merge d s).empty = false := by
  by_cases hcell : d.cells = []
  · by_cases hmk : d.marker = row_marker.missing
    · have htomb : d.deleted_at.bool = true := by
        by_contra hnb
        have hnb' : d.deleted_at.bool = false := by
          cases hdb : d.deleted_at.bool
          · rfl
          · exact absurd hdb hnb
        simp [deletable_row.empty, hcell, hmk, hnb'] at hd
      have hres : (drow_merge d s).deleted_at.bool = true := by
        simp only [drow_merge]
        exact tombstone_apply_bool _ _ htomb hwd.1 hws.1
      simp [deletable_row.empty, hres]
    · have hdm : d.marker.timestamp > missing_timestamp := by
        rcases hwd.2 with h | h
        · exact absurd h hmk
        · exact h
      have hres : (drow_merge d s).marker ≠ row_marker.missing := by
        simp only [drow_merge]
        rw [marker_apply_fst_eq _ _ hm]
        by_cases hlt : d.marker.timestamp < s.marker.timestamp
        · rw [if_pos hlt]
          exact marker_ts_ne_missing _ (by omega)
        · rw [if_neg hlt]
          exact hmk
      have hres' : ((drow_merge d s).marker == row_marker.missing) = false := by
        cases hbe : (drow_merge d s).marker == row_marker.missing
        · rfl
        · exact absurd (eq_of_beq hbe) hres
      simp [deletable_row.empty, hres']
  · have hres : (drow_merge d s).cells ≠ [] := by
      simp only [drow_merge]
      exact alist_merge_ne_nil slot_merge (fun _ => true) s.cells d.cells hcell
    have hres' : (drow_merge d s).cells.isEmpty = false := by
      cases hc : (drow_merge d s).cells with
      | nil => exact absurd hc hres
      | cons e rest => rfl
    simp [deletable_row.empty, hres']

theorem mem_rows_cells_foldr (rows : rows_type) (e : Int × deletable_row) (he : e ∈ rows)
    (x : atomic_cell) (hx : x ∈ e.2.cells.filterMap (fun c => c.2.cell)) :
    x ∈ rows.foldr (fun e acc => e.2.cells.filterMap (fun c => c.2.cell) ++ acc) [] := by
  induction rows with
  | nil => cases he
  | cons r rest ih =>
    rw [List.foldr_cons]
    rcases List.mem_cons.mp he with h | h
    · subst h
      exact List.mem_append_left _ hx
    · exact List.mem_append_right _ (ih h)

theorem row_cell_mem_all_cells (p : mutation_partition) (e : Int × deletable_row)
    (he : e ∈ p.rows) (x : atomic_cell) (hx : x ∈ e.2.cells.filterMap (fun c => c.2.cell)) :
    x ∈ mp_all_cells p :=
  List.mem_append_right _ (mem_rows_cells_foldr p.rows e he x hx)

theorem static_cell_mem_all_cells (p : mutation_partition) (x : atomic_cell)
    (hx : x ∈ p.static_row.filterMap (fun e => e.2.cell)) : x ∈ mp_all_cells p :=
  List.mem_append_left _ hx

theorem marker_mem_all_markers (p : mutation_partition) (e : Int × deletable_row)
    (he : e ∈ p.rows) : e.2.marker ∈ mp_all_markers p :=
  List.mem_map_of_mem _ he

theorem mrow_equal_refl (a : mrow) : mrow_equal a a = true := by
  simp [mrow_equal]

theorem rows_zip_self_all (l : rows_type) :
    (List.zip l l).all (fun p =>
      p.1.1 == p.2.1 && p.1.2.deleted_at == p.2.2.deleted_at &&
      p.1.2.marker == p.2.2.marker && mrow_equal p.1.2.cells p.2.2.cells) = true := by
  induction l with
  | nil => rfl
  | cons e rest ih =>
    simp [List.zip_cons_cons, ih, mrow_equal_refl]

theorem mp_equal_refl (a : mutation_partition) : mutation_partition.equal a a = true := by
  simp [mutation_partition.equal, mrow_equal_refl, rows_zip_self_all]

theorem mp_merge_comm (a b : mutation_partition)
    (ha : mp_wf a) (hb : mp_wf b)
    (hrta : a.row_tombstones = []) (hrtb : b.row_tombstones = [])
    (hnea : ∀ e ∈ a.rows, e.2.empty = false) (hneb : ∀ e ∈ b.rows, e.2.empty = false)
    (hcells : ∀ x ∈ mp_all_cells a, ∀ y ∈ mp_all_cells b, cell_tie_free x y)
    (hmk : ∀ x ∈ mp_all_markers a, ∀ y ∈ mp_all_markers b, marker_tie_free x y) :
    mutation_partition.merge a b = mutation_partition.merge b a := by
  obtain ⟨has, hae, har, harow⟩ := ha
  obtain ⟨hbs, hbe, hbr, hbrow⟩ := hb
  simp only [mutation_partition.merge, mutation_partition.mk.injEq]
  refine ⟨tombstone_apply_comm _ _, ?_, ?_, ?_⟩
  · apply alist_merge_comm slot_merge (fun _ => true) a.static_row b.static_row has hbs
      (fun _ _ => rfl) (fun _ _ => rfl)
    intro k va vb hfa hfb
    have hea := hae (k, va) (alist_find_some_mem _ k va hfa)
    have heb := hbe (k, vb) (alist_find_some_mem _ k vb hfb)
    rcases va with ⟨vac, var⟩
    rcases vb with ⟨vbc, vbr⟩
    rcases vac with _ | x
    · exact Bool.noConfusion hea.1
    rcases vbc with _ | y
    · exact Bool.noConfusion heb.1
    have h1 : var = false := hea.2
    have h2 : vbr = false := heb.2
    subst h1
    subst h2
    exact slot_merge_comm x y
      (hcells x (static_cell_mem_all_cells a x
          (List.mem_filterMap.mpr ⟨_, alist_find_some_mem _ k _ hfa, rfl⟩))
        y (static_cell_mem_all_cells b y
          (List.mem_filterMap.mpr ⟨_, alist_find_some_mem _ k _ hfb, rfl⟩)))
  · rw [hrta, hrtb]
  · apply alist_merge_comm drow_merge (fun r => !r.empty) a.rows b.rows har hbr ?_ ?_ ?_
    · intro e he
      simp [hnea e he]
    · intro e he
      simp [hneb e he]
    · intro k va vb hfa hfb
      have hma := harow (k, va) (alist_find_some_mem _ k va hfa)
      have hmb := hbrow (k, vb) (alist_find_some_mem _ k vb hfb)
      apply drow_merge_comm va vb hma.1 hmb.1 hma.2.1 hmb.2.1
      · exact hmk va.marker (marker_mem_all_markers a (k, va) (alist_find_some_mem _ k va hfa))
          vb.marker (marker_mem_all_markers b (k, vb) (alist_find_some_mem _ k vb hfb))
      · intro x hx y hy
        exact hcells x (row_cell_mem_all_cells a (k, va) (alist_find_some_mem _ k va hfa) x hx)
          y (row_cell_mem_all_cells b (k, vb) (alist_find_some_mem _ k vb hfb) y hy)

theorem mp_merge_assoc (a b c : mutation_partition)
    (ha : mp_wf a) (hb : mp_wf b) (hc : mp_wf c)
    (hrta : a.row_tombstones = []) (hrtb : b.row_tombstones = [])
    (hrtc : c.row_tombstones = [])
    (hneb : ∀ e ∈ b.rows, e.2.empty = false) (hnec : ∀ e ∈ c.rows, e.2.empty = false)
    (hcab : ∀ x ∈ mp_all_cells a, ∀ y ∈ mp_all_cells b, cell_tie_free x y)
    (hcac : ∀ x ∈ mp_all_cells a, ∀ y ∈ mp_all_cells c, cell_tie_free x y)
    (hcbc : ∀ x ∈ mp_all_cells b, ∀ y ∈ mp_all_cells c, cell_tie_free x y)
    (hmab : ∀ x ∈ mp_all_markers a, ∀ y ∈ mp_all_markers b, marker_tie_free x y)
    (hmac : ∀ x ∈ mp_all_markers a, ∀ y ∈ mp_all_markers c, marker_tie_free x y)
    (hmbc : ∀ x ∈ mp_all_markers b, ∀ y ∈ mp_all_markers c, marker_tie_free x y) :
    mutation_partition.merge (mutation_partition.merge a b) c =
      mutation_partition.merge a (mutation_partition.merge b c) := by
  obtain ⟨has, hae, har, harow⟩ := ha
  obtain ⟨hbs, hbe, hbr, hbrow⟩ := hb
  obtain ⟨hcs, hce, hcr, hcrow⟩ := hc
  simp only [mutation_partition.merge, mutation_partition.mk.injEq]
  refine ⟨tombstone_apply_assoc _ _ _, ?_, ?_, ?_⟩
  · apply alist_merge_assoc slot_merge (fun _ => true) a.static_row b.static_row c.static_row
      has hbs hcs (fun _ _ => rfl) (fun _ _ => rfl) (fun _ _ _ _ _ => rfl)
    intro k va vb vc hfa hfb hfc
    have hea := hae (k, va) (alist_find_some_mem _ k va hfa)
    have heb := hbe (k, vb) (alist_find_some_mem _ k vb hfb)
    have hec := hce (k, vc) (alist_find_some_mem _ k vc hfc)
    rcases va with ⟨vac, var⟩
    rcases vb with ⟨vbc, vbr⟩
    rcases vc with ⟨vcc, vcr⟩
    rcases vac with _ | x
    · exact Bool.noConfusion hea.1
    rcases vbc with _ | y
    · exact Bool.noConfusion heb.1
    rcases vcc with _ | z
    · exact Bool.noConfusion hec.1
    have h1 : var = false := hea.2
    have h2 : vbr = false := heb.2
    have h3 : vcr = false := hec.2
    subst h1
    subst h2
    subst h3
    exact slot_merge_assoc x y z
      (hcab x (static_cell_mem_all_cells a x
          (List.mem_filterMap.mpr ⟨_, alist_find_some_mem _ k _ hfa, rfl⟩))
        y (static_cell_mem_all_cells b y
          (List.mem_filterMap.mpr ⟨_, alist_find_some_mem _ k _ hfb, rfl⟩)))
      (hcac x (static_cell_mem_all_cells a x
          (List.mem_filterMap.mpr ⟨_, alist_find_some_mem _ k _ hfa, rfl⟩))
        z (static_cell_mem_all_cells c z
          (List.mem_filterMap.mpr ⟨_, alist_find_some_mem _ k _ hfc, rfl⟩)))
      (hcbc y (static_cell_mem_all_cells b y
          (List.mem_filterMap.mpr ⟨_, alist_find_some_mem _ k _ hfb, rfl⟩))
        z (static_cell_mem_all_cells c z
          (List.mem_filterMap.mpr ⟨_, alist_find_some_mem _ k _ hfc, rfl⟩)))
  · rw [hrta, hrtb, hrtc]
    rfl
  · apply alist_merge_assoc drow_merge (fun r => !r.empty) a.rows b.rows c.rows
      har hbr hcr ?_ ?_ ?_ ?_
    · intro e he
      simp [hneb e he]
    · intro e he
      simp [hnec e he]
    · intro k vb vc hfb hfc
      have hwb := hbrow (k, vb) (alist_find_some_mem _ k vb hfb)
      have hwc := hcrow (k, vc) (alist_find_some_mem _ k vc hfc)
      have hnb := hneb (k, vb) (alist_find_some_mem _ k vb hfb)
      have hmt := hmbc vb.marker
        (marker_mem_all_markers b (k, vb) (alist_find_some_mem _ k vb hfb))
        vc.marker (marker_mem_all_markers c (k, vc) (alist_find_some_mem _ k vc hfc))
      have := drow_merge_nonempty vb vc hnb ⟨hwb.2.2.1, hwb.2.2.2⟩ ⟨hwc.2.2.1, hwc.2.2.2⟩ hmt
      simp [this]
    · intro k va vb vc hfa hfb hfc
      have hwa := harow (k, va) (alist_find_some_mem _ k va hfa)
      have hwb := hbrow (k, vb) (alist_find_some_mem _ k vb hfb)
      have hwc := hcrow (k, vc) (alist_find_some_mem _ k vc hfc)
      apply drow_merge_assoc va vb vc hwa.1 hwb.1 hwc.1 hwa.2.1 hwb.2.1 hwc.2.1
      · exact hmab va.marker (marker_mem_all_markers a (k, va) (alist_find_some_mem _ k va hfa))
          vb.marker (marker_mem_all_markers b (k, vb) (alist_find_some_mem _ k vb hfb))
      · exact hmac va.marker (marker_mem_all_markers a (k, va) (alist_find_some_mem _ k va hfa))
          vc.marker (marker_mem_all_markers c (k, vc) (alist_find_some_mem _ k vc hfc))
      · exact hmbc vb.marker (marker_mem_all_markers b (k, vb) (alist_find_some_mem _ k vb hfb))
          vc.marker (marker_mem_all_markers c (k, vc) (alist_find_some_mem _ k vc hfc))
      · intro x hx y hy
        exact hcab x (row_cell_mem_all_cells a (k, va) (alist_find_some_mem _ k va hfa) x hx)
          y (row_cell_mem_all_cells b (k, vb) (alist_find_some_mem _ k vb hfb) y hy)
      · intro x hx y hy
        exact hcac x (row_cell_mem_all_cells a (k, va) (alist_find_some_mem _ k va hfa) x hx)
          y (row_cell_mem_all_cells c (k, vc) (alist_find_some_mem _ k vc hfc) y hy)
      · intro x hx y hy
        exact hcbc x (row_cell_mem_all_cells b (k, vb) (alist_find_some_mem _ k vb hfb) x hx)
          y (row_cell_mem_all_cells c (k, vc) (alist_find_some_mem _ k vc hfc) y hy)

/-- C3 (amended): mutation_partition merging is commutative and associative —
merge(merge(P1,P2),P3) == merge(P1,merge(P2,P3)) == merge(P2,merge(P1,P3)) by
mutation_partition::equal — provided the three partitions are structurally
well-formed, carry no range tombstones and no empty clustering-row entries,
and the merge order is unambiguous: any two cells stored across the three
partitions, and any two row markers, are either identical or carry distinct
timestamps. Without those provisos the law fails (C3_counterexample). -/
theorem C3_merge_comm_assoc (P1 P2 P3 : mutation_partition)
    (h1 : mp_wf P1) (h2 : mp_wf P2) (h3 : mp_wf P3)
    (hrt1 : P1.row_tombstones = []) (hrt2 : P2.row_tombstones = [])
    (hrt3 : P3.row_tombstones = [])
    (hne1 : ∀ e ∈ P1.rows, e.2.empty = false) (hne2 : ∀ e ∈ P2.rows, e.2.empty = false)
    (hne3 : ∀ e ∈ P3.rows, e.2.empty = false)
    (hcells : ∀ x ∈ mp_all_cells P1 ++ (mp_all_cells P2 ++ mp_all_cells P3),
              ∀ y ∈ mp_all_cells P1 ++ (mp_all_cells P2 ++ mp_all_cells P3),
              cell_tie_free x y)
    (hmk : ∀ x ∈ mp_all_markers P1 ++ (mp_all_markers P2 ++ mp_all_markers P3),
           ∀ y ∈ mp_all_markers P1 ++ (mp_all_markers P2 ++ mp_all_markers P3),
           marker_tie_free x y) :
    mutation_partition.equal
      (mutation_partition.merge (mutation_partition.merge P1 P2) P3)
      (mutation_partition.merge P1 (mutation_partition.merge P2 P3)) = true ∧
    mutation_partition.equal
      (mutation_partition.merge P1 (mutation_partition.merge P2 P3))
      (mutation_partition.merge P2 (mutation_partition.merge P1 P3)) = true := by
  have c12 : ∀ x ∈ mp_all_cells P1, ∀ y ∈ mp_all_cells P2, cell_tie_free x y :=
    fun x hx y hy => hcells x (List.mem_append_left _ hx)
      y (List.mem_append_right _ (List.mem_append_left _ hy))
  have c13 : ∀ x ∈ mp_all_cells P1, ∀ y ∈ mp_all_cells P3, cell_tie_free x y :=
    fun x hx y hy => hcells x (List.mem_append_left _ hx)
      y (List.mem_append_right _ (List.mem_append_right _ hy))
  have c23 : ∀ x ∈ mp_all_cells P2, ∀ y ∈ mp_all_cells P3, cell_tie_free x y :=
    fun x hx y hy => hcells x (List.mem_append_right _ (List.mem_append_left _ hx))
      y (List.mem_append_right _ (List.mem_append_right _ hy))
  have c21 : ∀ x ∈ mp_all_cells P2, ∀ y ∈ mp_all_cells P1, cell_tie_free x y :=
    fun x hx y hy => cell_tie_free_symm (c12 y hy x hx)
  have m12 : ∀ x ∈ mp_all_markers P1, ∀ y ∈ mp_all_markers P2, marker_tie_free x y :=
    fun x hx y hy => hmk x (List.mem_append_left _ hx)
      y (List.mem_append_right _ (List.mem_append_left _ hy))
  have m13 : ∀ x ∈ mp_all_markers P1, ∀ y ∈ mp_all_markers P3, marker_tie_free x y :=
    fun x hx y hy => hmk x (List.mem_append_left _ hx)
      y (List.mem_append_right _ (List.mem_append_right _ hy))
  have m23 : ∀ x ∈ mp_all_markers P2, ∀ y ∈ mp_all_markers P3, marker_tie_free x y :=
    fun x hx y hy => hmk x (List.mem_append_right _ (List.mem_append_left _ hx))
      y (List.mem_append_right _ (List.mem_append_right _ hy))
  have m21 : ∀ x ∈ mp_all_markers P2, ∀ y ∈ mp_all_markers P1, marker_tie_free x y :=
    fun x hx y hy => marker_tie_free_symm (m12 y hy x hx)
  have A123 := mp_merge_assoc P1 P2 P3 h1 h2 h3 hrt1 hrt2 hrt3 hne2 hne3
    c12 c13 c23 m12 m13 m23
  have A213 := mp_merge_assoc P2 P1 P3 h2 h1 h3 hrt2 hrt1 hrt3 hne1 hne3
    c21 c23 c13 m21 m23 m13
  have C21 := mp_merge_comm P2 P1 h2 h1 hrt2 hrt1 hne2 hne1 c21 m21
  constructor
  · rw [A123]
    exact mp_equal_refl _
  · rw [← A123, ← A213, C21]
    exact mp_equal_refl _

/-- Witness for the amended C3 theorem: three concrete well-formed partitions
holding one live row marker each, with pairwise distinct timestamps. -/
theorem C3_merge_comm_assoc_witness :
    mutation_partition.equal
      (mutation_partition.merge (mutation_partition.merge
        ⟨tombstone.empty, [], [], [(0, ⟨tombstone.empty, row_marker.live 5, []⟩)]⟩
        ⟨tombstone.empty, [], [], [(0, ⟨tombstone.empty, row_marker.live 7, []⟩)]⟩)
        ⟨tombstone.empty, [], [], [(1, ⟨tombstone.empty, row_marker.live 9, []⟩)]⟩)
      (mutation_partition.merge
        ⟨tombstone.empty, [], [], [(0, ⟨tombstone.empty, row_marker.live 5, []⟩)]⟩
        (mutation_partition.merge
          ⟨tombstone.empty, [], [], [(0, ⟨tombstone.empty, row_marker.live 7, []⟩)]⟩
          ⟨tombstone.empty, [], [], [(1, ⟨tombstone.empty, row_marker.live 9, []⟩)]⟩)) = true ∧
    mutation_partition.equal
      (mutation_partition.merge
        ⟨tombstone.empty, [], [], [(0, ⟨tombstone.empty, row_marker.live 5, []⟩)]⟩
        (mutation_partition.merge
          ⟨tombstone.empty, [], [], [(0, ⟨tombstone.empty, row_marker.live 7, []⟩)]⟩
          ⟨tombstone.empty, [], [], [(1, ⟨tombstone.empty, row_marker.live 9, []⟩)]⟩))
      (mutation_partition.merge
        ⟨tombstone.empty, [], [], [(0, ⟨tombstone.empty, row_marker.live 7, []⟩)]⟩
        (mutation_partition.merge
          ⟨tombstone.empty, [], [], [(0, ⟨tombstone.empty, row_marker.live 5, []⟩)]⟩
          ⟨tombstone.empty, [], [], [(1, ⟨tombstone.empty, row_marker.live 9, []⟩)]⟩)) = true :=
  C3_merge_comm_assoc _ _ _
    (by unfold mp_wf alist_sorted; decide)
    (by unfold mp_wf alist_sorted; decide)
    (by unfold mp_wf alist_sorted; decide)
    rfl rfl rfl (by decide) (by decide) (by decide)
    (by unfold cell_tie_free; decide)
    (by unfold marker_tie_free; decide)

theorem search_nil (key : Int) : search_tombstone_covering [] key = tombstone.empty := rfl

theorem search_cons_one (cur : range_tombstone) (key : Int) :
    search_tombstone_covering [cur] key =
      if cur.stop < key then tombstone.empty
      else if key < cur.start then tombstone.empty
      else cur.tomb := rfl

theorem search_cons_two (cur next : range_tombstone) (rest2 : List range_tombstone) (key : Int) :
    search_tombstone_covering (cur :: next :: rest2) key =
      if cur.stop < key then search_tombstone_covering (next :: rest2) key
      else if key < cur.start then tombstone.empty
      else if ¬ key < next.start ∧ tombstone.lt cur.tomb next.tomb then next.tomb
      else cur.tomb := rfl

theorem chain_start_ge (l : List range_tombstone) :
    ∀ a : range_tombstone, (∀ r ∈ l, wf_rt r) → List.Chain' chain_ok (a :: l) →
      ∀ r ∈ l, a.stop ≤ r.start := by
  induction l with
  | nil =>
    intro a _ _ r hr
    cases hr
  | cons b rest ih =>
    intro a hw hch r hr
    obtain ⟨hab, hrest⟩ := List.chain'_cons.mp hch
    rcases List.mem_cons.mp hr with rfl | hm
    · exact (chain_ok_iff.mp hab).1
    · have h1 := ih b (fun r hr => hw r (List.mem_cons_of_mem _ hr)) hrest r hm
      have h2 := (chain_ok_iff.mp hab).1
      have h3 := wf_rt_iff.mp (hw b (List.mem_cons_self _ _))
      omega

theorem search_none (l : List range_tombstone) (key : Int) :
    (∀ r ∈ l, ¬ rt_covers r key) → search_tombstone_covering l key = tombstone.empty := by
  induction l with
  | nil => intro _; rfl
  | cons cur rest ih =>
    intro hnone
    have hks : ¬ cur.stop < key → key < cur.start := by
      intro h1
      by_contra h2
      exact hnone cur (List.mem_cons_self _ _) ⟨by omega, by omega⟩
    cases rest with
    | nil =>
      rw [search_cons_one]
      by_cases h1 : cur.stop < key
      · rw [if_pos h1]
      · rw [if_neg h1, if_pos (hks h1)]
    | cons next rest2 =>
      rw [search_cons_two]
      by_cases h1 : cur.stop < key
      · rw [if_pos h1]
        exact ih (fun r hr => hnone r (List.mem_cons_of_mem _ hr))
      · rw [if_neg h1, if_pos (hks h1)]

theorem search_covering (l : List range_tombstone) (key : Int) :
    (∀ r ∈ l, wf_rt r) → List.Chain' chain_ok l → List.Chain' snext l →
    ∀ r0 ∈ l, rt_covers r0 key →
    ∃ r ∈ l, rt_covers r key ∧ search_tombstone_covering l key = r.tomb ∧
      ∀ r2 ∈ l, rt_covers r2 key → r2.tomb.timestamp ≤ r.tomb.timestamp := by
  induction l with
  | nil =>
    intro _ _ _ r0 hr0
    cases hr0
  | cons cur rest ih =>
    intro hw hch hsn r0 hr0 hc0
    have hwc := wf_rt_iff.mp (hw cur (List.mem_cons_self _ _))
    by_cases h1 : cur.stop < key
    · -- cur ends before the key: recurse into the rest
      have hr0rest : r0 ∈ rest := by
        rcases List.mem_cons.mp hr0 with rfl | hm
        · exact absurd hc0 (fun hc => by obtain ⟨_, h⟩ := hc; omega)
        · exact hm
      have hwr := fun r hr => hw r (List.mem_cons_of_mem _ hr)
      obtain ⟨r, hrmem, hrc, hrs, hrmax⟩ :=
        ih hwr (List.chain'_cons'.mp hch).2 (List.chain'_cons'.mp hsn).2 r0 hr0rest hc0
      refine ⟨r, List.mem_cons_of_mem _ hrmem, hrc, ?_, ?_⟩
      · cases rest with
        | nil => cases hrmem
        | cons next rest2 =>
          rw [search_cons_two, if_pos h1]
          exact hrs
      · intro r2 hr2 hc2
        rcases List.mem_cons.mp hr2 with rfl | hm
        · exact absurd hc2 (fun hc => by obtain ⟨_, h⟩ := hc; omega)
        · exact hrmax r2 hm hc2
    · -- cur is the lower bound
      have hkc : ¬ key < cur.start := by
        by_contra hks
        -- no interval covers the key, contradicting r0
        have : ∀ r ∈ cur :: rest, ¬ rt_covers r key := by
          intro r hr hc
          rcases List.mem_cons.mp hr with rfl | hm
          · obtain ⟨ha, _⟩ := hc
            omega
          · have := chain_start_ge rest cur (fun r hr => hw r (List.mem_cons_of_mem _ hr)) hch r hm
            obtain ⟨ha, _⟩ := hc
            omega
        exact this r0 hr0 hc0
      have hcovc : rt_covers cur key := ⟨by omega, by omega⟩
      cases rest with
      | nil =>
        refine ⟨cur, List.mem_cons_self _ _, hcovc, ?_, ?_⟩
        · rw [search_cons_one, if_neg h1, if_neg hkc]
        · intro r2 hr2 hc2
          rcases List.mem_cons.mp hr2 with rfl | hm
          · exact le_refl _
          · cases hm
      | cons next rest2 =>
        have hwn := wf_rt_iff.mp (hw next (List.mem_cons_of_mem _ (List.mem_cons_self _ _)))
        have hcn := (List.chain'_cons.mp hch).1
        have hcn1 := (chain_ok_iff.mp hcn).1
        have hthird : ∀ r2 ∈ rest2, rt_covers r2 key →
            next.start = next.stop ∧ next.stop = r2.start ∧
            r2.tomb.timestamp ≤ next.tomb.timestamp := by
          intro r2 hr2 hc2
          obtain ⟨ha2, hb2⟩ := hc2
          have hchn : List.Chain' chain_ok (next :: rest2) := (List.chain'_cons.mp hch).2
          have hstart2 := chain_start_ge rest2 next
            (fun r hr => hw r (List.mem_cons_of_mem _ (List.mem_cons_of_mem _ hr))) hchn r2 hr2
          -- key ≤ cur.stop ≤ next.start ≤ next.stop ≤ r2.start ≤ key forces all equal
          have he1 : next.start = next.stop := by omega
          have he2 : next.stop = r2.start := by omega
          cases rest2 with
          | nil => cases hr2
          | cons third rest3 =>
            have hr2third : r2 = third := by
              rcases List.mem_cons.mp hr2 with rfl | hm3
              · rfl
              · -- a later interval starts after third.stop > key
                have hcnt := (List.chain'_cons.mp hchn).1
                have hcnt1 := (chain_ok_iff.mp hcnt).1
                have hwt := wf_rt_iff.mp
                  (hw third (List.mem_cons_of_mem _ (List.mem_cons_of_mem _
                    (List.mem_cons_self _ _))))
                have hlater := chain_start_ge rest3 third
                  (fun r hr => hw r (List.mem_cons_of_mem _ (List.mem_cons_of_mem _
                    (List.mem_cons_of_mem _ hr)))) (List.chain'_cons.mp hchn).2 r2 hm3
                have hprop := (chain_ok_iff.mp hcnt).2 he1 (by omega)
                exfalso
                omega
            subst hr2third
            have hsnn := (List.chain'_cons.mp (List.chain'_cons'.mp hsn).2).1
            exact ⟨he1, he2, hsnn he1 he2⟩
        by_cases hla : ¬ key < next.start ∧ tombstone.lt cur.tomb next.tomb
        · -- the look-ahead fires: next is returned
          have hcovn : rt_covers next key := by
            obtain ⟨hla1, _⟩ := hla
            refine ⟨by omega, by omega⟩
          refine ⟨next, List.mem_cons_of_mem _ (List.mem_cons_self _ _), hcovn, ?_, ?_⟩
          · rw [search_cons_two, if_neg h1, if_neg hkc, if_pos hla]
          · intro r2 hr2 hc2
            obtain ⟨_, hlt⟩ := hla
            have hcurle : cur.tomb.timestamp ≤ next.tomb.timestamp := by
              rcases hlt with h | ⟨h, _⟩
              · omega
              · omega
            rcases List.mem_cons.mp hr2 with rfl | hm
            · exact hcurle
            rcases List.mem_cons.mp hm with rfl | hm2
            · exact le_refl _
            · exact (hthird r2 hm2 hc2).2.2
        · -- the look-ahead does not fire: cur is returned
          refine ⟨cur, List.mem_cons_self _ _, hcovc, ?_, ?_⟩
          · rw [search_cons_two, if_neg h1, if_neg hkc, if_neg hla]
          · intro r2 hr2 hc2
            rcases List.mem_cons.mp hr2 with rfl | hm
            · exact le_refl _
            have hnle : next.tomb.timestamp ≤ cur.tomb.timestamp → True := fun _ => trivial
            rcases List.mem_cons.mp hm with rfl | hm2
            · -- r2 = next covers the key, so the look-ahead guard failed on the order
              obtain ⟨ha2, _⟩ := hc2
              have hnlt : ¬ tombstone.lt cur.tomb r2.tomb := by
                intro hl
                exact hla ⟨by omega, hl⟩
              unfold tombstone.lt at hnlt
              omega
            · -- a third covering interval sits below next, which sits below cur
              obtain ⟨he1, he2, hle⟩ := hthird r2 hm2 hc2
              obtain ⟨ha3, hb3⟩ := hc2
              have hcovn : rt_covers next key := ⟨by omega, by omega⟩
              obtain ⟨ha2, _⟩ := hcovn
              have hnlt : ¬ tombstone.lt cur.tomb next.tomb := by
                intro hl
                exact hla ⟨by omega, hl⟩
              unfold tombstone.lt at hnlt
              omega

theorem rt_covers_mk {s e : Int} {t : tombstone} {k : Int} :
    rt_covers ⟨s, e, t⟩ k ↔ s ≤ k ∧ k ≤ e := Iff.rfl

theorem snext_mk_left {s e : Int} {t : tombstone} {b : range_tombstone} :
    snext ⟨s, e, t⟩ b ↔ (s = e → e = b.start → b.tomb.timestamp ≤ t.timestamp) := Iff.rfl

theorem snext_mk_right {a : range_tombstone} {s e : Int} {t : tombstone} :
    snext a ⟨s, e, t⟩ ↔ (a.start = a.stop → a.stop = s → t.timestamp ≤ a.tomb.timestamp) :=
  Iff.rfl

theorem snext_mk_mk {s e s2 e2 : Int} {t t2 : tombstone} :
    snext ⟨s, e, t⟩ ⟨s2, e2, t2⟩ ↔ (s = e → e = s2 → t2.timestamp ≤ t.timestamp) := Iff.rfl

theorem insert_from_sem (rest : List range_tombstone) :
    ∀ (start stop : Int) (tomb : tombstone),
      rtlist_inv rest → rest.Chain' snext → start ≤ stop →
      (∀ c, rest.head? = some c → start ≤ c.stop) →
      (∀ r ∈ rest, ∀ k, rt_covers r k →
        ∃ r2 ∈ insert_from rest start stop tomb, rt_covers r2 k ∧
          r.tomb.timestamp ≤ r2.tomb.timestamp) ∧
      (∀ k, start ≤ k → k ≤ stop →
        ∃ r2 ∈ insert_from rest start stop tomb, rt_covers r2 k ∧
          tomb.timestamp ≤ r2.tomb.timestamp) ∧
      (∀ r2 ∈ insert_from rest start stop tomb,
        (∃ r ∈ rest, r.start ≤ r2.start ∧ r2.stop ≤ r.stop ∧ r2.tomb = r.tomb) ∨
        (start ≤ r2.start ∧ r2.stop ≤ stop ∧ r2.tomb = tomb)) ∧
      (insert_from rest start stop tomb).Chain' snext ∧
      (∀ prev : range_tombstone, prev.stop ≤ start →
        (prev.start = prev.stop → prev.stop = start → tomb.timestamp ≤ prev.tomb.timestamp) →
        (∀ c, rest.head? = some c → chain_ok prev c ∧ snext prev c) →
        ∀ h, (insert_from rest start stop tomb).head? = some h → snext prev h) := by
  induction rest with
  | nil =>
    intro start stop tomb _ _ h2 _
    have hres : insert_from [] start stop tomb = [⟨start, stop, tomb⟩] := rfl
    rw [hres]
    refine ⟨?_, ?_, ?_, ?_, ?_⟩
    · intro r hr
      cases hr
    · intro k hk1 hk2
      exact ⟨⟨start, stop, tomb⟩, List.mem_cons_self _ _, ⟨hk1, hk2⟩, le_refl _⟩
    · intro r2 hr2
      cases List.mem_singleton.mp hr2
      exact Or.inr ⟨le_refl _, le_refl _, rfl⟩
    · exact List.chain'_singleton _
    · intro prev _ hp2 _ h hh
      cases head_some_of_cons hh
      exact fun e1 e2 => hp2 e1 e2
  | cons cur tail ih =>
    intro start stop tomb hinv hS h2 h3
    obtain ⟨hwf_cur, hcurhead, hinv_tail⟩ := rtlist_inv_cons.mp hinv
    obtain ⟨hsnhead, hsn_tail⟩ := List.chain'_cons'.mp hS
    have h3c : start ≤ cur.stop := h3 cur rfl
    have hwfc : cur.start ≤ cur.stop := wf_rt_iff.mp hwf_cur
    have htailwf : ∀ c, tail.head? = some c → c.start ≤ c.stop := by
      intro c hc
      have hmem : c ∈ tail := by
        cases tail with
        | nil => simp at hc
        | cons x xs =>
          rw [← head_some_of_cons hc]
          exact List.mem_cons_self _ _
      exact wf_rt_iff.mp (hinv_tail.1 c hmem)
    have htail3 : ∀ c, tail.head? = some c → start ≤ c.stop := by
      intro c hc
      have hcc := (chain_ok_iff.mp (hcurhead c hc)).1
      have hwc := htailwf c hc
      omega
    have htail3c : ∀ c, tail.head? = some c → cur.stop ≤ c.stop := by
      intro c hc
      have hcc := (chain_ok_iff.mp (hcurhead c hc)).1
      have hwc := htailwf c hc
      omega
    by_cases h1 : start = cur.stop
    · by_cases h2eq : cur.start = cur.stop
      · by_cases h5 : tomb.timestamp > cur.tomb.timestamp
        · -- eq1: the overwritten singleton is erased and the scan continues
          rw [insert_from_eq1 h1 h2eq h5]
          obtain ⟨ih1, ih2, ih3, ih4, ih5⟩ := ih start stop tomb hinv_tail hsn_tail h2 htail3
          refine ⟨?_, ih2, ?_, ih4, ?_⟩
          · intro r hr k hk
            rcases List.mem_cons.mp hr with rfl | hm
            · obtain ⟨hk1, hk2⟩ := hk
              obtain ⟨r2, hm2, hc2, ht2⟩ := ih2 k (by omega) (by omega)
              exact ⟨r2, hm2, hc2, by omega⟩
            · exact ih1 r hm k hk
          · intro r2 hr2
            rcases ih3 r2 hr2 with ⟨r, hm, hsub⟩ | hnew
            · exact Or.inl ⟨r, List.mem_cons_of_mem _ hm, hsub⟩
            · exact Or.inr hnew
          · intro prev hp1 hp2 hp3 h hh
            refine ih5 prev hp1 hp2 ?_ h hh
            intro c hc
            have hcc := chain_ok_iff.mp (hcurhead c hc)
            have hwc := htailwf c hc
            have hpc := chain_ok_iff.mp (hp3 cur rfl).1
            constructor
            · refine chain_ok_iff.mpr ⟨by omega, fun e1 e2 => ?_⟩
              have := hpc.2 e1 (by omega)
              omega
            · intro e1 e2
              have := hpc.2 e1 (by omega)
              omega
        · by_cases h4 : start = stop
          · -- eq2: the new singleton is covered by the current singleton
            rw [insert_from_eq2 h1 h2eq h5 h4]
            refine ⟨?_, ?_, ?_, hS, ?_⟩
            · intro r hr k hk
              exact ⟨r, hr, hk, le_refl _⟩
            · intro k hk1 hk2
              refine ⟨cur, List.mem_cons_self _ _, ⟨by omega, by omega⟩, by omega⟩
            · intro r2 hr2
              exact Or.inl ⟨r2, hr2, le_refl _, le_refl _, rfl⟩
            · intro prev _ _ hp3 h hh
              cases head_some_of_cons hh
              exact (hp3 cur rfl).2
          · -- eq3: the scan moves past the current singleton
            rw [insert_from_eq3 h1 h2eq h5 h4]
            obtain ⟨ih1, ih2, ih3, ih4, ih5⟩ := ih start stop tomb hinv_tail hsn_tail h2 htail3
            refine ⟨?_, ?_, ?_, ?_, ?_⟩
            · intro r hr k hk
              rcases List.mem_cons.mp hr with rfl | hm
              · exact ⟨r, List.mem_cons_self _ _, hk, le_refl _⟩
              · obtain ⟨r2, hm2, hc2, ht2⟩ := ih1 r hm k hk
                exact ⟨r2, List.mem_cons_of_mem _ hm2, hc2, ht2⟩
            · intro k hk1 hk2
              obtain ⟨r2, hm2, hc2, ht2⟩ := ih2 k hk1 hk2
              exact ⟨r2, List.mem_cons_of_mem _ hm2, hc2, ht2⟩
            · intro r2 hr2
              rcases List.mem_cons.mp hr2 with rfl | hm
              · exact Or.inl ⟨r2, List.mem_cons_self _ _, le_refl _, le_refl _, rfl⟩
              rcases ih3 r2 hm with ⟨r, hm2, hsub⟩ | hnew
              · exact Or.inl ⟨r, List.mem_cons_of_mem _ hm2, hsub⟩
              · exact Or.inr hnew
            · refine List.chain'_cons'.mpr ⟨?_, ih4⟩
              intro y hy
              exact ih5 cur (by omega) (fun _ _ => by omega)
                (fun c hc => ⟨hcurhead c hc, hsnhead c (Option.mem_def.mpr hc)⟩)
                y (Option.mem_def.mp hy)
            · intro prev _ _ hp3 h hh
              cases head_some_of_cons hh
              exact (hp3 cur rfl).2
      · -- eq4: start meets the stop of a proper interval; move past it
        rw [insert_from_eq4 h1 h2eq]
        obtain ⟨ih1, ih2, ih3, ih4, ih5⟩ := ih start stop tomb hinv_tail hsn_tail h2 htail3
        refine ⟨?_, ?_, ?_, ?_, ?_⟩
        · intro r hr k hk
          rcases List.mem_cons.mp hr with rfl | hm
          · exact ⟨r, List.mem_cons_self _ _, hk, le_refl _⟩
          · obtain ⟨r2, hm2, hc2, ht2⟩ := ih1 r hm k hk
            exact ⟨r2, List.mem_cons_of_mem _ hm2, hc2, ht2⟩
        · intro k hk1 hk2
          obtain ⟨r2, hm2, hc2, ht2⟩ := ih2 k hk1 hk2
          exact ⟨r2, List.mem_cons_of_mem _ hm2, hc2, ht2⟩
        · intro r2 hr2
          rcases List.mem_cons.mp hr2 with rfl | hm
          · exact Or.inl ⟨r2, List.mem_cons_self _ _, le_refl _, le_refl _, rfl⟩
          rcases ih3 r2 hm with ⟨r, hm2, hsub⟩ | hnew
          · exact Or.inl ⟨r, List.mem_cons_of_mem _ hm2, hsub⟩
          · exact Or.inr hnew
        · refine List.chain'_cons'.mpr ⟨?_, ih4⟩
          intro y hy
          exact ih5 cur (by omega) (fun e1 _ => absurd e1 h2eq)
            (fun c hc => ⟨hcurhead c hc, hsnhead c (Option.mem_def.mpr hc)⟩)
            y (Option.mem_def.mp hy)
        · intro prev _ _ hp3 h hh
          cases head_some_of_cons hh
          exact (hp3 cur rfl).2
    · by_cases h5 : tomb.timestamp > cur.tomb.timestamp
      · by_cases h6 : stop < cur.start
        · -- eq5: the new tombstone sits wholly before the current one
          have hl : ¬ cur.start < start := by omega
          rw [insert_from_eq5 h1 h5 h6 hl]
          refine ⟨?_, ?_, ?_, ?_, ?_⟩
          · intro r hr k hk
            exact ⟨r, List.mem_cons_of_mem _ hr, hk, le_refl _⟩
          · intro k hk1 hk2
            exact ⟨⟨start, stop, tomb⟩, List.mem_cons_self _ _, ⟨hk1, hk2⟩, le_refl _⟩
          · intro r2 hr2
            rcases List.mem_cons.mp hr2 with rfl | hm
            · exact Or.inr ⟨le_refl _, le_refl _, rfl⟩
            · exact Or.inl ⟨r2, hm, le_refl _, le_refl _, rfl⟩
          · refine List.chain'_cons.mpr ⟨snext_mk_left.mpr fun e1 e2 => ?_, hS⟩
            exfalso
            omega
          · intro prev _ hp2 _ h hh
            cases head_some_of_cons hh
            exact fun e1 e2 => hp2 e1 e2
        · by_cases h7 : stop = cur.start ∧ cur.start = cur.stop
          · -- eq6: the new tombstone entirely replaces the current singleton
            obtain ⟨h7a, h7b⟩ := h7
            have hl : ¬ cur.start < start := by omega
            rw [insert_from_eq6 h1 h5 h6 ⟨h7a, h7b⟩ hl]
            refine ⟨?_, ?_, ?_, ?_, ?_⟩
            · intro r hr k hk
              rcases List.mem_cons.mp hr with rfl | hm
              · obtain ⟨hk1, hk2⟩ := hk
                refine ⟨⟨start, stop, tomb⟩, List.mem_cons_self _ _,
                  rt_covers_mk.mpr ⟨by omega, by omega⟩,
                  show r.tomb.timestamp ≤ tomb.timestamp by omega⟩
              · exact ⟨r, List.mem_cons_of_mem _ hm, hk, le_refl _⟩
            · intro k hk1 hk2
              exact ⟨⟨start, stop, tomb⟩, List.mem_cons_self _ _, ⟨hk1, hk2⟩, le_refl _⟩
            · intro r2 hr2
              rcases List.mem_cons.mp hr2 with rfl | hm
              · exact Or.inr ⟨le_refl _, le_refl _, rfl⟩
              · exact Or.inl ⟨r2, List.mem_cons_of_mem _ hm, le_refl _, le_refl _, rfl⟩
            · refine List.chain'_cons'.mpr ⟨?_, hsn_tail⟩
              intro y hy
              refine snext_mk_left.mpr fun e1 e2 => ?_
              exfalso
              omega
            · intro prev _ hp2 _ h hh
              cases head_some_of_cons hh
              exact fun e1 e2 => hp2 e1 e2
          · by_cases h8 : stop < cur.stop
            · -- eq7: overwrite of the middle of the current interval
              rw [insert_from_eq7 h1 h5 h6 h7 h8]
              by_cases hlead : cur.start < start
              · rw [if_pos hlead, List.singleton_append]
                refine ⟨?_, ?_, ?_, ?_, ?_⟩
                · intro r hr k hk
                  rcases List.mem_cons.mp hr with rfl | hm
                  · obtain ⟨hk1, hk2⟩ := hk
                    by_cases hka : k ≤ start
                    · exact ⟨⟨r.start, start, r.tomb⟩, List.mem_cons_self _ _,
                        rt_covers_mk.mpr ⟨by omega, by omega⟩, le_refl _⟩
                    · by_cases hkb : k ≤ stop
                      · exact ⟨⟨start, stop, tomb⟩,
                          List.mem_cons_of_mem _ (List.mem_cons_self _ _),
                          rt_covers_mk.mpr ⟨by omega, by omega⟩, show r.tomb.timestamp ≤ tomb.timestamp by omega⟩
                      · exact ⟨⟨stop, r.stop, r.tomb⟩,
                          List.mem_cons_of_mem _ (List.mem_cons_of_mem _
                            (List.mem_cons_self _ _)),
                          rt_covers_mk.mpr ⟨by omega, by omega⟩, le_refl _⟩
                  · exact ⟨r, List.mem_cons_of_mem _ (List.mem_cons_of_mem _
                      (List.mem_cons_of_mem _ hm)), hk, le_refl _⟩
                · intro k hk1 hk2
                  exact ⟨⟨start, stop, tomb⟩,
                    List.mem_cons_of_mem _ (List.mem_cons_self _ _), ⟨hk1, hk2⟩, le_refl _⟩
                · intro r2 hr2
                  rcases List.mem_cons.mp hr2 with rfl | hm
                  · exact Or.inl ⟨cur, List.mem_cons_self _ _, le_refl _, show start ≤ cur.stop by omega, rfl⟩
                  rcases List.mem_cons.mp hm with rfl | hm2
                  · exact Or.inr ⟨le_refl _, le_refl _, rfl⟩
                  rcases List.mem_cons.mp hm2 with rfl | hm3
                  · exact Or.inl ⟨cur, List.mem_cons_self _ _, show cur.start ≤ stop by omega, le_refl _, rfl⟩
                  · exact Or.inl ⟨r2, List.mem_cons_of_mem _ hm3, le_refl _, le_refl _, rfl⟩
                · refine List.chain'_cons.mpr ⟨snext_mk_mk.mpr fun e1 e2 => by exfalso; omega,
                    List.chain'_cons.mpr ⟨snext_mk_mk.mpr fun e1 e2 => by omega,
                      List.chain'_cons'.mpr ⟨?_, hsn_tail⟩⟩⟩
                  intro y hy
                  refine snext_mk_left.mpr fun e1 e2 => ?_
                  exfalso
                  omega
                · intro prev _ _ hp3 h hh
                  cases head_some_of_cons hh
                  intro e1 e2
                  exact (hp3 cur rfl).2 e1 e2
              · rw [if_neg hlead, List.nil_append]
                refine ⟨?_, ?_, ?_, ?_, ?_⟩
                · intro r hr k hk
                  rcases List.mem_cons.mp hr with rfl | hm
                  · obtain ⟨hk1, hk2⟩ := hk
                    by_cases hkb : k ≤ stop
                    · exact ⟨⟨start, stop, tomb⟩, List.mem_cons_self _ _,
                        rt_covers_mk.mpr ⟨by omega, by omega⟩, show r.tomb.timestamp ≤ tomb.timestamp by omega⟩
                    · exact ⟨⟨stop, r.stop, r.tomb⟩,
                        List.mem_cons_of_mem _ (List.mem_cons_self _ _),
                        rt_covers_mk.mpr ⟨by omega, by omega⟩, le_refl _⟩
                  · exact ⟨r, List.mem_cons_of_mem _ (List.mem_cons_of_mem _ hm),
                      hk, le_refl _⟩
                · intro k hk1 hk2
                  exact ⟨⟨start, stop, tomb⟩, List.mem_cons_self _ _, ⟨hk1, hk2⟩, le_refl _⟩
                · intro r2 hr2
                  rcases List.mem_cons.mp hr2 with rfl | hm
                  · exact Or.inr ⟨le_refl _, le_refl _, rfl⟩
                  rcases List.mem_cons.mp hm with rfl | hm2
                  · exact Or.inl ⟨cur, List.mem_cons_self _ _, show cur.start ≤ stop by omega, le_refl _, rfl⟩
                  · exact Or.inl ⟨r2, List.mem_cons_of_mem _ hm2, le_refl _, le_refl _, rfl⟩
                · refine List.chain'_cons.mpr ⟨snext_mk_mk.mpr fun e1 e2 => by omega,
                    List.chain'_cons'.mpr ⟨?_, hsn_tail⟩⟩
                  intro y hy
                  refine snext_mk_left.mpr fun e1 e2 => ?_
                  exfalso
                  omega
                · intro prev _ hp2 _ h hh
                  cases head_some_of_cons hh
                  exact fun e1 e2 => hp2 e1 e2
            · -- stop reaches past the current interval
              cases tail with
              | nil =>
                -- eq8nil: replace the current interval outright at the end
                rw [insert_from_eq8nil h1 h5 h6 h7 h8]
                by_cases hlead : cur.start < start
                · rw [if_pos hlead, List.singleton_append]
                  refine ⟨?_, ?_, ?_, ?_, ?_⟩
                  · intro r hr k hk
                    rcases List.mem_cons.mp hr with rfl | hm
                    · obtain ⟨hk1, hk2⟩ := hk
                      by_cases hka : k ≤ start
                      · exact ⟨⟨r.start, start, r.tomb⟩, List.mem_cons_self _ _,
                          rt_covers_mk.mpr ⟨by omega, by omega⟩, le_refl _⟩
                      · exact ⟨⟨start, stop, tomb⟩,
                          List.mem_cons_of_mem _ (List.mem_cons_self _ _),
                          rt_covers_mk.mpr ⟨by omega, by omega⟩, show r.tomb.timestamp ≤ tomb.timestamp by omega⟩
                    · cases hm
                  · intro k hk1 hk2
                    exact ⟨⟨start, stop, tomb⟩,
                      List.mem_cons_of_mem _ (List.mem_cons_self _ _), ⟨hk1, hk2⟩, le_refl _⟩
                  · intro r2 hr2
                    rcases List.mem_cons.mp hr2 with rfl | hm
                    · exact Or.inl ⟨cur, List.mem_cons_self _ _, le_refl _, show start ≤ cur.stop by omega, rfl⟩
                    · cases List.mem_singleton.mp hm
                      exact Or.inr ⟨le_refl _, le_refl _, rfl⟩
                  · refine List.chain'_cons.mpr ⟨snext_mk_mk.mpr fun e1 e2 => by exfalso; omega,
                      List.chain'_singleton _⟩
                  · intro prev _ _ hp3 h hh
                    cases head_some_of_cons hh
                    intro e1 e2
                    exact (hp3 cur rfl).2 e1 e2
                · rw [if_neg hlead, List.nil_append]
                  refine ⟨?_, ?_, ?_, ?_, ?_⟩
                  · intro r hr k hk
                    rcases List.mem_cons.mp hr with rfl | hm
                    · obtain ⟨hk1, hk2⟩ := hk
                      exact ⟨⟨start, stop, tomb⟩, List.mem_cons_self _ _,
                        rt_covers_mk.mpr ⟨by omega, by omega⟩, show r.tomb.timestamp ≤ tomb.timestamp by omega⟩
                    · cases hm
                  · intro k hk1 hk2
                    exact ⟨⟨start, stop, tomb⟩, List.mem_cons_self _ _, ⟨hk1, hk2⟩, le_refl _⟩
                  · intro r2 hr2
                    cases List.mem_singleton.mp hr2
                    exact Or.inr ⟨le_refl _, le_refl _, rfl⟩
                  · exact List.chain'_singleton _
                  · intro prev _ hp2 _ h hh
                    cases head_some_of_cons hh
                    exact fun e1 e2 => hp2 e1 e2
              | cons next tail2 =>
                have hnexthead : (next :: tail2).head? = some next := rfl
                have hwfn : next.start ≤ next.stop := htailwf next hnexthead
                have hcn : chain_ok cur next := hcurhead next hnexthead
                have hcn1 := (chain_ok_iff.mp hcn).1
                by_cases h9 : ¬ next.start < stop
                · -- eq8: replace the current interval, the next one is clear
                  rw [insert_from_eq8 h1 h5 h6 h7 h8 h9]
                  by_cases hlead : cur.start < start
                  · rw [if_pos hlead, List.singleton_append]
                    refine ⟨?_, ?_, ?_, ?_, ?_⟩
                    · intro r hr k hk
                      rcases List.mem_cons.mp hr with rfl | hm
                      · obtain ⟨hk1, hk2⟩ := hk
                        by_cases hka : k ≤ start
                        · exact ⟨⟨r.start, start, r.tomb⟩, List.mem_cons_self _ _,
                            rt_covers_mk.mpr ⟨by omega, by omega⟩, le_refl _⟩
                        · exact ⟨⟨start, stop, tomb⟩,
                            List.mem_cons_of_mem _ (List.mem_cons_self _ _),
                            rt_covers_mk.mpr ⟨by omega, by omega⟩, show r.tomb.timestamp ≤ tomb.timestamp by omega⟩
                      · exact ⟨r, List.mem_cons_of_mem _ (List.mem_cons_of_mem _ hm),
                          hk, le_refl _⟩
                    · intro k hk1 hk2
                      exact ⟨⟨start, stop, tomb⟩,
                        List.mem_cons_of_mem _ (List.mem_cons_self _ _), ⟨hk1, hk2⟩, le_refl _⟩
                    · intro r2 hr2
                      rcases List.mem_cons.mp hr2 with rfl | hm
                      · exact Or.inl ⟨cur, List.mem_cons_self _ _, le_refl _, show start ≤ cur.stop by omega, rfl⟩
                      rcases List.mem_cons.mp hm with rfl | hm2
                      · exact Or.inr ⟨le_refl _, le_refl _, rfl⟩
                      · exact Or.inl ⟨r2, List.mem_cons_of_mem _ hm2, le_refl _, le_refl _, rfl⟩
                    · refine List.chain'_cons.mpr ⟨snext_mk_mk.mpr fun e1 e2 => by exfalso; omega,
                        List.chain'_cons.mpr ⟨snext_mk_left.mpr fun e1 e2 => by exfalso; omega, hsn_tail⟩⟩
                    · intro prev _ _ hp3 h hh
                      cases head_some_of_cons hh
                      intro e1 e2
                      exact (hp3 cur rfl).2 e1 e2
                  · rw [if_neg hlead, List.nil_append]
                    refine ⟨?_, ?_, ?_, ?_, ?_⟩
                    · intro r hr k hk
                      rcases List.mem_cons.mp hr with rfl | hm
                      · obtain ⟨hk1, hk2⟩ := hk
                        exact ⟨⟨start, stop, tomb⟩, List.mem_cons_self _ _,
                          rt_covers_mk.mpr ⟨by omega, by omega⟩, show r.tomb.timestamp ≤ tomb.timestamp by omega⟩
                      · exact ⟨r, List.mem_cons_of_mem _ hm, hk, le_refl _⟩
                    · intro k hk1 hk2
                      exact ⟨⟨start, stop, tomb⟩, List.mem_cons_self _ _, ⟨hk1, hk2⟩, le_refl _⟩
                    · intro r2 hr2
                      rcases List.mem_cons.mp hr2 with rfl | hm
                      · exact Or.inr ⟨le_refl _, le_refl _, rfl⟩
                      · exact Or.inl ⟨r2, List.mem_cons_of_mem _ hm, le_refl _, le_refl _, rfl⟩
                    · refine List.chain'_cons.mpr ⟨snext_mk_left.mpr fun e1 e2 => by exfalso; omega, hsn_tail⟩
                    · intro prev _ hp2 _ h hh
                      cases head_some_of_cons hh
                      exact fun e1 e2 => hp2 e1 e2
                · by_cases h10 : stop = cur.stop
                  · -- eq9: replace up to the shared stop
                    rw [insert_from_eq9 h1 h5 h6 h7 h8 (not_not.mp h9) h10]
                    by_cases hlead : cur.start < start
                    · rw [if_pos hlead, List.singleton_append]
                      refine ⟨?_, ?_, ?_, ?_, ?_⟩
                      · intro r hr k hk
                        rcases List.mem_cons.mp hr with rfl | hm
                        · obtain ⟨hk1, hk2⟩ := hk
                          by_cases hka : k ≤ start
                          · exact ⟨⟨r.start, start, r.tomb⟩, List.mem_cons_self _ _,
                              rt_covers_mk.mpr ⟨by omega, by omega⟩, le_refl _⟩
                          · exact ⟨⟨start, r.stop, tomb⟩,
                              List.mem_cons_of_mem _ (List.mem_cons_self _ _),
                              rt_covers_mk.mpr ⟨by omega, by omega⟩, show r.tomb.timestamp ≤ tomb.timestamp by omega⟩
                        · exact ⟨r, List.mem_cons_of_mem _ (List.mem_cons_of_mem _ hm),
                            hk, le_refl _⟩
                      · intro k hk1 hk2
                        exact ⟨⟨start, cur.stop, tomb⟩,
                          List.mem_cons_of_mem _ (List.mem_cons_self _ _),
                          rt_covers_mk.mpr ⟨hk1, by omega⟩, le_refl _⟩
                      · intro r2 hr2
                        rcases List.mem_cons.mp hr2 with rfl | hm
                        · exact Or.inl ⟨cur, List.mem_cons_self _ _, le_refl _, show start ≤ cur.stop by omega, rfl⟩
                        rcases List.mem_cons.mp hm with rfl | hm2
                        · exact Or.inr ⟨le_refl _, show cur.stop ≤ stop by omega, rfl⟩
                        · exact Or.inl ⟨r2, List.mem_cons_of_mem _ hm2,
                            le_refl _, le_refl _, rfl⟩
                      · refine List.chain'_cons.mpr ⟨snext_mk_mk.mpr fun e1 e2 => by exfalso; omega,
                          List.chain'_cons.mpr ⟨snext_mk_left.mpr fun e1 e2 => by exfalso; omega, hsn_tail⟩⟩
                      · intro prev _ _ hp3 h hh
                        cases head_some_of_cons hh
                        intro e1 e2
                        exact (hp3 cur rfl).2 e1 e2
                    · rw [if_neg hlead, List.nil_append]
                      refine ⟨?_, ?_, ?_, ?_, ?_⟩
                      · intro r hr k hk
                        rcases List.mem_cons.mp hr with rfl | hm
                        · obtain ⟨hk1, hk2⟩ := hk
                          exact ⟨⟨start, r.stop, tomb⟩, List.mem_cons_self _ _,
                            rt_covers_mk.mpr ⟨by omega, by omega⟩, show r.tomb.timestamp ≤ tomb.timestamp by omega⟩
                        · exact ⟨r, List.mem_cons_of_mem _ hm, hk, le_refl _⟩
                      · intro k hk1 hk2
                        exact ⟨⟨start, cur.stop, tomb⟩, List.mem_cons_self _ _,
                          rt_covers_mk.mpr ⟨hk1, by omega⟩, le_refl _⟩
                      · intro r2 hr2
                        rcases List.mem_cons.mp hr2 with rfl | hm
                        · exact Or.inr ⟨le_refl _, show cur.stop ≤ stop by omega, rfl⟩
                        · exact Or.inl ⟨r2, List.mem_cons_of_mem _ hm,
                            le_refl _, le_refl _, rfl⟩
                      · refine List.chain'_cons.mpr ⟨snext_mk_left.mpr fun e1 e2 => by exfalso; omega, hsn_tail⟩
                      · intro prev _ hp2 _ h hh
                        cases head_some_of_cons hh
                        exact fun e1 e2 => hp2 e1 e2
                  · -- eq10: replace up to the current stop and continue
                    rw [insert_from_eq10 h1 h5 h6 h7 h8 (not_not.mp h9) h10]
                    have hrec3 : ∀ c, (next :: tail2).head? = some c → cur.stop ≤ c.stop := by
                      intro c hc
                      cases head_some_of_cons hc
                      omega
                    obtain ⟨ih1, ih2, ih3, ih4, ih5⟩ :=
                      ih cur.stop stop tomb hinv_tail hsn_tail (by omega) hrec3
                    have hglue : ∀ y ∈ (insert_from (next :: tail2) cur.stop stop tomb).head?,
                        snext ⟨start, cur.stop, tomb⟩ y := by
                      intro y hy e1 e2
                      exfalso
                      have : start = cur.stop := e1
                      omega
                    by_cases hlead : cur.start < start
                    · rw [if_pos hlead, List.singleton_append]
                      refine ⟨?_, ?_, ?_, ?_, ?_⟩
                      · intro r hr k hk
                        rcases List.mem_cons.mp hr with rfl | hm
                        · obtain ⟨hk1, hk2⟩ := hk
                          by_cases hka : k ≤ start
                          · exact ⟨⟨r.start, start, r.tomb⟩, List.mem_cons_self _ _,
                              rt_covers_mk.mpr ⟨by omega, by omega⟩, le_refl _⟩
                          · exact ⟨⟨start, r.stop, tomb⟩,
                              List.mem_cons_of_mem _ (List.mem_cons_self _ _),
                              rt_covers_mk.mpr ⟨by omega, by omega⟩, show r.tomb.timestamp ≤ tomb.timestamp by omega⟩
                        · obtain ⟨r2, hm2, hc2, ht2⟩ := ih1 r hm k hk
                          exact ⟨r2, List.mem_cons_of_mem _ (List.mem_cons_of_mem _ hm2),
                            hc2, ht2⟩
                      · intro k hk1 hk2
                        by_cases hka : k ≤ cur.stop
                        · exact ⟨⟨start, cur.stop, tomb⟩,
                            List.mem_cons_of_mem _ (List.mem_cons_self _ _),
                            ⟨hk1, hka⟩, le_refl _⟩
                        · obtain ⟨r2, hm2, hc2, ht2⟩ := ih2 k (by omega) hk2
                          exact ⟨r2, List.mem_cons_of_mem _ (List.mem_cons_of_mem _ hm2),
                            hc2, ht2⟩
                      · intro r2 hr2
                        rcases List.mem_cons.mp hr2 with rfl | hm
                        · exact Or.inl ⟨cur, List.mem_cons_self _ _, le_refl _, show start ≤ cur.stop by omega, rfl⟩
                        rcases List.mem_cons.mp hm with rfl | hm2
                        · exact Or.inr ⟨le_refl _, show cur.stop ≤ stop by omega, rfl⟩
                        rcases ih3 r2 hm2 with ⟨r, hm3, hsub⟩ | hnew
                        · exact Or.inl ⟨r, List.mem_cons_of_mem _ hm3, hsub⟩
                        · exact Or.inr ⟨by omega, hnew.2.1, hnew.2.2⟩
                      · refine List.chain'_cons.mpr ⟨snext_mk_mk.mpr fun e1 e2 => by exfalso; omega,
                          List.chain'_cons'.mpr ⟨hglue, ih4⟩⟩
                      · intro prev _ _ hp3 h hh
                        cases head_some_of_cons hh
                        intro e1 e2
                        exact (hp3 cur rfl).2 e1 e2
                    · rw [if_neg hlead, List.nil_append]
                      refine ⟨?_, ?_, ?_, ?_, ?_⟩
                      · intro r hr k hk
                        rcases List.mem_cons.mp hr with rfl | hm
                        · obtain ⟨hk1, hk2⟩ := hk
                          exact ⟨⟨start, r.stop, tomb⟩, List.mem_cons_self _ _,
                            rt_covers_mk.mpr ⟨by omega, by omega⟩, show r.tomb.timestamp ≤ tomb.timestamp by omega⟩
                        · obtain ⟨r2, hm2, hc2, ht2⟩ := ih1 r hm k hk
                          exact ⟨r2, List.mem_cons_of_mem _ hm2, hc2, ht2⟩
                      · intro k hk1 hk2
                        by_cases hka : k ≤ cur.stop
                        · exact ⟨⟨start, cur.stop, tomb⟩, List.mem_cons_self _ _,
                            ⟨hk1, hka⟩, le_refl _⟩
                        · obtain ⟨r2, hm2, hc2, ht2⟩ := ih2 k (by omega) hk2
                          exact ⟨r2, List.mem_cons_of_mem _ hm2, hc2, ht2⟩
                      · intro r2 hr2
                        rcases List.mem_cons.mp hr2 with rfl | hm
                        · exact Or.inr ⟨le_refl _, show cur.stop ≤ stop by omega, rfl⟩
                        rcases ih3 r2 hm with ⟨r, hm3, hsub⟩ | hnew
                        · exact Or.inl ⟨r, List.mem_cons_of_mem _ hm3, hsub⟩
                        · exact Or.inr ⟨by omega, hnew.2.1, hnew.2.2⟩
                      · exact List.chain'_cons'.mpr ⟨hglue, ih4⟩
                      · intro prev _ hp2 _ h hh
                        cases head_some_of_cons hh
                        exact fun e1 e2 => hp2 e1 e2
      · -- no overwrite: the current tombstone has priority
        by_cases h11 : start < cur.start
        · by_cases h12 : cur.start < stop
          · by_cases h13 : cur.stop < stop
            · -- eq11: keep the head of the new range, then continue past cur
              rw [insert_from_eq11 h1 h5 h11 h12 h13]
              have hrec3 : ∀ c, tail.head? = some c → cur.stop ≤ c.stop := htail3c
              obtain ⟨ih1, ih2, ih3, ih4, ih5⟩ :=
                ih cur.stop stop tomb hinv_tail hsn_tail (by omega) hrec3
              refine ⟨?_, ?_, ?_, ?_, ?_⟩
              · intro r hr k hk
                rcases List.mem_cons.mp hr with rfl | hm
                · exact ⟨r, List.mem_cons_of_mem _ (List.mem_cons_self _ _), hk, le_refl _⟩
                · obtain ⟨r2, hm2, hc2, ht2⟩ := ih1 r hm k hk
                  exact ⟨r2, List.mem_cons_of_mem _ (List.mem_cons_of_mem _ hm2), hc2, ht2⟩
              · intro k hk1 hk2
                by_cases hka : k ≤ cur.start
                · exact ⟨⟨start, cur.start, tomb⟩, List.mem_cons_self _ _,
                    ⟨hk1, hka⟩, le_refl _⟩
                · by_cases hkb : k ≤ cur.stop
                  · exact ⟨cur, List.mem_cons_of_mem _ (List.mem_cons_self _ _),
                      ⟨by omega, hkb⟩, by omega⟩
                  · obtain ⟨r2, hm2, hc2, ht2⟩ := ih2 k (by omega) hk2
                    exact ⟨r2, List.mem_cons_of_mem _ (List.mem_cons_of_mem _ hm2), hc2, ht2⟩
              · intro r2 hr2
                rcases List.mem_cons.mp hr2 with rfl | hm
                · exact Or.inr ⟨le_refl _, show cur.start ≤ stop by omega, rfl⟩
                rcases List.mem_cons.mp hm with rfl | hm2
                · exact Or.inl ⟨r2, List.mem_cons_self _ _, le_refl _, le_refl _, rfl⟩
                rcases ih3 r2 hm2 with ⟨r, hm3, hsub⟩ | hnew
                · exact Or.inl ⟨r, List.mem_cons_of_mem _ hm3, hsub⟩
                · exact Or.inr ⟨by omega, hnew.2.1, hnew.2.2⟩
              · refine List.chain'_cons.mpr ⟨snext_mk_left.mpr fun e1 e2 => by exfalso; omega,
                  List.chain'_cons'.mpr ⟨?_, ih4⟩⟩
                intro y hy
                exact ih5 cur (le_refl _) (fun _ _ => by omega)
                  (fun c hc => ⟨hcurhead c hc, hsnhead c (Option.mem_def.mpr hc)⟩)
                  y (Option.mem_def.mp hy)
              · intro prev _ hp2 _ h hh
                cases head_some_of_cons hh
                exact fun e1 e2 => hp2 e1 e2
            · -- eq12: keep the head of the new range, the rest is covered
              rw [insert_from_eq12 h1 h5 h11 h12 h13]
              refine ⟨?_, ?_, ?_, ?_, ?_⟩
              · intro r hr k hk
                exact ⟨r, List.mem_cons_of_mem _ hr, hk, le_refl _⟩
              · intro k hk1 hk2
                by_cases hka : k ≤ cur.start
                · exact ⟨⟨start, cur.start, tomb⟩, List.mem_cons_self _ _,
                    ⟨hk1, hka⟩, le_refl _⟩
                · exact ⟨cur, List.mem_cons_of_mem _ (List.mem_cons_self _ _),
                    ⟨by omega, by omega⟩, by omega⟩
              · intro r2 hr2
                rcases List.mem_cons.mp hr2 with rfl | hm
                · exact Or.inr ⟨le_refl _, show cur.start ≤ stop by omega, rfl⟩
                · exact Or.inl ⟨r2, hm, le_refl _, le_refl _, rfl⟩
              · refine List.chain'_cons.mpr ⟨snext_mk_left.mpr fun e1 e2 => by exfalso; omega, hS⟩
              · intro prev _ hp2 _ h hh
                cases head_some_of_cons hh
                exact fun e1 e2 => hp2 e1 e2
          · -- eq13: the new range sits before the current interval
            rw [insert_from_eq13 h1 h5 h11 h12]
            refine ⟨?_, ?_, ?_, ?_, ?_⟩
            · intro r hr k hk
              exact ⟨r, List.mem_cons_of_mem _ hr, hk, le_refl _⟩
            · intro k hk1 hk2
              exact ⟨⟨start, stop, tomb⟩, List.mem_cons_self _ _, ⟨hk1, hk2⟩, le_refl _⟩
            · intro r2 hr2
              rcases List.mem_cons.mp hr2 with rfl | hm
              · exact Or.inr ⟨le_refl _, le_refl _, rfl⟩
              · exact Or.inl ⟨r2, hm, le_refl _, le_refl _, rfl⟩
            · refine List.chain'_cons.mpr ⟨snext_mk_left.mpr fun e1 e2 => by exfalso; omega, hS⟩
            · intro prev _ hp2 _ h hh
              cases head_some_of_cons hh
              exact fun e1 e2 => hp2 e1 e2
        · by_cases h13 : cur.stop < stop
          · -- eq14: the current interval shields its span; continue past it
            rw [insert_from_eq14 h1 h5 h11 h13]
            have hrec3 : ∀ c, tail.head? = some c → cur.stop ≤ c.stop := htail3c
            obtain ⟨ih1, ih2, ih3, ih4, ih5⟩ :=
              ih cur.stop stop tomb hinv_tail hsn_tail (by omega) hrec3
            refine ⟨?_, ?_, ?_, ?_, ?_⟩
            · intro r hr k hk
              rcases List.mem_cons.mp hr with rfl | hm
              · exact ⟨r, List.mem_cons_self _ _, hk, le_refl _⟩
              · obtain ⟨r2, hm2, hc2, ht2⟩ := ih1 r hm k hk
                exact ⟨r2, List.mem_cons_of_mem _ hm2, hc2, ht2⟩
            · intro k hk1 hk2
              by_cases hka : k ≤ cur.stop
              · exact ⟨cur, List.mem_cons_self _ _, ⟨by omega, hka⟩, by omega⟩
              · obtain ⟨r2, hm2, hc2, ht2⟩ := ih2 k (by omega) hk2
                exact ⟨r2, List.mem_cons_of_mem _ hm2, hc2, ht2⟩
            · intro r2 hr2
              rcases List.mem_cons.mp hr2 with rfl | hm
              · exact Or.inl ⟨r2, List.mem_cons_self _ _, le_refl _, le_refl _, rfl⟩
              rcases ih3 r2 hm with ⟨r, hm3, hsub⟩ | hnew
              · exact Or.inl ⟨r, List.mem_cons_of_mem _ hm3, hsub⟩
              · exact Or.inr ⟨by omega, hnew.2.1, hnew.2.2⟩
            · refine List.chain'_cons'.mpr ⟨?_, ih4⟩
              intro y hy
              exact ih5 cur (le_refl _) (fun _ _ => by omega)
                (fun c hc => ⟨hcurhead c hc, hsnhead c (Option.mem_def.mpr hc)⟩)
                y (Option.mem_def.mp hy)
            · intro prev _ _ hp3 h hh
              cases head_some_of_cons hh
              exact (hp3 cur rfl).2
          · -- eq15: the current interval fully covers the new range
            rw [insert_from_eq15 h1 h5 h11 h13]
            refine ⟨?_, ?_, ?_, ?_, ?_⟩
            · intro r hr k hk
              exact ⟨r, hr, hk, le_refl _⟩
            · intro k hk1 hk2
              exact ⟨cur, List.mem_cons_self _ _, ⟨by omega, by omega⟩, by omega⟩
            · intro r2 hr2
              exact Or.inl ⟨r2, hr2, le_refl _, le_refl _, rfl⟩
            · exact hS
            · intro prev _ _ hp3 h hh
              cases head_some_of_cons hh
              exact (hp3 cur rfl).2

theorem add_loop_sem (l : List range_tombstone) :
    ∀ (start stop : Int) (tomb : tombstone),
      rtlist_inv l → l.Chain' snext → start ≤ stop →
      (∀ r ∈ l, ∀ k, rt_covers r k →
        ∃ r2 ∈ add_loop l start stop tomb, rt_covers r2 k ∧
          r.tomb.timestamp ≤ r2.tomb.timestamp) ∧
      (∀ k, start ≤ k → k ≤ stop →
        ∃ r2 ∈ add_loop l start stop tomb, rt_covers r2 k ∧
          tomb.timestamp ≤ r2.tomb.timestamp) ∧
      (∀ r2 ∈ add_loop l start stop tomb,
        (∃ r ∈ l, r.start ≤ r2.start ∧ r2.stop ≤ r.stop ∧ r2.tomb = r.tomb) ∨
        (start ≤ r2.start ∧ r2.stop ≤ stop ∧ r2.tomb = tomb)) ∧
      (add_loop l start stop tomb).Chain' snext ∧
      (∀ prev : range_tombstone, prev.stop < start →
        (∀ c, l.head? = some c → chain_ok prev c ∧ snext prev c) →
        ∀ h, (add_loop l start stop tomb).head? = some h → snext prev h) := by
  induction l with
  | nil =>
    intro start stop tomb _ _ h2
    have hres : add_loop [] start stop tomb = [⟨start, stop, tomb⟩] := rfl
    rw [hres]
    refine ⟨?_, ?_, ?_, List.chain'_singleton _, ?_⟩
    · intro r hr
      cases hr
    · intro k hk1 hk2
      exact ⟨⟨start, stop, tomb⟩, List.mem_cons_self _ _,
        rt_covers_mk.mpr ⟨hk1, hk2⟩, le_refl _⟩
    · intro r2 hr2
      cases List.mem_singleton.mp hr2
      exact Or.inr ⟨le_refl _, le_refl _, rfl⟩
    · intro prev hp1 _ h hh
      cases head_some_of_cons hh
      exact snext_mk_right.mpr fun e1 e2 => by exfalso; omega
  | cons cur tail ih =>
    intro start stop tomb hinv hsn h2
    obtain ⟨hwf_cur, hcurhead, hinv_tail⟩ := rtlist_inv_cons.mp hinv
    obtain ⟨hsnhead, hsn_tail⟩ := List.chain'_cons'.mp hsn
    rw [add_loop_cons]
    by_cases hc : cur.stop < start
    · rw [if_pos hc]
      obtain ⟨ih1, ih2, ih3, ih4, ih5⟩ := ih start stop tomb hinv_tail hsn_tail h2
      refine ⟨?_, ?_, ?_, ?_, ?_⟩
      · intro r hr k hk
        rcases List.mem_cons.mp hr with rfl | hm
        · exact ⟨r, List.mem_cons_self _ _, hk, le_refl _⟩
        · obtain ⟨r2, hm2, hc2, ht2⟩ := ih1 r hm k hk
          exact ⟨r2, List.mem_cons_of_mem _ hm2, hc2, ht2⟩
      · intro k hk1 hk2
        obtain ⟨r2, hm2, hc2, ht2⟩ := ih2 k hk1 hk2
        exact ⟨r2, List.mem_cons_of_mem _ hm2, hc2, ht2⟩
      · intro r2 hr2
        rcases List.mem_cons.mp hr2 with rfl | hm
        · exact Or.inl ⟨r2, List.mem_cons_self _ _, le_refl _, le_refl _, rfl⟩
        rcases ih3 r2 hm with ⟨r, hm2, hsub⟩ | hnew
        · exact Or.inl ⟨r, List.mem_cons_of_mem _ hm2, hsub⟩
        · exact Or.inr hnew
      · refine List.chain'_cons'.mpr ⟨?_, ih4⟩
        intro y hy
        exact ih5 cur hc
          (fun c hcn => ⟨hcurhead c hcn, hsnhead c (Option.mem_def.mpr hcn)⟩)
          y (Option.mem_def.mp hy)
      · intro prev _ hp3 h hh
        cases head_some_of_cons hh
        exact (hp3 cur rfl).2
    · rw [if_neg hc]
      have h3 : ∀ c, (cur :: tail).head? = some c → start ≤ c.stop := by
        intro c hcc
        cases head_some_of_cons hcc
        omega
      obtain ⟨s1, s2, s3, s4, s5⟩ :=
        insert_from_sem (cur :: tail) start stop tomb hinv hsn h2 h3
      refine ⟨s1, s2, s3, s4, ?_⟩
      intro prev hp1 hp3 h hh
      exact s5 prev (by omega) (fun e1 e2 => by exfalso; omega) hp3 h hh

theorem add_sem (l : List range_tombstone) (start stop : Int) (tomb : tombstone)
    (hinv : rtlist_inv l) (hsn : l.Chain' snext) (h2 : start ≤ stop) :
    (∀ r ∈ l, ∀ k, rt_covers r k →
      ∃ r2 ∈ range_tombstone_list.add l start stop tomb, rt_covers r2 k ∧
        r.tomb.timestamp ≤ r2.tomb.timestamp) ∧
    (∀ k, start ≤ k → k ≤ stop →
      ∃ r2 ∈ range_tombstone_list.add l start stop tomb, rt_covers r2 k ∧
        tomb.timestamp ≤ r2.tomb.timestamp) ∧
    (∀ r2 ∈ range_tombstone_list.add l start stop tomb,
      (∃ r ∈ l, r.start ≤ r2.start ∧ r2.stop ≤ r.stop ∧ r2.tomb = r.tomb) ∨
      (start ≤ r2.start ∧ r2.stop ≤ stop ∧ r2.tomb = tomb)) ∧
    (range_tombstone_list.add l start stop tomb).Chain' snext := by
  cases hg : l.getLast? with
  | none =>
    have hres : range_tombstone_list.add l start stop tomb = l ++ [⟨start, stop, tomb⟩] := by
      unfold range_tombstone_list.add
      rw [hg]
    rw [hres]
    have hl : l = [] := by
      cases l with
      | nil => rfl
      | cons x xs => simp at hg
    subst hl
    refine ⟨?_, ?_, ?_, ?_⟩
    · intro r hr
      cases hr
    · intro k hk1 hk2
      exact ⟨⟨start, stop, tomb⟩, List.mem_cons_self _ _,
        rt_covers_mk.mpr ⟨hk1, hk2⟩, le_refl _⟩
    · intro r2 hr2
      rcases List.mem_append.mp hr2 with hm | hm
      · cases hm
      · cases List.mem_singleton.mp hm
        exact Or.inr ⟨le_refl _, le_refl _, rfl⟩
    · exact List.chain'_singleton _
  | some last =>
    have hres : range_tombstone_list.add l start stop tomb =
        if ¬ last.stop < start then add_loop l start stop tomb
        else l ++ [⟨start, stop, tomb⟩] := by
      unfold range_tombstone_list.add
      rw [hg]
    rw [hres]
    by_cases hf : ¬ last.stop < start
    · rw [if_pos hf]
      obtain ⟨a1, a2, a3, a4, _⟩ := add_loop_sem l start stop tomb hinv hsn h2
      exact ⟨a1, a2, a3, a4⟩
    · rw [if_neg hf]
      refine ⟨?_, ?_, ?_, ?_⟩
      · intro r hr k hk
        exact ⟨r, List.mem_append_left _ hr, hk, le_refl _⟩
      · intro k hk1 hk2
        exact ⟨⟨start, stop, tomb⟩, List.mem_append_right _ (List.mem_cons_self _ _),
          rt_covers_mk.mpr ⟨hk1, hk2⟩, le_refl _⟩
      · intro r2 hr2
        rcases List.mem_append.mp hr2 with hm | hm
        · exact Or.inl ⟨r2, hm, le_refl _, le_refl _, rfl⟩
        · cases List.mem_singleton.mp hm
          exact Or.inr ⟨le_refl _, le_refl _, rfl⟩
      · rw [List.chain'_append]
        refine ⟨hsn, List.chain'_singleton _, ?_⟩
        intro x hx y hy
        have hx2 : x = last := by
          rw [Option.mem_def] at hx
          rw [hx] at hg
          exact Option.some_inj.mp hg
        have hy2 : y = (⟨start, stop, tomb⟩ : range_tombstone) := by
          have := hy
          simp only [Option.mem_def, List.head?_cons] at this
          exact (Option.some_inj.mp this).symm
        subst hx2
        subst hy2
        exact snext_mk_right.mpr fun e1 e2 => by exfalso; omega

theorem build_inv_nil : build_inv [] [] := by
  refine ⟨rtlist_inv_nil, List.chain'_nil, ?_, ?_⟩
  · intro r hr
    cases hr
  · intro op hop
    cases hop

theorem build_inv_step (ops : List (Int × Int × tombstone)) (l : List range_tombstone)
    (op : Int × Int × tombstone) (hbi : build_inv ops l) (hop : op.1 ≤ op.2.1) :
    build_inv (ops ++ [op]) (range_tombstone_list.add l op.1 op.2.1 op.2.2) := by
  obtain ⟨hinv, hsn, hprov, hcov⟩ := hbi
  obtain ⟨a1, a2, a3, a4⟩ := add_sem l op.1 op.2.1 op.2.2 hinv hsn hop
  refine ⟨add_preserves_inv l op.1 op.2.1 op.2.2 hinv hop, a4, ?_, ?_⟩
  · intro r2 hr2
    rcases a3 r2 hr2 with ⟨r, hm, h1, h2, h3⟩ | ⟨h1, h2, h3⟩
    · obtain ⟨op2, hm2, ho1, ho2, ho3⟩ := hprov r hm
      exact ⟨op2, List.mem_append_left _ hm2, by omega, by omega, h3.trans ho3⟩
    · exact ⟨op, List.mem_append_right _ (List.mem_cons_self _ _), h1, h2, h3⟩
  · intro op2 hop2 k hk
    rcases List.mem_append.mp hop2 with hm | hm
    · obtain ⟨r, hrm, hrc, hrt⟩ := hcov op2 hm k hk
      obtain ⟨r2, hm2, hc2, ht2⟩ := a1 r hrm k hrc
      exact ⟨r2, hm2, hc2, by omega⟩
    · cases List.mem_singleton.mp hm
      obtain ⟨hk1, hk2⟩ := hk
      obtain ⟨r2, hm2, hc2, ht2⟩ := a2 k hk1 hk2
      exact ⟨r2, hm2, hc2, ht2⟩

theorem build_sem_gen (ops2 : List (Int × Int × tombstone)) :
    ∀ (ops1 : List (Int × Int × tombstone)) (l : List range_tombstone),
      build_inv ops1 l → (∀ op ∈ ops2, op.1 ≤ op.2.1) →
      build_inv (ops1 ++ ops2)
        (ops2.foldl (fun l op => range_tombstone_list.add l op.1 op.2.1 op.2.2) l) := by
  induction ops2 with
  | nil =>
    intro ops1 l h _
    simpa using h
  | cons op rest ih =>
    intro ops1 l hbi hw
    have hstep := build_inv_step ops1 l op hbi (hw op (List.mem_cons_self _ _))
    have hres := ih (ops1 ++ [op]) _ hstep (fun o ho => hw o (List.mem_cons_of_mem _ ho))
    rw [List.append_assoc] at hres
    simpa using hres

theorem build_rtlist_sem (ops : List (Int × Int × tombstone))
    (hops : ∀ op ∈ ops, op.1 ≤ op.2.1) : build_inv ops (build_rtlist ops) := by
  have := build_sem_gen ops [] [] build_inv_nil hops
  simpa [build_rtlist] using this

/-- C4: search_tombstone_covering on a list built by a sequence of well-formed
add calls returns, for a covered key, the tombstone of one of the insertions
that cover the key, carrying the highest timestamp among all covering
insertions; for an uncovered key it returns the empty tombstone. -/
theorem C4_search_coverage (ops : List (Int × Int × tombstone))
    (hops : ∀ op ∈ ops, op.1 ≤ op.2.1) (key : Int) :
    ((∀ op ∈ ops, ¬ op_covers op key) →
      search_tombstone_covering (build_rtlist ops) key = tombstone.empty) ∧
    (∀ op0 ∈ ops, op_covers op0 key →
      ∃ op ∈ ops, op_covers op key ∧
        search_tombstone_covering (build_rtlist ops) key = op.2.2 ∧
        ∀ op2 ∈ ops, op_covers op2 key → op2.2.2.timestamp ≤ op.2.2.timestamp) := by
  obtain ⟨hinv, hsn, hprov, hcov⟩ := build_rtlist_sem ops hops
  constructor
  · intro hnone
    apply search_none
    intro r hr hc
    obtain ⟨op, hopm, ho1, ho2, _⟩ := hprov r hr
    obtain ⟨hc1, hc2⟩ := hc
    exact hnone op hopm ⟨by omega, by omega⟩
  · intro op0 hop0 hcv0
    obtain ⟨rw0, hrw0, hrc0, _⟩ := hcov op0 hop0 key hcv0
    obtain ⟨r, hrl, hrc, hrs, hrmax⟩ :=
      search_covering (build_rtlist ops) key hinv.1 hinv.2 hsn rw0 hrw0 hrc0
    obtain ⟨op, hopm, ho1, ho2, ho3⟩ := hprov r hrl
    obtain ⟨hc1, hc2⟩ := hrc
    refine ⟨op, hopm, ⟨by omega, by omega⟩, by rw [hrs, ho3], ?_⟩
    intro op2 hop2 hcv2
    obtain ⟨r2, hr2m, hr2c, hr2t⟩ := hcov op2 hop2 key hcv2
    have := hrmax r2 hr2m hr2c
    have hts : r.tomb.timestamp = op.2.2.timestamp := by rw [ho3]
    omega

/-- Witness for C4 on the add sequence of the
test_overlapping_previous_end_equals_start unit test: key 8 is covered by the
insertion (4, 10, ts 5) which carries the maximal covering timestamp, and
key 20 is covered by nothing. -/
theorem C4_witness :
    (∃ op ∈ c4_ops, op_covers op 8 ∧
      search_tombstone_covering (build_rtlist c4_ops) 8 = op.2.2 ∧
      ∀ op2 ∈ c4_ops, op_covers op2 8 → op2.2.2.timestamp ≤ op.2.2.timestamp) ∧
    search_tombstone_covering (build_rtlist c4_ops) 20 = tombstone.empty ∧
    search_tombstone_covering (build_rtlist c4_ops) 8 = test_tomb 5 :=
  ⟨(C4_search_coverage c4_ops (by decide) 8).2 (4, 10, test_tomb 5) (by decide)
      (by unfold op_covers; decide),
    (C4_search_coverage c4_ops (by decide) 20).1 (by unfold op_covers; decide),
    by decide⟩
